import Mathlib

/-!
Verification of the B-tree engine in `btree/btree.go` of bongnv/go-container
(a generic copy-on-write B-tree).

Shallow embedding conventions:
* Go slices become `List`; Go `int` counters become `Nat` (all arithmetic on
  them in the verified paths is guarded by invariants that keep it in range);
  the public rank index of `GetAt` stays `Int` because the Go code accepts and
  tests negative indices.
* The comparator `tr.less` must be a strict total order (spec section 6), where
  mutually-incomparable items "compare equal" yet may be distinct values.  We
  model that faithfully as a key projection `key : A → K` into a linear order
  with `less a b := key a < key b`; every strict weak order arises this way.
* A Go `(T, bool)` result whose `false` case carries `tr.empty` becomes
  `Option A`; a Go runtime panic (out-of-range slice index) also becomes
  `none` on an `Option`-valued function.
* Mutating Go functions that update nodes through pointers become pure
  functions returning the updated node (the spec itself, section 9, endorses
  this recursion-returns-the-new-reference reading).
-/

set_option maxHeartbeats 1600000

namespace GoBTree

/-- Mirror of the Go `node[T]` struct: a cached subtree item `count`, the
sorted `items` run, and `children` that are `nil` for a leaf (here: a separate
constructor) or a slice of child nodes for an internal node. -/
inductive BNode (α : Type) : Type where
  | leaf (count : Nat) (items : List α)
  | inner (count : Nat) (items : List α) (children : List (BNode α))

namespace BNode

variable {α : Type}

/-- The `items` field of a node. -/
def items : BNode α → List α
  | .leaf _ its => its
  | .inner _ its _ => its

/-- The cached subtree-count field of a node. -/
def cnt : BNode α → Nat
  | .leaf c _ => c
  | .inner c _ _ => c

/-- Mirror of Go `n.leaf()`: whether `children == nil`. -/
def isLeaf : BNode α → Bool
  | .leaf _ _ => true
  | .inner _ _ _ => false

@[simp] theorem items_leaf (c : Nat) (its : List α) : (BNode.leaf c its).items = its := rfl

@[simp] theorem items_inner (c : Nat) (its : List α) (cs : List (BNode α)) :
    (BNode.inner c its cs).items = its := rfl

@[simp] theorem cnt_leaf (c : Nat) (its : List α) : (BNode.leaf c its).cnt = c := rfl

@[simp] theorem cnt_inner (c : Nat) (its : List α) (cs : List (BNode α)) :
    (BNode.inner c its cs).cnt = c := rfl

@[simp] theorem isLeaf_leaf (c : Nat) (its : List α) : (BNode.leaf c its).isLeaf = true := rfl

@[simp] theorem isLeaf_inner (c : Nat) (its : List α) (cs : List (BNode α)) :
    (BNode.inner c its cs).isLeaf = false := rfl

/-- Structural induction for the nested inductive `BNode`: to prove `P` for
every node it suffices to prove it for leaves and for internal nodes all of
whose children already satisfy `P`. -/
theorem inductionOn {P : BNode α → Prop}
    (hleaf : ∀ c its, P (BNode.leaf c its))
    (hinner : ∀ c its cs, (∀ n ∈ cs, P n) → P (BNode.inner c its cs)) :
    ∀ n, P n := by
  have key : ∀ (sz : Nat) (n : BNode α), sizeOf n ≤ sz → P n := by
    intro sz
    induction sz with
    | zero =>
      intro n hn
      cases n <;> simp at hn
    | succ sz ih =>
      intro n hn
      cases n with
      | leaf c its => exact hleaf c its
      | inner c its cs =>
        refine hinner c its cs (fun m hm => ih m ?_)
        have hlt := List.sizeOf_lt_of_mem hm
        simp at hn
        omega
  exact fun n => key (sizeOf n) n le_rfl

end BNode

mutual

/-- In-order item sequence of a subtree, mirroring the traversal order of Go
`nodeScan` / `nodeItems`: for an internal node, child `i` before item `i`,
then the child at index `len(items)`.  (Go indexes `children[i]` blindly; if
the children slice were too short it would panic — the shape invariant rules
that out, and here the missing-children case yields `[]`.) -/
def BNode.inorder {α : Type} : BNode α → List α
  | .leaf _ its => its
  | .inner _ its cs => inorderZip its cs

/-- Helper for `BNode.inorder`: walk the items with the remaining children. -/
def inorderZip {α : Type} : List α → List (BNode α) → List α
  | _, [] => []
  | [], c :: _ => c.inorder
  | x :: its, c :: cs => c.inorder ++ x :: inorderZip its cs

end

@[simp] theorem inorder_leaf {α : Type} (c : Nat) (its : List α) :
    (BNode.leaf c its).inorder = its := by
  simp [BNode.inorder]

@[simp] theorem inorder_inner {α : Type} (c : Nat) (its : List α) (cs : List (BNode α)) :
    (BNode.inner c its cs).inorder = inorderZip its cs := by
  simp [BNode.inorder]

@[simp] theorem inorderZip_nil_right {α : Type} (its : List α) :
    inorderZip its ([] : List (BNode α)) = [] := by
  cases its <;> simp [inorderZip]

@[simp] theorem inorderZip_nil_left {α : Type} (c : BNode α) (cs : List (BNode α)) :
    inorderZip [] (c :: cs) = c.inorder := by
  simp [inorderZip]

@[simp] theorem inorderZip_cons_cons {α : Type} (x : α) (its : List α)
    (c : BNode α) (cs : List (BNode α)) :
    inorderZip (x :: its) (c :: cs) = c.inorder ++ x :: inorderZip its cs := by
  simp [inorderZip]

section Search

variable {α K : Type} [LinearOrder K]

/-- Loop of Go `bsearch` (btree.go lines 97-105): shrink `[low, high)` with
`h := (low+high)/2`, moving `low` past `h` when `!tr.less(key, items[h])`.
The `none` branch is Go indexing out of range, unreachable while
`high ≤ items.length`. -/
def bsearchLoop (key : α → K) (k : α) (items : List α) (low high : Nat) : Nat :=
  if low < high then
    let h := (low + high) / 2
    match items[h]? with
    | some it => if key k < key it then bsearchLoop key k items low h
                 else bsearchLoop key k items (h + 1) high
    | none => low
  else low
termination_by high - low
decreasing_by all_goals omega

/-- Mirror of Go `bsearch` (btree.go lines 96-110): binary search over
`n.items` returning `(index, found)`, where `found` checks
`low > 0 && !tr.less(items[low-1], key)`. -/
def bsearch (key : α → K) (n : BNode α) (k : α) : Nat × Bool :=
  let low := bsearchLoop key k n.items 0 n.items.length
  if low > 0 then
    match n.items[low - 1]? with
    | some it => if key it < key k then (low, false) else (low - 1, true)
    | none => (low, false)
  else (low, false)

/-- Characterization of the index computed by the binary-search loop: `r` is
the count of leading items at-most `k`, every later item is above `k`. -/
def IsUB (key : α → K) (k : α) (items : List α) (r : Nat) : Prop :=
  r ≤ items.length ∧
    (∀ j, (hj : j < items.length) → j < r → key items[j] ≤ key k) ∧
    (∀ j, (hj : j < items.length) → r ≤ j → key k < key items[j])

theorem IsUB.unique {key : α → K} {k : α} {items : List α} {r₁ r₂ : Nat}
    (h₁ : IsUB key k items r₁) (h₂ : IsUB key k items r₂) : r₁ = r₂ := by
  rcases h₁ with ⟨hle₁, hlo₁, hhi₁⟩
  rcases h₂ with ⟨hle₂, hlo₂, hhi₂⟩
  by_contra hne
  rcases Nat.lt_or_ge r₁ r₂ with h | h
  · have hj : r₁ < items.length := lt_of_lt_of_le h hle₂
    exact absurd (hlo₂ r₁ hj h) (not_le.mpr (hhi₁ r₁ hj le_rfl))
  · rcases Nat.lt_or_ge r₂ r₁ with h2 | h2
    · have hj : r₂ < items.length := lt_of_lt_of_le h2 hle₁
      exact absurd (hlo₁ r₂ hj h2) (not_le.mpr (hhi₂ r₂ hj le_rfl))
    · exact hne (le_antisymm h2 h)

theorem pairwise_mono {key : α → K} {items : List α}
    (hsort : items.Pairwise (fun a b => key a < key b)) :
    ∀ i j, (hi : i < items.length) → (hj : j < items.length) → i ≤ j →
      key items[i] ≤ key items[j] := by
  intro i j hi hj hij
  rcases Nat.eq_or_lt_of_le hij with rfl | hlt
  · exact le_rfl
  · exact le_of_lt (List.pairwise_iff_getElem.mp hsort i j hi hj hlt)

theorem bsearchLoop_isUB {key : α → K} {k : α} {items : List α}
    (hsort : items.Pairwise (fun a b => key a < key b)) :
    ∀ d low high, high - low ≤ d → high ≤ items.length → low ≤ high →
    (∀ j, (hj : j < items.length) → j < low → key items[j] ≤ key k) →
    (∀ j, (hj : j < items.length) → high ≤ j → key k < key items[j]) →
    IsUB key k items (bsearchLoop key k items low high) := by
  intro d
  induction d with
  | zero =>
    intro low high hd hlen hlh hA hB
    have heq : low = high := by omega
    subst heq
    rw [bsearchLoop, if_neg (lt_irrefl low)]
    exact ⟨hlen, fun j hj hjlo => hA j hj hjlo, fun j hj hjhi => hB j hj hjhi⟩
  | succ d ih =>
    intro low high hd hlen hlh hA hB
    rw [bsearchLoop]
    by_cases hlt : low < high
    · rw [if_pos hlt]
      have hm : (low + high) / 2 < items.length := by omega
      simp only [List.getElem?_eq_getElem hm]
      by_cases hkey : key k < key items[(low + high) / 2]
      · rw [if_pos hkey]
        refine ih low ((low + high) / 2) (by omega) (by omega) (by omega) hA ?_
        intro j hj hjm
        exact lt_of_lt_of_le hkey (pairwise_mono hsort _ j hm hj hjm)
      · rw [if_neg hkey]
        refine ih ((low + high) / 2 + 1) high (by omega) hlen (by omega) ?_ hB
        intro j hj hjm
        exact le_trans (pairwise_mono hsort j _ hj hm (by omega)) (not_lt.mp hkey)
    · rw [if_neg hlt]
      exact ⟨by omega, fun j hj hjlo => hA j hj hjlo, fun j hj hjhi => hB j hj (by omega)⟩

theorem bsearch_isUB {key : α → K} {k : α} {n : BNode α}
    (hsort : n.items.Pairwise (fun a b => key a < key b)) :
    IsUB key k n.items (bsearchLoop key k n.items 0 n.items.length) := by
  refine bsearchLoop_isUB hsort n.items.length 0 n.items.length (by omega) le_rfl
    (Nat.zero_le _) (fun j hj hjlo => absurd hjlo (Nat.not_lt_zero j)) ?_
  intro j hj hjhi
  omega

theorem bsearch_unfold (key : α → K) (n : BNode α) (k : α) (low : Nat)
    (hlow : low = bsearchLoop key k n.items 0 n.items.length) :
    bsearch key n k =
      if low > 0 then
        match n.items[low - 1]? with
        | some it => if key it < key k then (low, false) else (low - 1, true)
        | none => (low, false)
      else (low, false) := by
  subst hlow
  rfl

/-- Full input-output characterisation of `bsearch` on a sorted node,
the workhorse behind the search, insert and delete developments. -/
theorem bsearch_spec (key : α → K) (n : BNode α) (k : α)
    (hsort : n.items.Pairwise (fun a b => key a < key b)) :
    ((bsearch key n k).2 = true →
      ∃ it, n.items[(bsearch key n k).1]? = some it ∧
        ¬ key it < key k ∧ ¬ key k < key it) ∧
    ((bsearch key n k).2 = false →
      (∀ j, (hj : j < n.items.length) → j < (bsearch key n k).1 →
        key n.items[j] < key k) ∧
      (∀ j, (hj : j < n.items.length) → (bsearch key n k).1 ≤ j →
        key k < key n.items[j]) ∧
      (∀ it ∈ n.items, ¬ (¬ key it < key k ∧ ¬ key k < key it))) := by
  have hub := bsearch_isUB (k := k) hsort
  set low := bsearchLoop key k n.items 0 n.items.length with hlowdef
  obtain ⟨hlowle, hA, hB⟩ := hub
  rw [bsearch_unfold key n k low hlowdef]
  by_cases hpos : low > 0
  · have hlm : low - 1 < n.items.length := by omega
    rw [if_pos hpos, List.getElem?_eq_getElem hlm]
    simp only
    by_cases hprev : key n.items[low - 1] < key k
    · rw [if_pos hprev]
      constructor
      · intro hfound
        simp at hfound
      · intro _
        refine ⟨?_, ?_, ?_⟩
        · intro j hj hjlow
          exact lt_of_le_of_lt (pairwise_mono hsort j (low - 1) hj hlm (by omega)) hprev
        · intro j hj hjlow
          exact hB j hj hjlow
        · intro it hit
          obtain ⟨j, hj, rfl⟩ := List.getElem_of_mem hit
          rcases Nat.lt_or_ge j low with hc | hc
          · intro hcontra
            exact hcontra.1 (lt_of_le_of_lt
              (pairwise_mono hsort j (low - 1) hj hlm (by omega)) hprev)
          · intro hcontra
            exact hcontra.2 (hB j hj hc)
    · rw [if_neg hprev]
      constructor
      · intro _
        refine ⟨n.items[low - 1], List.getElem?_eq_getElem hlm, hprev, ?_⟩
        exact not_lt.mpr (hA (low - 1) hlm (by omega))
      · intro hfound
        simp at hfound
  · rw [if_neg hpos]
    have hlow0 : low = 0 := by omega
    constructor
    · intro hfound
      simp at hfound
    · intro _
      refine ⟨?_, ?_, ?_⟩
      · intro j hj hjlow
        omega
      · intro j hj hjlow
        exact hB j hj (hlow0 ▸ Nat.zero_le j)
      · intro it hit
        obtain ⟨j, hj, rfl⟩ := List.getElem_of_mem hit
        intro hcontra
        exact hcontra.2 (hB j hj (hlow0 ▸ Nat.zero_le j))

/-- C5.  For a node whose items are strictly increasing under the comparator,
`bsearch` returns `(index, found)` with: if `found`, the item at `index`
compares equal to the key (neither `less(items[index], k)` nor
`less(k, items[index])` holds); if not `found`, `index` is the lower-bound
insertion position (`less(items[j], k)` for every `j < index`,
`less(k, items[j])` for every `j ≥ index`) and no stored item compares equal
to `k`.  Equality is the absence of `less` in both directions, the only
relation the code consults. -/
theorem bsearch_correct (key : α → K) (n : BNode α) (k : α)
    (hsort : n.items.Pairwise (fun a b => key a < key b)) :
    ((bsearch key n k).2 = true →
      ∃ it, n.items[(bsearch key n k).1]? = some it ∧
        ¬ key it < key k ∧ ¬ key k < key it) ∧
    ((bsearch key n k).2 = false →
      (∀ j, (hj : j < n.items.length) → j < (bsearch key n k).1 →
        key n.items[j] < key k) ∧
      (∀ j, (hj : j < n.items.length) → (bsearch key n k).1 ≤ j →
        key k < key n.items[j]) ∧
      (∀ it ∈ n.items, ¬ (¬ key it < key k ∧ ¬ key k < key it))) :=
  bsearch_spec key n k hsort

/-- Witness for C5 at a concrete input: the node `[1, 2, 3]` searched for key
`2` (present) exercises the theorem with its sortedness hypothesis discharged
by computation. -/
theorem bsearch_correct_witness :
    ((bsearch (fun x : Int => x) (BNode.leaf 3 [1, 2, 3]) 2).2 = true →
      ∃ it, (BNode.leaf 3 [(1 : Int), 2, 3]).items[(bsearch (fun x : Int => x)
          (BNode.leaf 3 [1, 2, 3]) 2).1]? = some it ∧
        ¬ it < 2 ∧ ¬ (2 : Int) < it) ∧
    ((bsearch (fun x : Int => x) (BNode.leaf 3 [1, 2, 3]) 2).2 = false →
      (∀ j, (hj : j < (BNode.leaf 3 [(1 : Int), 2, 3]).items.length) →
        j < (bsearch (fun x : Int => x) (BNode.leaf 3 [1, 2, 3]) 2).1 →
        ((BNode.leaf 3 [(1 : Int), 2, 3]).items[j]) < 2) ∧
      (∀ j, (hj : j < (BNode.leaf 3 [(1 : Int), 2, 3]).items.length) →
        (bsearch (fun x : Int => x) (BNode.leaf 3 [1, 2, 3]) 2).1 ≤ j →
        (2 : Int) < ((BNode.leaf 3 [(1 : Int), 2, 3]).items[j])) ∧
      (∀ it ∈ (BNode.leaf 3 [(1 : Int), 2, 3]).items,
        ¬ (¬ it < 2 ∧ ¬ (2 : Int) < it))) :=
  bsearch_correct (fun x : Int => x) (BNode.leaf 3 [1, 2, 3]) 2 (by
    simp [BNode.items])

end Search

/-- Mirror of the Go `PathHint` struct: `used [8]bool` and `path [8]uint8`,
modelled as lists read with default `false` / `0` and written with `List.set`
(an out-of-range write is a no-op, matching a fixed array that only ever gets
indices below 8 in the code).  Path entries are stored modulo 256 because Go
truncates to `uint8` on write. -/
structure PathHint where
  used : List Bool
  path : List Nat

section HintSearch

variable {α K : Type} [LinearOrder K]

/-- The Go `for i := depth + 1; i < 8; i++ { hint.used[i] = false }` loop in
`hintsearch` (btree.go lines 187-189). -/
def setFalseLoop (u : List Bool) (i : Nat) : List Bool :=
  if i < 8 then setFalseLoop (u.set i false) (i + 1) else u
termination_by 8 - i
decreasing_by omega

/-- The `path_match` block of Go `hintsearch` (btree.go lines 176-191):
record this depth in the hint (for a leaf hit the index is bumped by one so
that a subsequent nearby search lands on the tail side) and invalidate all
deeper entries when the stored byte changes. -/
def pathMatchUpdate (hint : PathHint) (depth : Nat) (isLeaf : Bool)
    (index : Nat) (found : Bool) : PathHint :=
  if depth < 8 then
    let used1 := hint.used.set depth true
    let pathIndex := (if isLeaf ∧ found then index + 1 else index) % 256
    if pathIndex ≠ hint.path.getD depth 0 then
      { used := setFalseLoop used1 (depth + 1), path := hint.path.set depth pathIndex }
    else
      { used := used1, path := hint.path }
  else hint

/-- Loop of Go `hintsearch` (btree.go lines 152-161): binary search between
Int bounds `low ≤ high` with `mid := low + ((high+1)-low)/2`, moving `low`
past `mid` when `!tr.less(key, items[mid])`.  Bounds are `Int` because Go
lets `high` drop to `-1`.  The `none` branch models a Go index panic and is
unreachable for the bounds this function is called with. -/
def hintLoopGo (key : α → K) (k : α) (items : List α) (low high : Int) : Int :=
  if low ≤ high then
    let mid := low + ((high + 1) - low) / 2
    match items[mid.toNat]? with
    | some it => if key k < key it then hintLoopGo key k items low (mid - 1)
                 else hintLoopGo key k items (mid + 1) high
    | none => low
  else low
termination_by (high + 1 - low).toNat
decreasing_by all_goals omega

/-- The post-loop classification of Go `hintsearch` (btree.go lines 168-174):
`low > 0 && !tr.less(items[low-1], key)` means the entry at `low-1` is the
key. -/
def hintFinish (key : α → K) (items : List α) (k : α) (low : Int) : Nat × Bool :=
  if low > 0 then
    match items[(low - 1).toNat]? with
    | some it => if key it < key k then (low.toNat, false) else ((low - 1).toNat, true)
    | none => (low.toNat, false)
  else (low.toNat, false)

/-- Binary search between bounds followed by the classification step, the
fall-through path of Go `hintsearch`. -/
def hintLoop (key : α → K) (items : List α) (k : α) (low high : Int) : Nat × Bool :=
  hintFinish key items k (hintLoopGo key k items low high)

/-- The narrowed continuation of the hint block of Go `hintsearch` (btree.go
lines 136-146) once `index` is known to be in range: compare the key against
`items[index]` (and `items[index-1]`) to either answer directly or narrow the
binary-search bounds.  `none` models the Go panics on out-of-range indices,
unreachable from `hintsearchCore`. -/
def hintAfter (key : α → K) (items : List α) (k : α) (index : Nat) :
    Option (Nat × Bool) :=
  match items[index]? with
  | none => none
  | some it =>
    if key k < key it then
      if index = 0 then some (index, false)
      else
        match items[index - 1]? with
        | none => none
        | some itp =>
          if key itp < key k then some (index, false)
          else some (hintLoop key items k 0 ((index : Int) - 1))
    else if key it < key k then
      some (hintLoop key items k ((index : Int) + 1) ((items.length : Int) - 1))
    else some (index, true)

/-- The `(index, found)` computation of Go `hintsearch` (btree.go lines
120-174): consult the hint entry for this depth if present (clamping a stale
out-of-range index after the tail-item check), otherwise fall through to the
full binary search.  `none` models the Go panic that reads
`items[len(items)-1]` on a node with no items. -/
def hintsearchCore (key : α → K) (items : List α) (k : α) (hint : PathHint)
    (depth : Nat) : Option (Nat × Bool) :=
  if depth < 8 ∧ hint.used.getD depth false then
    let index := hint.path.getD depth 0
    if index ≥ items.length then
      match items[items.length - 1]? with
      | none => none
      | some last =>
        if key last < key k then some (items.length, false)
        else hintAfter key items k (items.length - 1)
    else hintAfter key items k index
  else some (hintLoop key items k 0 ((items.length : Int) - 1))

/-- Mirror of Go `hintsearch` (btree.go lines 120-193): the search result
paired with the updated hint.  `none` models the Go runtime panic (only
reachable on a node with no items and a used hint entry). -/
def hintsearch (key : α → K) (n : BNode α) (k : α) (hint : PathHint)
    (depth : Nat) : Option (Nat × Bool × PathHint) :=
  match hintsearchCore key n.items k hint depth with
  | none => none
  | some (index, found) =>
    some (index, found, pathMatchUpdate hint depth n.isLeaf index found)

theorem hintLoopGo_isUB {key : α → K} {k : α} {items : List α}
    (hsort : items.Pairwise (fun a b => key a < key b)) :
    ∀ d (low high : Int), (high + 1 - low).toNat ≤ d → 0 ≤ low →
      low ≤ (items.length : Int) → high < (items.length : Int) →
      (∀ j, (hj : j < items.length) → (j : Int) < low → key items[j] ≤ key k) →
      (∀ j, (hj : j < items.length) → high < (j : Int) → key k < key items[j]) →
      0 ≤ hintLoopGo key k items low high ∧
        IsUB key k items (hintLoopGo key k items low high).toNat := by
  intro d
  induction d with
  | zero =>
    intro low high hd h0 hlen hh hA hB
    rw [hintLoopGo, if_neg (show ¬ low ≤ high by omega)]
    refine ⟨h0, by omega, ?_, ?_⟩
    · intro j hj hjlo
      exact hA j hj (by omega)
    · intro j hj hjhi
      exact hB j hj (by omega)
  | succ d ih =>
    intro low high hd h0 hlen hh hA hB
    rw [hintLoopGo]
    by_cases hle : low ≤ high
    · rw [if_pos hle]
      have hm0 : 0 ≤ low + ((high + 1) - low) / 2 := by omega
      have hmh : low + ((high + 1) - low) / 2 ≤ high := by omega
      have hml : low ≤ low + ((high + 1) - low) / 2 := by omega
      have hmlen : (low + ((high + 1) - low) / 2).toNat < items.length := by omega
      simp only [List.getElem?_eq_getElem hmlen]
      by_cases hk : key k < key items[(low + ((high + 1) - low) / 2).toNat]
      · rw [if_pos hk]
        refine ih low (low + ((high + 1) - low) / 2 - 1) (by omega) h0 hlen (by omega)
          hA ?_
        intro j hj hjm
        exact lt_of_lt_of_le hk
          (pairwise_mono hsort (low + ((high + 1) - low) / 2).toNat j hmlen hj (by omega))
      · rw [if_neg hk]
        refine ih (low + ((high + 1) - low) / 2 + 1) high (by omega) (by omega)
          (by omega) hh ?_ hB
        intro j hj hjm
        exact le_trans
          (pairwise_mono hsort j (low + ((high + 1) - low) / 2).toNat hj hmlen (by omega))
          (not_lt.mp hk)
    · rw [if_neg hle]
      refine ⟨h0, by omega, ?_, ?_⟩
      · intro j hj hjlo
        exact hA j hj (by omega)
      · intro j hj hjhi
        exact hB j hj (by omega)

theorem hintLoop_eq_bsearch (key : α → K) (n : BNode α) (k : α)
    (hsort : n.items.Pairwise (fun a b => key a < key b)) (low high : Int)
    (h0 : 0 ≤ low) (hlen : low ≤ (n.items.length : Int))
    (hh : high < (n.items.length : Int))
    (hA : ∀ j, (hj : j < n.items.length) → (j : Int) < low → key n.items[j] ≤ key k)
    (hB : ∀ j, (hj : j < n.items.length) → high < (j : Int) → key k < key n.items[j]) :
    hintLoop key n.items k low high = bsearch key n k := by
  obtain ⟨hr0, hrUB⟩ := hintLoopGo_isUB hsort ((high + 1 - low).toNat) low high
    le_rfl h0 hlen hh hA hB
  have hbUB := bsearch_isUB (k := k) hsort
  have heq : (hintLoopGo key k n.items low high).toNat =
      bsearchLoop key k n.items 0 n.items.length := IsUB.unique hrUB hbUB
  rw [bsearch_unfold key n k (bsearchLoop key k n.items 0 n.items.length) rfl]
  unfold hintLoop hintFinish
  set r := hintLoopGo key k n.items low high with hr
  set lowB := bsearchLoop key k n.items 0 n.items.length with hlowB
  by_cases hpos : lowB > 0
  · rw [if_pos (show r > 0 by omega), if_pos hpos]
    rw [show (r - 1).toNat = lowB - 1 by omega]
    cases hitem : n.items[lowB - 1]? with
    | none => rw [show r.toNat = lowB by omega]
    | some it =>
      simp only
      by_cases hit : key it < key k
      · rw [if_pos hit, if_pos hit, show r.toNat = lowB by omega]
      · rw [if_neg hit, if_neg hit]
  · rw [if_neg (show ¬ r > 0 by omega), if_neg hpos, show r.toNat = lowB by omega]

theorem bsearch_eq_of_isUB_notfound {key : α → K} {k : α} {n : BNode α}
    (hsort : n.items.Pairwise (fun a b => key a < key b)) (r : Nat)
    (hub : IsUB key k n.items r)
    (hmiss : r = 0 ∨ ∃ hr : r - 1 < n.items.length, key n.items[r - 1] < key k) :
    bsearch key n k = (r, false) := by
  have hbUB := bsearch_isUB (k := k) hsort
  have heq : bsearchLoop key k n.items 0 n.items.length = r := IsUB.unique hbUB hub
  rw [bsearch_unfold key n k (bsearchLoop key k n.items 0 n.items.length) rfl, heq]
  rcases hmiss with rfl | ⟨hr, hlt⟩
  · rw [if_neg (by omega)]
  · by_cases hpos : r > 0
    · rw [if_pos hpos, List.getElem?_eq_getElem hr]
      simp only
      rw [if_pos hlt]
    · rw [if_neg hpos]

theorem bsearch_eq_of_isUB_found {key : α → K} {k : α} {n : BNode α}
    (hsort : n.items.Pairwise (fun a b => key a < key b)) (r : Nat)
    (hub : IsUB key k n.items r) (hpos : r > 0) (hr : r - 1 < n.items.length)
    (hhit : ¬ key n.items[r - 1] < key k) :
    bsearch key n k = (r - 1, true) := by
  have hbUB := bsearch_isUB (k := k) hsort
  have heq : bsearchLoop key k n.items 0 n.items.length = r := IsUB.unique hbUB hub
  rw [bsearch_unfold key n k (bsearchLoop key k n.items 0 n.items.length) rfl, heq,
    if_pos hpos, List.getElem?_eq_getElem hr]
  simp only
  rw [if_neg hhit]

theorem hintAfter_eq_bsearch (key : α → K) (n : BNode α) (k : α)
    (hsort : n.items.Pairwise (fun a b => key a < key b)) (index : Nat)
    (hidx : index < n.items.length) :
    hintAfter key n.items k index = some (bsearch key n k) := by
  unfold hintAfter
  rw [List.getElem?_eq_getElem hidx]
  simp only
  by_cases h1 : key k < key n.items[index]
  · rw [if_pos h1]
    by_cases h2 : index = 0
    · rw [if_pos h2]
      subst h2
      refine congrArg some (bsearch_eq_of_isUB_notfound hsort 0
        ⟨Nat.zero_le _, ?_, ?_⟩ (Or.inl rfl)).symm
      · intro j hj hj0
        omega
      · intro j hj _
        exact lt_of_lt_of_le h1 (pairwise_mono hsort 0 j hidx hj (Nat.zero_le j))
    · rw [if_neg h2]
      have hp : index - 1 < n.items.length := by omega
      rw [List.getElem?_eq_getElem hp]
      simp only
      by_cases h3 : key n.items[index - 1] < key k
      · rw [if_pos h3]
        refine congrArg some (bsearch_eq_of_isUB_notfound hsort index
          ⟨by omega, ?_, ?_⟩ (Or.inr ⟨hp, h3⟩)).symm
        · intro j hj hjlt
          exact le_of_lt (lt_of_le_of_lt
            (pairwise_mono hsort j (index - 1) hj hp (by omega)) h3)
        · intro j hj hjge
          exact lt_of_lt_of_le h1 (pairwise_mono hsort index j hidx hj hjge)
      · rw [if_neg h3]
        refine congrArg some (hintLoop_eq_bsearch key n k hsort 0 ((index : Int) - 1)
          le_rfl (by omega) (by omega) ?_ ?_)
        · intro j hj hjlt
          omega
        · intro j hj hjgt
          have : index ≤ j := by omega
          exact lt_of_lt_of_le h1 (pairwise_mono hsort index j hidx hj this)
  · rw [if_neg h1]
    by_cases h4 : key n.items[index] < key k
    · rw [if_pos h4]
      refine congrArg some (hintLoop_eq_bsearch key n k hsort ((index : Int) + 1)
        ((n.items.length : Int) - 1) (by omega) (by omega) (by omega) ?_ ?_)
      · intro j hj hjlt
        exact le_of_lt (lt_of_le_of_lt
          (pairwise_mono hsort j index hj hidx (by omega)) h4)
      · intro j hj hjgt
        omega
    · rw [if_neg h4]
      have hfound := bsearch_eq_of_isUB_found hsort (index + 1)
        ⟨by omega, ?_, ?_⟩ (by omega) (by simpa using hidx) (by simpa using h4)
      · rw [hfound]
        simp
      · intro j hj hjlt
        exact le_trans (pairwise_mono hsort j index hj hidx (by omega)) (not_lt.mp h1)
      · intro j hj hjge
        exact lt_of_le_of_lt (not_lt.mp h4)
          (List.pairwise_iff_getElem.mp hsort index j hidx hj (by omega))

theorem hintsearchCore_eq_bsearch (key : α → K) (n : BNode α) (k : α)
    (hint : PathHint) (depth : Nat)
    (hsort : n.items.Pairwise (fun a b => key a < key b)) (hne : n.items ≠ []) :
    hintsearchCore key n.items k hint depth = some (bsearch key n k) := by
  have hlen : 0 < n.items.length := List.length_pos.mpr hne
  unfold hintsearchCore
  by_cases hused : depth < 8 ∧ hint.used.getD depth false
  · rw [if_pos hused]
    simp only
    by_cases hidx : hint.path.getD depth 0 ≥ n.items.length
    · rw [if_pos hidx]
      have hl : n.items.length - 1 < n.items.length := by omega
      rw [List.getElem?_eq_getElem hl]
      simp only
      by_cases htail : key n.items[n.items.length - 1] < key k
      · rw [if_pos htail]
        refine congrArg some (bsearch_eq_of_isUB_notfound hsort n.items.length
          ⟨le_rfl, ?_, ?_⟩ (Or.inr ⟨hl, htail⟩)).symm
        · intro j hj _
          exact le_of_lt (lt_of_le_of_lt
            (pairwise_mono hsort j (n.items.length - 1) hj hl (by omega)) htail)
        · intro j hj hjge
          omega
      · rw [if_neg htail]
        exact hintAfter_eq_bsearch key n k hsort (n.items.length - 1) hl
    · rw [if_neg hidx]
      exact hintAfter_eq_bsearch key n k hsort (hint.path.getD depth 0) (by omega)
  · rw [if_neg hused]
    refine congrArg some (hintLoop_eq_bsearch key n k hsort 0
      ((n.items.length : Int) - 1) le_rfl (by omega) (by omega) ?_ ?_)
    · intro j hj hjlt
      omega
    · intro j hj hjgt
      omega

theorem setFalseLoop_getD (u : List Bool) (i j : Nat) :
    (setFalseLoop u i).getD j false =
      if i ≤ j ∧ j < 8 then false else u.getD j false := by
  have main : ∀ d i (u : List Bool), 8 - i ≤ d →
      (setFalseLoop u i).getD j false =
        if i ≤ j ∧ j < 8 then false else u.getD j false := by
    intro d
    induction d with
    | zero =>
      intro i u hd
      rw [setFalseLoop, if_neg (by omega)]
      rw [if_neg (by omega)]
    | succ d ih =>
      intro i u hd
      rw [setFalseLoop]
      by_cases hi : i < 8
      · rw [if_pos hi, ih (i + 1) (u.set i false) (by omega)]
        by_cases hj1 : i + 1 ≤ j ∧ j < 8
        · rw [if_pos hj1, if_pos (by omega)]
        · rw [if_neg hj1]
          by_cases hij : i = j
          · subst hij
            by_cases hlen : i < u.length
            · rw [if_pos (by omega)]
              simp [List.getD_eq_getElem?_getD, List.getElem?_set, hlen]
            · rw [List.set_eq_of_length_le (by omega)]
              rw [if_pos (by omega)]
              simp [List.getD_eq_getElem?_getD, List.getElem?_eq_none (by omega : u.length ≤ i)]
          · rw [if_neg (by omega)]
            simp [List.getD_eq_getElem?_getD, List.getElem?_set, hij]
      · rw [if_neg hi, if_neg (by omega)]
  exact main (8 - i) i u le_rfl

theorem setFalseLoop_length (u : List Bool) (i : Nat) :
    (setFalseLoop u i).length = u.length := by
  have main : ∀ d i (u : List Bool), 8 - i ≤ d → (setFalseLoop u i).length = u.length := by
    intro d
    induction d with
    | zero =>
      intro i u hd
      rw [setFalseLoop, if_neg (by omega)]
    | succ d ih =>
      intro i u hd
      rw [setFalseLoop]
      by_cases hi : i < 8
      · rw [if_pos hi, ih (i + 1) (u.set i false) (by omega), List.length_set]
      · rw [if_neg hi]
  exact main (8 - i) i u le_rfl

theorem getD_set_ne {β : Type} (l : List β) (i j : Nat) (a d : β) (h : i ≠ j) :
    (l.set i a).getD j d = l.getD j d := by
  simp [List.getD_eq_getElem?_getD, List.getElem?_set, h]

theorem getD_set_self {β : Type} (l : List β) (i : Nat) (a d : β) (h : i < l.length) :
    (l.set i a).getD i d = a := by
  simp [List.getD_eq_getElem?_getD, List.getElem?_set, h]

theorem pathMatchUpdate_spec (hint : PathHint) (depth : Nat) (lf : Bool)
    (index : Nat) (found : Bool)
    (hu8 : hint.used.length = 8) (hp8 : hint.path.length = 8) :
    (∀ d, d < depth →
      (pathMatchUpdate hint depth lf index found).used.getD d false =
        hint.used.getD d false ∧
      (pathMatchUpdate hint depth lf index found).path.getD d 0 =
        hint.path.getD d 0) ∧
    (depth < 8 →
      (pathMatchUpdate hint depth lf index found).used.getD depth false = true ∧
      (pathMatchUpdate hint depth lf index found).path.getD depth 0 =
        (if lf ∧ found then index + 1 else index) % 256 ∧
      ((if lf ∧ found then index + 1 else index) % 256 ≠ hint.path.getD depth 0 →
        ∀ d, depth < d → d < 8 →
          (pathMatchUpdate hint depth lf index found).used.getD d false = false) ∧
      ((if lf ∧ found then index + 1 else index) % 256 = hint.path.getD depth 0 →
        (pathMatchUpdate hint depth lf index found).used = hint.used.set depth true ∧
        (pathMatchUpdate hint depth lf index found).path = hint.path)) ∧
    (8 ≤ depth → pathMatchUpdate hint depth lf index found = hint) := by
  unfold pathMatchUpdate
  by_cases hd : depth < 8
  · rw [if_pos hd]
    simp only
    by_cases hne : (if lf ∧ found then index + 1 else index) % 256 ≠ hint.path.getD depth 0
    · rw [if_pos hne]
      refine ⟨?_, ?_, ?_⟩
      · intro d hdd
        constructor
        · rw [setFalseLoop_getD, if_neg (by omega), getD_set_ne _ _ _ _ _ (by omega)]
        · rw [getD_set_ne _ _ _ _ _ (by omega)]
      · intro _
        refine ⟨?_, ?_, ?_, ?_⟩
        · rw [setFalseLoop_getD, if_neg (by omega), getD_set_self _ _ _ _ (by omega)]
        · rw [getD_set_self _ _ _ _ (by omega)]
        · intro _ d hd1 hd2
          rw [setFalseLoop_getD, if_pos (by omega)]
        · intro heq
          exact absurd heq hne
      · intro h8
        omega
    · rw [if_neg hne]
      push_neg at hne
      refine ⟨?_, ?_, ?_⟩
      · intro d hdd
        exact ⟨getD_set_ne _ _ _ _ _ (by omega), rfl⟩
      · intro _
        refine ⟨getD_set_self _ _ _ _ (by omega), by rw [hne], ?_, ?_⟩
        · intro hcontra
          exact absurd hne hcontra
        · intro _
          exact ⟨rfl, rfl⟩
      · intro h8
        omega
  · rw [if_neg hd]
    refine ⟨fun d hdd => ⟨rfl, rfl⟩, fun h8 => absurd h8 hd, fun _ => rfl⟩

/-- C6 (amended: the node must hold at least one item, and the hint arrays
have the Go type length 8).  For any node with strictly increasing items, any
key, any depth and any hint contents — stale or arbitrary — `hintsearch`
returns exactly the `(index, found)` pair that `bsearch` returns; the hint
only determines which `PathHint` entries are updated: entries below `depth`
are untouched, the entry at `depth` is set (for a found leaf hit the stored
byte is `index+1`, else `index`, both modulo 256), and all deeper entries are
invalidated exactly when the stored byte changes. -/
theorem hintsearch_equals_bsearch (key : α → K) (n : BNode α) (k : α)
    (hint : PathHint) (depth : Nat)
    (hsort : n.items.Pairwise (fun a b => key a < key b)) (hne : n.items ≠ [])
    (hu8 : hint.used.length = 8) (hp8 : hint.path.length = 8) :
    hintsearch key n k hint depth =
      some ((bsearch key n k).1, (bsearch key n k).2,
        pathMatchUpdate hint depth n.isLeaf (bsearch key n k).1 (bsearch key n k).2) ∧
    (∀ idx fnd h2, hintsearch key n k hint depth = some (idx, fnd, h2) →
      (idx, fnd) = bsearch key n k ∧
      (∀ d, d < depth → h2.used.getD d false = hint.used.getD d false ∧
        h2.path.getD d 0 = hint.path.getD d 0) ∧
      (depth < 8 →
        h2.used.getD depth false = true ∧
        h2.path.getD depth 0 = (if n.isLeaf ∧ fnd then idx + 1 else idx) % 256 ∧
        ((if n.isLeaf ∧ fnd then idx + 1 else idx) % 256 ≠ hint.path.getD depth 0 →
          ∀ d, depth < d → d < 8 → h2.used.getD d false = false) ∧
        ((if n.isLeaf ∧ fnd then idx + 1 else idx) % 256 = hint.path.getD depth 0 →
          h2.used = hint.used.set depth true ∧ h2.path = hint.path)) ∧
      (8 ≤ depth → h2 = hint)) := by
  have hmain : hintsearch key n k hint depth =
      some ((bsearch key n k).1, (bsearch key n k).2,
        pathMatchUpdate hint depth n.isLeaf (bsearch key n k).1 (bsearch key n k).2) := by
    unfold hintsearch
    rw [hintsearchCore_eq_bsearch key n k hint depth hsort hne]
  refine ⟨hmain, ?_⟩
  intro idx fnd h2 hEq
  rw [hmain] at hEq
  obtain ⟨h1, h2eq, h3⟩ : idx = (bsearch key n k).1 ∧ fnd = (bsearch key n k).2 ∧
      h2 = pathMatchUpdate hint depth n.isLeaf (bsearch key n k).1 (bsearch key n k).2 := by
    have := Option.some.inj hEq
    exact ⟨congrArg Prod.fst this.symm, by
      have := congrArg Prod.snd this
      exact (congrArg Prod.fst this).symm, by
      have := congrArg Prod.snd this
      exact (congrArg Prod.snd this).symm⟩
  subst h1
  subst h2eq
  subst h3
  have hspec := pathMatchUpdate_spec hint depth n.isLeaf (bsearch key n k).1
    (bsearch key n k).2 hu8 hp8
  exact ⟨rfl, hspec.1, hspec.2.1, hspec.2.2⟩

/-- Counterexample to C6 as frozen: on a node with no items (whose item list
is vacuously strictly increasing) and a hint whose entry for this depth is
marked used, Go `hintsearch` reads `items[len(items)-1]`, an out-of-range
index, and panics (modelled as `none`), while `bsearch` returns `(0, false)`:
the hint-assisted search does not return the pair `bsearch` returns. -/
theorem hintsearch_empty_node_counterexample :
    hintsearch (fun x : Int => x) (BNode.leaf 0 []) 0
        ⟨List.replicate 8 true, List.replicate 8 0⟩ 0 = none ∧
    bsearch (fun x : Int => x) (BNode.leaf 0 []) 0 = (0, false) := by
  constructor
  · rfl
  · rw [bsearch_unfold (fun x : Int => x) (BNode.leaf 0 []) 0
      (bsearchLoop (fun x : Int => x) 0 (BNode.leaf 0 ([] : List Int)).items 0
        (BNode.leaf 0 ([] : List Int)).items.length) rfl]
    rw [bsearchLoop]
    simp

/-- Witness for C6 at a concrete input: searching `[1, 2, 3]` for key `2`
with a fresh all-unused hint at depth 0. -/
theorem hintsearch_equals_bsearch_witness :
    hintsearch (fun x : Int => x) (BNode.leaf 3 [1, 2, 3]) 2
        ⟨List.replicate 8 false, List.replicate 8 0⟩ 0 =
      some ((bsearch (fun x : Int => x) (BNode.leaf 3 [1, 2, 3]) 2).1,
        (bsearch (fun x : Int => x) (BNode.leaf 3 [1, 2, 3]) 2).2,
        pathMatchUpdate ⟨List.replicate 8 false, List.replicate 8 0⟩ 0
          (BNode.leaf 3 [(1 : Int), 2, 3]).isLeaf
          (bsearch (fun x : Int => x) (BNode.leaf 3 [1, 2, 3]) 2).1
          (bsearch (fun x : Int => x) (BNode.leaf 3 [1, 2, 3]) 2).2) :=
  (hintsearch_equals_bsearch (fun x : Int => x) (BNode.leaf 3 [1, 2, 3]) 2
    ⟨List.replicate 8 false, List.replicate 8 0⟩ 0
    (by simp [BNode.items]) (by simp [BNode.items]) (by simp) (by simp)).1

end HintSearch

section Invariants

variable {α K : Type} [LinearOrder K]

/-- Sum of the cached counts of a list of nodes. -/
def sumCnt {α : Type} : List (BNode α) → Nat
  | [] => 0
  | c :: cs => c.cnt + sumCnt cs

@[simp] theorem sumCnt_nil {α : Type} : sumCnt ([] : List (BNode α)) = 0 := rfl

@[simp] theorem sumCnt_cons {α : Type} (c : BNode α) (cs : List (BNode α)) :
    sumCnt (c :: cs) = c.cnt + sumCnt cs := rfl

mutual

/-- Cached-count invariant (claim C1): each node's stored subtree-count
equals `len(items)` plus the sum of its children's stored subtree-counts. -/
def CountOK {α : Type} : BNode α → Prop
  | .leaf c its => c = its.length
  | .inner c its cs => c = its.length + sumCnt cs ∧ CountAll cs

/-- All nodes of a list satisfy `CountOK`. -/
def CountAll {α : Type} : List (BNode α) → Prop
  | [] => True
  | c :: cs => CountOK c ∧ CountAll cs

end

mutual

/-- Arity invariant (claim C1): every internal node has exactly
`len(items)+1` children. -/
def ArityOK {α : Type} : BNode α → Prop
  | .leaf _ _ => True
  | .inner _ its cs => cs.length = its.length + 1 ∧ ArityAll cs

/-- All nodes of a list satisfy `ArityOK`. -/
def ArityAll {α : Type} : List (BNode α) → Prop
  | [] => True
  | c :: cs => ArityOK c ∧ ArityAll cs

end

mutual

/-- Size invariant (claim C1, spec section 3): every node holds at most `mx`
items, and every node except the root holds at least `mn` items. -/
def SizeOK {α : Type} (mn mx : Nat) : Bool → BNode α → Prop
  | isRoot, .leaf _ its =>
      (isRoot = false → mn ≤ its.length) ∧ its.length ≤ mx
  | isRoot, .inner _ its cs =>
      (isRoot = false → mn ≤ its.length) ∧ its.length ≤ mx ∧ SizeAll mn mx cs

/-- All nodes of a list satisfy the non-root size invariant. -/
def SizeAll {α : Type} (mn mx : Nat) : List (BNode α) → Prop
  | [] => True
  | c :: cs => SizeOK mn mx false c ∧ SizeAll mn mx cs

end

mutual

/-- Uniform-depth invariant (claim C1): `DepthIs n d` says every leaf of the
subtree `n` sits exactly `d` levels below `n`. -/
def DepthIs {α : Type} : BNode α → Nat → Prop
  | .leaf _ _, d => d = 0
  | .inner _ _ cs, d => 0 < d ∧ DepthAll cs (d - 1)

/-- All nodes of a list have uniform depth `d`. -/
def DepthAll {α : Type} : List (BNode α) → Nat → Prop
  | [], _ => True
  | c :: cs, d => DepthIs c d ∧ DepthAll cs d

end

/-- Separation invariant of claim C1, phrased exactly as there: walking the
items with the children, every item in `children[i]`'s subtree sorts below
`items[i]`, which sorts below every item in `children[i+1]`'s subtree. -/
def SepOK (key : α → K) : List α → List (BNode α) → Prop
  | [], _ => True
  | _ :: _, [] => True
  | x :: its, c :: cs =>
      (∀ y ∈ c.inorder, key y < key x) ∧
      (∀ c2 ∈ cs.head?, ∀ y ∈ c2.inorder, key x < key y) ∧
      SepOK key its cs

mutual

/-- Order invariant (claim C1): in every node the items are strictly
increasing under the comparator, and the subtree/separator interleaving
condition `SepOK` holds. -/
def SpecOrder {α K : Type} [LinearOrder K] (key : α → K) : BNode α → Prop
  | .leaf _ its => its.Pairwise (fun a b => key a < key b)
  | .inner _ its cs =>
      its.Pairwise (fun a b => key a < key b) ∧ SepOK key its cs ∧ OrderAll key cs

/-- All nodes of a list satisfy `SpecOrder`. -/
def OrderAll {α K : Type} [LinearOrder K] (key : α → K) : List (BNode α) → Prop
  | [] => True
  | c :: cs => SpecOrder key c ∧ OrderAll key cs

end

/-- An optional strict lower bound: `lb key lo y` when `key y` lies above the
bound (vacuous for `none`). -/
def lb (key : α → K) (lo : Option K) (y : α) : Prop := ∀ l ∈ lo, l < key y

/-- An optional strict upper bound. -/
def ub (key : α → K) (hi : Option K) (y : α) : Prop := ∀ h ∈ hi, key y < h

mutual

/-- Proof-friendly consolidated order invariant with open interval bounds:
strictly sorted items inside `(lo, hi)` with children occupying the gaps.
`Ordered` implies (and, on well-formed arities, is implied by) the claim-style
`SpecOrder`; it also forces the arity invariant through its patterns. -/
def Ordered {α K : Type} [LinearOrder K] (key : α → K) :
    Option K → Option K → BNode α → Prop
  | lo, hi, .leaf _ its =>
      its.Pairwise (fun a b => key a < key b) ∧ ∀ y ∈ its, lb key lo y ∧ ub key hi y
  | lo, hi, .inner _ its cs => OrderedZip key lo hi its cs

/-- Items interleaved with children, each within its interval.  The patterns
with mismatched lengths are `False`: a well-ordered internal node has exactly
one more child than items. -/
def OrderedZip {α K : Type} [LinearOrder K] (key : α → K) :
    Option K → Option K → List α → List (BNode α) → Prop
  | _, _, [], [] => False
  | lo, hi, [], [c] => Ordered key lo hi c
  | _, _, [], _ :: _ :: _ => False
  | _, _, _ :: _, [] => False
  | lo, hi, x :: its, c :: cs =>
      Ordered key lo (some (key x)) c ∧ lb key lo x ∧ ub key hi x ∧
        OrderedZip key (some (key x)) hi its cs

end

@[simp] theorem countOK_leaf (c : Nat) (its : List α) :
    CountOK (BNode.leaf c its) ↔ c = its.length := by
  rw [CountOK]

@[simp] theorem countOK_inner (c : Nat) (its : List α) (cs : List (BNode α)) :
    CountOK (BNode.inner c its cs) ↔ c = its.length + sumCnt cs ∧ CountAll cs := by
  rw [CountOK]

theorem countAll_iff (cs : List (BNode α)) : CountAll cs ↔ ∀ c ∈ cs, CountOK c := by
  induction cs with
  | nil => simp [CountAll]
  | cons c cs ih => rw [CountAll]; simp [ih]

@[simp] theorem arityOK_leaf (c : Nat) (its : List α) :
    ArityOK (BNode.leaf c its) := by
  rw [ArityOK]; trivial

@[simp] theorem arityOK_inner (c : Nat) (its : List α) (cs : List (BNode α)) :
    ArityOK (BNode.inner c its cs) ↔ cs.length = its.length + 1 ∧ ArityAll cs := by
  rw [ArityOK]

theorem arityAll_iff (cs : List (BNode α)) : ArityAll cs ↔ ∀ c ∈ cs, ArityOK c := by
  induction cs with
  | nil => simp [ArityAll]
  | cons c cs ih => rw [ArityAll]; simp [ih]

@[simp] theorem sizeOK_leaf (mn mx : Nat) (isRoot : Bool) (c : Nat) (its : List α) :
    SizeOK mn mx isRoot (BNode.leaf c its) ↔
      (isRoot = false → mn ≤ its.length) ∧ its.length ≤ mx := by
  rw [SizeOK]

@[simp] theorem sizeOK_inner (mn mx : Nat) (isRoot : Bool) (c : Nat) (its : List α)
    (cs : List (BNode α)) :
    SizeOK mn mx isRoot (BNode.inner c its cs) ↔
      (isRoot = false → mn ≤ its.length) ∧ its.length ≤ mx ∧ SizeAll mn mx cs := by
  rw [SizeOK]

theorem sizeAll_iff (mn mx : Nat) (cs : List (BNode α)) :
    SizeAll mn mx cs ↔ ∀ c ∈ cs, SizeOK mn mx false c := by
  induction cs with
  | nil => simp [SizeAll]
  | cons c cs ih => rw [SizeAll]; simp [ih]

@[simp] theorem depthIs_leaf (c : Nat) (its : List α) (d : Nat) :
    DepthIs (BNode.leaf c its) d ↔ d = 0 := by
  rw [DepthIs]

@[simp] theorem depthIs_inner (c : Nat) (its : List α) (cs : List (BNode α)) (d : Nat) :
    DepthIs (BNode.inner c its cs) d ↔ 0 < d ∧ DepthAll cs (d - 1) := by
  rw [DepthIs]

theorem depthAll_iff (cs : List (BNode α)) (d : Nat) :
    DepthAll cs d ↔ ∀ c ∈ cs, DepthIs c d := by
  induction cs with
  | nil => simp [DepthAll]
  | cons c cs ih => rw [DepthAll]; simp [ih]

@[simp] theorem specOrder_leaf (key : α → K) (c : Nat) (its : List α) :
    SpecOrder key (BNode.leaf c its) ↔ its.Pairwise (fun a b => key a < key b) := by
  rw [SpecOrder]

@[simp] theorem specOrder_inner (key : α → K) (c : Nat) (its : List α)
    (cs : List (BNode α)) :
    SpecOrder key (BNode.inner c its cs) ↔
      its.Pairwise (fun a b => key a < key b) ∧ SepOK key its cs ∧ OrderAll key cs := by
  rw [SpecOrder]

theorem orderAll_iff (key : α → K) (cs : List (BNode α)) :
    OrderAll key cs ↔ ∀ c ∈ cs, SpecOrder key c := by
  induction cs with
  | nil => simp [OrderAll]
  | cons c cs ih => rw [OrderAll]; simp [ih]

@[simp] theorem ordered_leaf (key : α → K) (lo hi : Option K) (c : Nat) (its : List α) :
    Ordered key lo hi (BNode.leaf c its) ↔
      its.Pairwise (fun a b => key a < key b) ∧
        ∀ y ∈ its, lb key lo y ∧ ub key hi y := by
  rw [Ordered]

@[simp] theorem ordered_inner (key : α → K) (lo hi : Option K) (c : Nat) (its : List α)
    (cs : List (BNode α)) :
    Ordered key lo hi (BNode.inner c its cs) ↔ OrderedZip key lo hi its cs := by
  rw [Ordered]

@[simp] theorem orderedZip_nil (key : α → K) (lo hi : Option K) (c : BNode α) :
    OrderedZip key lo hi [] [c] ↔ Ordered key lo hi c := by
  rw [OrderedZip]

@[simp] theorem orderedZip_cons (key : α → K) (lo hi : Option K) (x : α) (its : List α)
    (c : BNode α) (cs : List (BNode α)) :
    OrderedZip key lo hi (x :: its) (c :: cs) ↔
      Ordered key lo (some (key x)) c ∧ lb key lo x ∧ ub key hi x ∧
        OrderedZip key (some (key x)) hi its cs := by
  rw [OrderedZip]

@[simp] theorem orderedZip_nil_nil (key : α → K) (lo hi : Option K) :
    ¬ OrderedZip key lo hi ([] : List α) ([] : List (BNode α)) := by
  rw [OrderedZip]; simp

@[simp] theorem orderedZip_nil_cons2 (key : α → K) (lo hi : Option K) (c c2 : BNode α)
    (cs : List (BNode α)) :
    ¬ OrderedZip key lo hi ([] : List α) (c :: c2 :: cs) := by
  rw [OrderedZip]; simp

@[simp] theorem orderedZip_cons_nil (key : α → K) (lo hi : Option K) (x : α)
    (its : List α) :
    ¬ OrderedZip key lo hi (x :: its) ([] : List (BNode α)) := by
  rw [OrderedZip]; simp

theorem lb_none (key : α → K) (y : α) : lb key none y := by
  intro l hl
  simp at hl

theorem ub_none (key : α → K) (y : α) : ub key none y := by
  intro h hh
  simp at hh

theorem lb_some (key : α → K) (l : K) (y : α) : lb key (some l) y ↔ l < key y := by
  simp [lb]

theorem ub_some (key : α → K) (h : K) (y : α) : ub key (some h) y ↔ key y < h := by
  simp [ub]

theorem lb_mono (key : α → K) {l : K} {y z : α} (h : lb key (some l) y)
    (hyz : key y < key z) : lb key (some l) z := by
  rw [lb_some] at h ⊢
  exact lt_trans h hyz

theorem orderedZip_sorted_bounds (key : α → K) :
    ∀ (its : List α) (cs : List (BNode α)) (lo hi : Option K),
      (∀ c ∈ cs, ∀ lo2 hi2, Ordered key lo2 hi2 c →
        c.inorder.Pairwise (fun a b => key a < key b) ∧
          ∀ y ∈ c.inorder, lb key lo2 y ∧ ub key hi2 y) →
      OrderedZip key lo hi its cs →
      (inorderZip its cs).Pairwise (fun a b => key a < key b) ∧
        ∀ y ∈ inorderZip its cs, lb key lo y ∧ ub key hi y := by
  intro its
  induction its with
  | nil =>
    intro cs lo hi hch hz
    match cs with
    | [] => exact absurd hz (orderedZip_nil_nil key lo hi)
    | [c] =>
      rw [orderedZip_nil] at hz
      simpa using hch c (by simp) lo hi hz
    | c :: c2 :: cs => exact absurd hz (orderedZip_nil_cons2 key lo hi c c2 cs)
  | cons x its ih =>
    intro cs lo hi hch hz
    match cs with
    | [] => exact absurd hz (orderedZip_cons_nil key lo hi x its)
    | c :: cs =>
      rw [orderedZip_cons] at hz
      obtain ⟨hc, hlbx, hubx, hrest⟩ := hz
      obtain ⟨hcsort, hcbnd⟩ := hch c (by simp) lo (some (key x)) hc
      obtain ⟨hrsort, hrbnd⟩ := ih cs (some (key x)) hi
        (fun c2 hc2 => hch c2 (by simp [hc2])) hrest
      rw [inorderZip_cons_cons]
      constructor
      · rw [List.pairwise_append]
        refine ⟨hcsort, ?_, ?_⟩
        · rw [List.pairwise_cons]
          refine ⟨?_, hrsort⟩
          intro z hz
          exact (lb_some key (key x) z).mp (hrbnd z hz).1
        · intro y hy z hz
          have hyx : key y < key x := (ub_some key (key x) y).mp (hcbnd y hy).2
          rcases List.mem_cons.mp hz with rfl | hz2
          · exact hyx
          · exact lt_trans hyx ((lb_some key (key x) z).mp (hrbnd z hz2).1)
      · intro y hy
        rcases List.mem_append.mp hy with hy1 | hy2
        · refine ⟨(hcbnd y hy1).1, ?_⟩
          intro h hh
          have hyx : key y < key x := (ub_some key (key x) y).mp (hcbnd y hy1).2
          exact lt_trans hyx (hubx h hh)
        · rcases List.mem_cons.mp hy2 with rfl | hy3
          · exact ⟨hlbx, hubx⟩
          · refine ⟨?_, (hrbnd y hy3).2⟩
            intro l hl
            have hxy : key x < key y := (lb_some key (key x) y).mp (hrbnd y hy3).1
            exact lt_trans (hlbx l hl) hxy

/-- An `Ordered` subtree flattens to a strictly sorted in-order list whose
elements lie in the open interval. -/
theorem ordered_sorted_bounds (key : α → K) :
    ∀ (n : BNode α) (lo hi : Option K), Ordered key lo hi n →
      n.inorder.Pairwise (fun a b => key a < key b) ∧
        ∀ y ∈ n.inorder, lb key lo y ∧ ub key hi y := by
  intro n
  induction n using BNode.inductionOn with
  | hleaf c its =>
    intro lo hi h
    rw [ordered_leaf] at h
    simpa using h
  | hinner c its cs ih =>
    intro lo hi h
    rw [ordered_inner] at h
    rw [inorder_inner]
    exact orderedZip_sorted_bounds key its cs lo hi (fun c2 hc2 => ih c2 hc2) h

theorem ordered_inorder_sorted {key : α → K} {n : BNode α} {lo hi : Option K}
    (h : Ordered key lo hi n) :
    n.inorder.Pairwise (fun a b => key a < key b) :=
  (ordered_sorted_bounds key n lo hi h).1

/-- Weakening the interval of an `Ordered` subtree. -/
theorem ordered_weaken (key : α → K) :
    ∀ (n : BNode α) (lo hi lo2 hi2 : Option K), Ordered key lo hi n →
      (∀ y : α, lb key lo y → lb key lo2 y) →
      (∀ y : α, ub key hi y → ub key hi2 y) →
      Ordered key lo2 hi2 n := by
  have main : ∀ (its : List α) (cs : List (BNode α)),
      (∀ c ∈ cs, ∀ lo hi lo2 hi2, Ordered key lo hi c →
        (∀ y : α, lb key lo y → lb key lo2 y) →
        (∀ y : α, ub key hi y → ub key hi2 y) → Ordered key lo2 hi2 c) →
      ∀ lo hi lo2 hi2, OrderedZip key lo hi its cs →
      (∀ y : α, lb key lo y → lb key lo2 y) →
      (∀ y : α, ub key hi y → ub key hi2 y) →
      OrderedZip key lo2 hi2 its cs := by
    intro its
    induction its with
    | nil =>
      intro cs hch lo hi lo2 hi2 hz hlo hhi
      match cs with
      | [] => exact absurd hz (orderedZip_nil_nil key lo hi)
      | [c] =>
        rw [orderedZip_nil] at hz ⊢
        exact hch c (by simp) lo hi lo2 hi2 hz hlo hhi
      | c :: c2 :: cs => exact absurd hz (orderedZip_nil_cons2 key lo hi c c2 cs)
    | cons x its ih =>
      intro cs hch lo hi lo2 hi2 hz hlo hhi
      match cs with
      | [] => exact absurd hz (orderedZip_cons_nil key lo hi x its)
      | c :: cs =>
        rw [orderedZip_cons] at hz ⊢
        obtain ⟨hc, hlbx, hubx, hrest⟩ := hz
        refine ⟨hch c (by simp) lo (some (key x)) lo2 (some (key x)) hc hlo
          (fun y hy => hy), hlo x hlbx, hhi x hubx, ?_⟩
        exact ih cs (fun c2 hc2 => hch c2 (by simp [hc2])) (some (key x)) hi
          (some (key x)) hi2 hrest (fun y hy => hy) hhi
  intro n
  induction n using BNode.inductionOn with
  | hleaf c its =>
    intro lo hi lo2 hi2 h hlo hhi
    rw [ordered_leaf] at h ⊢
    exact ⟨h.1, fun y hy => ⟨hlo y (h.2 y hy).1, hhi y (h.2 y hy).2⟩⟩
  | hinner c its cs ih =>
    intro lo hi lo2 hi2 h hlo hhi
    rw [ordered_inner] at h ⊢
    exact main its cs (fun c2 hc2 => ih c2 hc2) lo hi lo2 hi2 h hlo hhi

theorem sepOK_cons_iff (key : α → K) (x : α) (its : List α) (c : BNode α)
    (cs : List (BNode α)) :
    SepOK key (x :: its) (c :: cs) ↔
      (∀ y ∈ c.inorder, key y < key x) ∧
      (∀ c2 ∈ cs.head?, ∀ y ∈ c2.inorder, key x < key y) ∧
      SepOK key its cs := by
  rw [SepOK]

theorem orderedZip_head_child (key : α → K) (its : List α) (cs : List (BNode α))
    (lo hi : Option K) (hz : OrderedZip key lo hi its cs) :
    ∀ c ∈ cs.head?, ∃ hi2, Ordered key lo hi2 c := by
  match its, cs with
  | [], [] => exact absurd hz (orderedZip_nil_nil key lo hi)
  | [], [c] =>
    rw [orderedZip_nil] at hz
    intro c2 hc2
    simp at hc2
    subst hc2
    exact ⟨hi, hz⟩
  | [], c :: c2 :: cs => exact absurd hz (orderedZip_nil_cons2 key lo hi c c2 cs)
  | x :: its, [] => exact absurd hz (orderedZip_cons_nil key lo hi x its)
  | x :: its, c :: cs =>
    rw [orderedZip_cons] at hz
    intro c2 hc2
    simp at hc2
    subst hc2
    exact ⟨some (key x), hz.1⟩

/-- `Ordered` implies the claim-style order and arity invariants. -/
theorem ordered_to_spec (key : α → K) :
    ∀ (n : BNode α) (lo hi : Option K), Ordered key lo hi n →
      SpecOrder key n ∧ ArityOK n := by
  have zipmain : ∀ (its : List α) (cs : List (BNode α)),
      (∀ c ∈ cs, ∀ lo hi, Ordered key lo hi c → SpecOrder key c ∧ ArityOK c) →
      ∀ lo hi, OrderedZip key lo hi its cs →
        cs.length = its.length + 1 ∧ its.Pairwise (fun a b => key a < key b) ∧
          SepOK key its cs ∧ OrderAll key cs ∧ ArityAll cs := by
    intro its
    induction its with
    | nil =>
      intro cs hch lo hi hz
      match cs with
      | [] => exact absurd hz (orderedZip_nil_nil key lo hi)
      | [c] =>
        rw [orderedZip_nil] at hz
        obtain ⟨hs, ha⟩ := hch c (by simp) lo hi hz
        refine ⟨by simp, by simp, ?_, ?_, ?_⟩
        · rw [SepOK]; trivial
        · rw [orderAll_iff]; simpa using hs
        · rw [arityAll_iff]; simpa using ha
      | c :: c2 :: cs => exact absurd hz (orderedZip_nil_cons2 key lo hi c c2 cs)
    | cons x its ih =>
      intro cs hch lo hi hz
      match cs with
      | [] => exact absurd hz (orderedZip_cons_nil key lo hi x its)
      | c :: cs =>
        rw [orderedZip_cons] at hz
        obtain ⟨hc, hlbx, hubx, hrest⟩ := hz
        obtain ⟨hlen, hsort, hsep, hord, hari⟩ :=
          ih cs (fun c2 hc2 => hch c2 (by simp [hc2])) (some (key x)) hi hrest
        obtain ⟨hcs, hca⟩ := hch c (by simp) lo (some (key x)) hc
        have hcbnd := ordered_sorted_bounds key c lo (some (key x)) hc
        refine ⟨by simpa using hlen, ?_, ?_, ?_, ?_⟩
        · rw [List.pairwise_cons]
          refine ⟨?_, hsort⟩
          intro z hzits
          have hzbnd := orderedZip_sorted_bounds key its cs (some (key x)) hi
            (fun c2 hc2 => ordered_sorted_bounds key c2) hrest
          have hzmem : z ∈ inorderZip its cs := by
            have : ∀ (its2 : List α) (cs2 : List (BNode α)) lo2 hi2,
                OrderedZip key lo2 hi2 its2 cs2 → ∀ w ∈ its2, w ∈ inorderZip its2 cs2 := by
              intro its2
              induction its2 with
              | nil => intro cs2 lo2 hi2 _ w hw; simp at hw
              | cons u its3 ih2 =>
                intro cs2 lo2 hi2 hz2 w hw
                match cs2 with
                | [] => exact absurd hz2 (orderedZip_cons_nil key lo2 hi2 u its3)
                | c3 :: cs3 =>
                  rw [orderedZip_cons] at hz2
                  rw [inorderZip_cons_cons]
                  rcases List.mem_cons.mp hw with rfl | hw2
                  · simp
                  · simp only [List.mem_append, List.mem_cons]
                    exact Or.inr (Or.inr (ih2 cs3 (some (key u)) hi2 hz2.2.2.2 w hw2))
            exact this its cs (some (key x)) hi hrest z hzits
          exact (lb_some key (key x) z).mp (hzbnd.2 z hzmem).1
        · rw [sepOK_cons_iff]
          refine ⟨?_, ?_, hsep⟩
          · intro y hy
            exact (ub_some key (key x) y).mp (hcbnd.2 y hy).2
          · intro c2 hc2 y hy
            obtain ⟨hi2, hc2ord⟩ := orderedZip_head_child key its cs (some (key x)) hi
              hrest c2 hc2
            have := ordered_sorted_bounds key c2 (some (key x)) hi2 hc2ord
            exact (lb_some key (key x) y).mp (this.2 y hy).1
        · rw [orderAll_iff] at hord ⊢
          intro c2 hc2
          rcases List.mem_cons.mp hc2 with rfl | hc3
          · exact hcs
          · exact hord c2 hc3
        · rw [arityAll_iff] at hari ⊢
          intro c2 hc2
          rcases List.mem_cons.mp hc2 with rfl | hc3
          · exact hca
          · exact hari c2 hc3
  intro n
  induction n using BNode.inductionOn with
  | hleaf c its =>
    intro lo hi h
    rw [ordered_leaf] at h
    exact ⟨by simpa using h.1, by simp⟩
  | hinner c its cs ih =>
    intro lo hi h
    rw [ordered_inner] at h
    obtain ⟨hlen, hsort, hsep, hord, hari⟩ := zipmain its cs (fun c2 hc2 => ih c2 hc2)
      lo hi h
    constructor
    · rw [specOrder_inner]
      exact ⟨hsort, hsep, hord⟩
    · rw [arityOK_inner]
      exact ⟨hlen, hari⟩

theorem sepOK_allAbove (key : α → K) :
    ∀ (its : List α) (cs : List (BNode α)) (b : K),
      its.Pairwise (fun a b => key a < key b) → SepOK key its cs →
      (∀ z ∈ its, b < key z) →
      (∀ c2 ∈ cs.head?, ∀ y ∈ c2.inorder, b < key y) →
      ∀ y ∈ inorderZip its cs, b < key y := by
  intro its
  induction its with
  | nil =>
    intro cs b _ _ _ hhd y hy
    match cs with
    | [] => simp at hy
    | c :: cs =>
      rw [inorderZip_nil_left] at hy
      exact hhd c (by simp) y hy
  | cons x its ih =>
    intro cs b hsort hsep hits hhd y hy
    match cs with
    | [] => simp at hy
    | c :: cs =>
      rw [sepOK_cons_iff] at hsep
      rw [inorderZip_cons_cons] at hy
      rcases List.mem_append.mp hy with hy1 | hy2
      · exact hhd c (by simp) y hy1
      · rcases List.mem_cons.mp hy2 with rfl | hy3
        · exact hits y (by simp)
        · refine ih cs b (List.Pairwise.sublist (List.sublist_cons_self x its) hsort)
            hsep.2.2 (fun z hz => hits z (by simp [hz])) ?_ y hy3
          intro c2 hc2 w hw
          exact lt_trans (hits x (by simp)) (hsep.2.1 c2 hc2 w hw)

/-- The claim-style order, separation and arity invariants imply `Ordered`
inside any interval containing the whole in-order run. -/
theorem spec_to_ordered (key : α → K) :
    ∀ (n : BNode α), SpecOrder key n → ArityOK n →
      ∀ lo hi, (∀ y ∈ n.inorder, lb key lo y ∧ ub key hi y) →
      Ordered key lo hi n := by
  have zipmain : ∀ (its : List α) (cs : List (BNode α)),
      (∀ c ∈ cs, SpecOrder key c → ArityOK c →
        ∀ lo hi, (∀ y ∈ c.inorder, lb key lo y ∧ ub key hi y) → Ordered key lo hi c) →
      cs.length = its.length + 1 → its.Pairwise (fun a b => key a < key b) →
      SepOK key its cs → OrderAll key cs → ArityAll cs →
      ∀ lo hi, (∀ y ∈ inorderZip its cs, lb key lo y ∧ ub key hi y) →
      OrderedZip key lo hi its cs := by
    intro its
    induction its with
    | nil =>
      intro cs hch hlen _ _ hord hari lo hi hbnd
      cases cs with
      | nil => simp at hlen
      | cons c cs2 =>
        cases cs2 with
        | nil =>
          rw [orderedZip_nil]
          rw [orderAll_iff] at hord
          rw [arityAll_iff] at hari
          refine hch c (by simp) (hord c (by simp)) (hari c (by simp)) lo hi ?_
          simpa using hbnd
        | cons c2 cs3 => simp at hlen
    | cons x its ih =>
      intro cs hch hlen hsort hsep hord hari lo hi hbnd
      cases cs with
      | nil => simp at hlen
      | cons c cs =>
        rw [orderedZip_cons]
        rw [sepOK_cons_iff] at hsep
        rw [orderAll_iff] at hord
        rw [arityAll_iff] at hari
        simp only [inorderZip_cons_cons] at hbnd
        have hxmem : lb key lo x ∧ ub key hi x := hbnd x (by simp)
        have habove : ∀ y ∈ inorderZip its cs, key x < key y := by
          refine sepOK_allAbove key its cs (key x)
            (List.Pairwise.sublist (List.sublist_cons_self x its) hsort) hsep.2.2 ?_ ?_
          · intro z hz
            exact (List.pairwise_cons.mp hsort).1 z hz
          · intro c2 hc2 w hw
            exact hsep.2.1 c2 hc2 w hw
        refine ⟨?_, hxmem.1, hxmem.2, ?_⟩
        · refine hch c (by simp) (hord c (by simp)) (hari c (by simp)) lo
            (some (key x)) ?_
          intro y hy
          refine ⟨(hbnd y (by simp [hy])).1, ?_⟩
          rw [ub_some]
          exact hsep.1 y hy
        · refine ih cs (fun c2 hc2 => hch c2 (by simp [hc2])) (by simpa using hlen)
            (List.Pairwise.sublist (List.sublist_cons_self x its) hsort) hsep.2.2
            (by rw [orderAll_iff]; intro c2 hc2; exact hord c2 (by simp [hc2]))
            (by rw [arityAll_iff]; intro c2 hc2; exact hari c2 (by simp [hc2]))
            (some (key x)) hi ?_
          intro y hy
          refine ⟨?_, (hbnd y (by simp [hy])).2⟩
          rw [lb_some]
          exact habove y hy
  intro n
  induction n using BNode.inductionOn with
  | hleaf c its =>
    intro hs ha lo hi hbnd
    rw [ordered_leaf]
    rw [specOrder_leaf] at hs
    exact ⟨hs, by simpa using hbnd⟩
  | hinner c its cs ih =>
    intro hs ha lo hi hbnd
    rw [specOrder_inner] at hs
    rw [arityOK_inner] at ha
    rw [ordered_inner]
    exact zipmain its cs (fun c2 hc2 => ih c2 hc2) ha.1 hs.1 hs.2.1 hs.2.2 ha.2
      lo hi (by simpa using hbnd)

end Invariants

/-- Mirror of the Go `BTree[T]` struct fields the algorithms read: the
optional root, the global item `count`, the degree bounds `min`/`max`
(from `degreeToMinMax`) and the zero value `empty` that Go returns for
not-found results and writes into vacated slots.  The comparator `less` is
passed to each operation as the key projection; the lock, isoid and
copy-hook fields only matter for the heap model of isolation, handled
separately. -/
structure BTree (α : Type) where
  root : Option (BNode α)
  count : Nat
  min : Nat
  max : Nat
  empty : α

/-- The in-order item sequence of a whole tree (empty when the root is
absent); this is what `Scan`/`Values` produce when never stopped. -/
def treeInorder {α : Type} (t : BTree α) : List α :=
  match t.root with
  | none => []
  | some n => n.inorder

/-- Mirror of Go `Len()`. -/
def Len {α : Type} (t : BTree α) : Nat := t.count

section TreeInvDef

variable {α K : Type} [LinearOrder K]

/-- The representation invariant exactly as claim C1 lists it: `count` equals
the total number of stored items and is zero exactly when the root is absent;
every node has strictly increasing items, at most `max` items and (except the
root) at least `min` items; internal nodes have `len(items)+1` children;
cached subtree-counts are correct; all leaves share one depth; and the
subtree/separator order conditions hold. -/
def SpecTreeInv (key : α → K) (t : BTree α) : Prop :=
  t.count = (treeInorder t).length ∧
  (t.count = 0 ↔ t.root = none) ∧
  ∀ n, t.root = some n →
    SpecOrder key n ∧ SizeOK t.min t.max true n ∧ ArityOK n ∧ CountOK n ∧
      ∃ d, DepthIs n d

/-- The representation invariant the implementation actually maintains:
claim C1's list together with the two facts the code relies on — the root,
when present, holds at least one item, and the degree bounds satisfy
`min ≥ 1` and `max = 2*min + 1` (`degreeToMinMax`, btree.go lines
1169-1178). -/
def TreeInv (key : α → K) (t : BTree α) : Prop :=
  SpecTreeInv key t ∧ (∀ n, t.root = some n → n.items ≠ []) ∧
    1 ≤ t.min ∧ t.max = 2 * t.min + 1

end TreeInvDef

section Traversal

variable {α K : Type} [LinearOrder K]

/-- The leaf loop of Go `nodeScan` (btree.go lines 374-380), and at the same
time the list-level specification of visiting with early stop: the visited
prefix (the stopping item included) with the continue flag. -/
def scanItems (f : α → Bool) : List α → List α × Bool
  | [] => ([], true)
  | x :: its =>
      if f x then ((x :: (scanItems f its).1), (scanItems f its).2)
      else ([x], false)

mutual

/-- Mirror of Go `nodeScan` (btree.go lines 371-391) with the visited items
made explicit: returns the visited sequence and the continue flag, `none` for
the Go panic of indexing a missing child. -/
def nodeScan {α : Type} (f : α → Bool) : BNode α → Option (List α × Bool)
  | .leaf _ its => some (scanItems f its)
  | .inner _ its cs => nodeScanZip f its cs

/-- The internal-node loop of Go `nodeScan`: child `i`, item `i`, …, then the
last child. -/
def nodeScanZip {α : Type} (f : α → Bool) :
    List α → List (BNode α) → Option (List α × Bool)
  | [], [] => none
  | [], [c] => nodeScan f c
  | [], _ :: c2 :: cs => nodeScanZip f [] (c2 :: cs)
  | _ :: _, [] => none
  | x :: its, c :: cs =>
      match nodeScan f c with
      | none => none
      | some (v1, false) => some (v1, false)
      | some (v1, true) =>
        if f x then
          match nodeScanZip f its cs with
          | none => none
          | some (v2, b2) => some (v1 ++ x :: v2, b2)
        else some (v1 ++ [x], false)

end

/-- Mirror of Go `Scan` / `scan` (btree.go lines 353-369): nothing visited on
an absent root. -/
def Scan {α : Type} (f : α → Bool) (t : BTree α) : Option (List α × Bool) :=
  match t.root with
  | none => some ([], true)
  | some n => nodeScan f n

/-- The visiting loop of Go `nodeAscend` (btree.go lines 645-655) on the item
suffix starting at the located index, with the children from one past that
index: visit the item, then scan the following child subtree. -/
def ascendSuffix {α : Type} (f : α → Bool) :
    List α → List (BNode α) → Option (List α × Bool)
  | [], _ => some ([], true)
  | x :: its, cs =>
      if f x then
        match cs with
        | [] => none
        | c :: cs2 =>
          match nodeScan f c with
          | none => none
          | some (v1, false) => some (x :: v1, false)
          | some (v1, true) =>
            match ascendSuffix f its cs2 with
            | none => none
            | some (v2, b) => some (x :: v1 ++ v2, b)
      else some ([x], false)

/-- Mirror of Go `nodeAscend` (btree.go lines 628-656) with a `nil` hint
(`Ascend` passes none): locate the pivot with `bsearch`; when not found first
descend into the child at the returned index; then run the visiting loop from
that index. -/
def nodeAscend {α K : Type} [LinearOrder K] (key : α → K) (f : α → Bool)
    (pivot : α) : BNode α → Option (List α × Bool)
  | .leaf c its =>
      some (scanItems f (its.drop (bsearch key (BNode.leaf c its) pivot).1))
  | .inner c its cs =>
      match bsearch key (BNode.inner c its cs) pivot with
      | (i, true) => ascendSuffix f (its.drop i) (cs.drop (i + 1))
      | (i, false) =>
        match hc : cs[i]? with
        | none => none
        | some ch =>
          match nodeAscend key f pivot ch with
          | none => none
          | some (v1, false) => some (v1, false)
          | some (v1, true) =>
            match ascendSuffix f (its.drop i) (cs.drop (i + 1)) with
            | none => none
            | some (v2, b) => some (v1 ++ v2, b)
termination_by n => sizeOf n
decreasing_by
  have hmem := List.getElem?_mem hc
  have h2 := List.sizeOf_lt_of_mem hmem
  simp only [BNode.inner.sizeOf_spec]
  omega

/-- Mirror of Go `Ascend` / `ascend` (btree.go lines 608-624). -/
def Ascend {α K : Type} [LinearOrder K] (key : α → K) (pivot : α)
    (f : α → Bool) (t : BTree α) : Option (List α × Bool) :=
  match t.root with
  | none => some ([], true)
  | some n => nodeAscend key f pivot n

@[simp] theorem scanItems_nil (f : α → Bool) : scanItems f ([] : List α) = ([], true) := by
  rw [scanItems]

theorem scanItems_cons (f : α → Bool) (x : α) (its : List α) :
    scanItems f (x :: its) =
      if f x then ((x :: (scanItems f its).1), (scanItems f its).2)
      else ([x], false) := by
  rw [scanItems]

theorem scanItems_append (f : α → Bool) (l1 l2 : List α) :
    scanItems f (l1 ++ l2) =
      if (scanItems f l1).2 then
        ((scanItems f l1).1 ++ (scanItems f l2).1, (scanItems f l2).2)
      else scanItems f l1 := by
  induction l1 with
  | nil => simp
  | cons x l1 ih =>
    rw [List.cons_append, scanItems_cons, scanItems_cons]
    by_cases hx : f x
    · rw [if_pos hx, if_pos hx, ih]
      by_cases hb : (scanItems f l1).2
      · rw [if_pos hb]
        simp [hb]
      · rw [if_neg hb]
        simp [hb]
    · rw [if_neg hx, if_neg hx]
      simp

theorem scanItems_all_true (f : α → Bool) (l : List α) (h : ∀ x ∈ l, f x = true) :
    scanItems f l = (l, true) := by
  induction l with
  | nil => simp
  | cons x l ih =>
    rw [scanItems_cons, if_pos (h x (by simp)), ih (fun y hy => h y (by simp [hy]))]

/-- Go `nodeScan` visits exactly the early-stopped prefix of the in-order
sequence; only the arity invariant is needed. -/
theorem nodeScan_correct (f : α → Bool) :
    ∀ n : BNode α, ArityOK n → nodeScan f n = some (scanItems f n.inorder) := by
  have zipmain : ∀ (its : List α) (cs : List (BNode α)),
      (∀ c ∈ cs, ArityOK c → nodeScan f c = some (scanItems f c.inorder)) →
      cs.length = its.length + 1 → ArityAll cs →
      nodeScanZip f its cs = some (scanItems f (inorderZip its cs)) := by
    intro its
    induction its with
    | nil =>
      intro cs hch hlen hari
      cases cs with
      | nil => simp at hlen
      | cons c cs2 =>
        cases cs2 with
        | nil =>
          rw [nodeScanZip, inorderZip_nil_left]
          rw [arityAll_iff] at hari
          exact hch c (by simp) (hari c (by simp))
        | cons c2 cs3 => simp at hlen
    | cons x its ih =>
      intro cs hch hlen hari
      cases cs with
      | nil => simp at hlen
      | cons c cs =>
        rw [arityAll_iff] at hari
        rcases hsi : scanItems f c.inorder with ⟨v1, b1⟩
        rcases hsi2 : scanItems f (inorderZip its cs) with ⟨v2, b2⟩
        have hihz := ih cs (fun c2 hc2 => hch c2 (by simp [hc2])) (by simpa using hlen)
          (by rw [arityAll_iff]; intro c2 hc2; exact hari c2 (by simp [hc2]))
        rw [nodeScanZip, hch c (by simp) (hari c (by simp)), hsi]
        rw [inorderZip_cons_cons, scanItems_append, hsi, scanItems_cons, hsi2]
        cases b1 with
        | false => simp
        | true =>
          by_cases hx : f x
          · rw [hihz, hsi2]
            simp [hx]
          · simp [hx]
  intro n
  induction n using BNode.inductionOn with
  | hleaf c its =>
    intro _
    rw [nodeScan, inorder_leaf]
  | hinner c its cs ih =>
    intro ha
    rw [arityOK_inner] at ha
    rw [nodeScan, inorder_inner]
    exact zipmain its cs (fun c2 hc2 _ => ih c2 hc2 (by
      have := ha.2
      rw [arityAll_iff] at this
      exact this c2 hc2)) ha.1 ha.2

theorem dropWhile_append_all (p : α → Bool) (A B : List α)
    (h : ∀ y ∈ A, p y = true) :
    List.dropWhile p (A ++ B) = List.dropWhile p B := by
  induction A with
  | nil => simp
  | cons a A ih =>
    rw [List.cons_append, List.dropWhile_cons, if_pos (h a (by simp))]
    exact ih (fun y hy => h y (by simp [hy]))

theorem dropWhile_append_cons_false (p : α → Bool) (A B : List α) (y : α)
    (hy : p y = false) :
    List.dropWhile p (A ++ y :: B) = List.dropWhile p A ++ y :: B := by
  induction A with
  | nil => simp [List.dropWhile_cons, hy]
  | cons a A ih =>
    rw [List.cons_append, List.dropWhile_cons, List.dropWhile_cons]
    by_cases ha : p a
    · rw [if_pos ha, if_pos ha, ih]
    · rw [if_neg ha, if_neg ha, List.cons_append]

theorem dropWhile_eq_drop (p : α → Bool) :
    ∀ (l : List α) (i : Nat), i ≤ l.length →
      (∀ j, (hj : j < l.length) → j < i → p l[j] = true) →
      (∀ hj : i < l.length, p (l.get ⟨i, hj⟩) = false) →
      List.dropWhile p l = l.drop i := by
  intro l
  induction l with
  | nil =>
    intro i hi _ _
    simp
  | cons x tl ih =>
    intro i hi hlo hhi
    cases i with
    | zero =>
      rw [List.dropWhile_cons, if_neg (by simpa using hhi (by simp)), List.drop_zero]
    | succ i2 =>
      rw [List.dropWhile_cons, if_pos (by simpa using hlo 0 (by simp) (by omega)),
        List.drop_succ_cons]
      refine ih i2 (by simpa using hi) ?_ ?_
      · intro j hj hji
        have := hlo (j + 1) (by simpa using hj) (by omega)
        simpa using this
      · intro hj
        have := hhi (by simpa using hj)
        simpa using this

/-- The item/child alternation visited by the ascending loop starting at an
item: the item itself followed by the usual interleaving. -/
def ascendSeq {α : Type} : List α → List (BNode α) → List α
  | [], _ => []
  | x :: its, cs => x :: inorderZip its cs

@[simp] theorem ascendSeq_nil (cs : List (BNode α)) : ascendSeq ([] : List α) cs = [] := by
  rw [ascendSeq]

@[simp] theorem ascendSeq_cons (x : α) (its : List α) (cs : List (BNode α)) :
    ascendSeq (x :: its) cs = x :: inorderZip its cs := by
  rw [ascendSeq]

theorem inorderZip_eq_ascendSeq (its : List α) (c : BNode α) (cs : List (BNode α)) :
    inorderZip its (c :: cs) = c.inorder ++ ascendSeq its cs := by
  cases its with
  | nil => simp
  | cons y its => simp

theorem ascendSuffix_correct (f : α → Bool) :
    ∀ (its : List α) (cs : List (BNode α)), cs.length = its.length →
      (∀ c ∈ cs, ArityOK c) →
      ascendSuffix f its cs = some (scanItems f (ascendSeq its cs)) := by
  intro its
  induction its with
  | nil =>
    intro cs _ _
    rw [ascendSuffix]
    simp
  | cons x its ih =>
    intro cs hlen hari
    cases cs with
    | nil => simp at hlen
    | cons c cs =>
      rcases hsi : scanItems f c.inorder with ⟨v1, b1⟩
      rcases hs2 : scanItems f (ascendSeq its cs) with ⟨v2, b2⟩
      rw [ascendSuffix, ascendSeq_cons, inorderZip_eq_ascendSeq, scanItems_cons,
        scanItems_append, hsi, hs2]
      by_cases hx : f x
      · rw [if_pos hx, if_pos hx, nodeScan_correct f c (hari c (by simp)), hsi]
        cases b1 with
        | false => simp
        | true =>
          rw [ih cs (by simpa using hlen) (fun c2 hc2 => hari c2 (by simp [hc2])), hs2]
          simp
      · rw [if_neg hx, if_neg hx]

theorem bsearch_index_le {key : α → K} {n : BNode α} {k : α}
    (hsort : n.items.Pairwise (fun a b => key a < key b)) :
    (bsearch key n k).1 ≤ n.items.length ∧
      ((bsearch key n k).2 = true → (bsearch key n k).1 < n.items.length) := by
  have hub := bsearch_isUB (k := k) hsort
  rw [bsearch_unfold key n k (bsearchLoop key k n.items 0 n.items.length) rfl]
  obtain ⟨hle, _, _⟩ := hub
  by_cases hpos : bsearchLoop key k n.items 0 n.items.length > 0
  · rw [if_pos hpos]
    cases hitem : n.items[bsearchLoop key k n.items 0 n.items.length - 1]? with
    | none => exact ⟨by simpa using hle, by simp⟩
    | some it =>
      simp only
      by_cases hit : key it < key k
      · rw [if_pos hit]
        exact ⟨by simpa using hle, by simp⟩
      · rw [if_neg hit]
        exact ⟨by simp; omega, fun _ => by simp; omega⟩
  · rw [if_neg hpos]
    exact ⟨by simpa using hle, by simp⟩

theorem ascend_zip_found (key : α → K) (pivot : α) :
    ∀ (its : List α) (cs : List (BNode α)) (i : Nat) (lo hi : Option K),
      OrderedZip key lo hi its cs →
      (hlen : i < its.length) →
      ¬ key (its.get ⟨i, hlen⟩) < key pivot →
      ¬ key pivot < key (its.get ⟨i, hlen⟩) →
      (∀ j, (hj : j < its.length) → j < i → key its[j] < key pivot) →
      List.dropWhile (fun y => decide (key y < key pivot)) (inorderZip its cs) =
        ascendSeq (its.drop i) (cs.drop (i + 1)) := by
  intro its
  induction its with
  | nil =>
    intro cs i lo hi _ hlen
    simp at hlen
  | cons x its ih =>
    intro cs i lo hi hz hlen hxe1 hxe2 hbelow
    cases cs with
    | nil => exact absurd hz (orderedZip_cons_nil key lo hi x its)
    | cons c cs =>
      rw [orderedZip_cons] at hz
      obtain ⟨hc, _, _, hrest⟩ := hz
      have hcb := ordered_sorted_bounds key c lo (some (key x)) hc
      cases i with
      | zero =>
        simp only [List.get_eq_getElem, List.getElem_cons_zero] at hxe1 hxe2
        have hkey : key x = key pivot := le_antisymm (not_lt.mp hxe2) (not_lt.mp hxe1)
        rw [inorderZip_cons_cons,
          dropWhile_append_cons_false _ _ _ _ (by simp [hxe1]),
          List.dropWhile_eq_nil_iff.mpr ?_]
        · simp [ascendSeq]
        · intro y hy
          have := (ub_some key (key x) y).mp ((hcb.2 y hy).2)
          simp [hkey ▸ this]
      | succ i2 =>
        have hx : key x < key pivot := by
          have := hbelow 0 (by simp) (by omega)
          simpa using this
        rw [inorderZip_cons_cons, dropWhile_append_all, List.dropWhile_cons,
          if_pos (by simp [hx])]
        · have := ih cs i2 (some (key x)) hi hrest (by simpa using hlen)
            (by simpa using hxe1) (by simpa using hxe2) ?_
          · rw [this]
            simp
          · intro j hj hji
            have := hbelow (j + 1) (by simpa using hj) (by omega)
            simpa using this
        · intro y hy
          have := (ub_some key (key x) y).mp ((hcb.2 y hy).2)
          simp [lt_trans this hx]

theorem ascend_zip_notfound (key : α → K) (pivot : α) :
    ∀ (its : List α) (cs : List (BNode α)) (i : Nat) (lo hi : Option K),
      OrderedZip key lo hi its cs →
      i ≤ its.length →
      (∀ j, (hj : j < its.length) → j < i → key its[j] < key pivot) →
      (∀ j, (hj : j < its.length) → i ≤ j → key pivot < key its[j]) →
      ∃ ch, cs[i]? = some ch ∧ (∃ lo2 hi2, Ordered key lo2 hi2 ch) ∧
        List.dropWhile (fun y => decide (key y < key pivot)) (inorderZip its cs) =
          List.dropWhile (fun y => decide (key y < key pivot)) ch.inorder ++
            ascendSeq (its.drop i) (cs.drop (i + 1)) := by
  intro its
  induction its with
  | nil =>
    intro cs i lo hi hz hile _ _
    match cs with
    | [] => exact absurd hz (orderedZip_nil_nil key lo hi)
    | [c] =>
      rw [orderedZip_nil] at hz
      have hi0 : i = 0 := by simp at hile; omega
      subst hi0
      exact ⟨c, by simp, ⟨lo, hi, hz⟩, by simp⟩
    | c :: c2 :: cs => exact absurd hz (orderedZip_nil_cons2 key lo hi c c2 cs)
  | cons x its ih =>
    intro cs i lo hi hz hile hbelow habove
    cases cs with
    | nil => exact absurd hz (orderedZip_cons_nil key lo hi x its)
    | cons c cs =>
      rw [orderedZip_cons] at hz
      obtain ⟨hc, _, _, hrest⟩ := hz
      have hcb := ordered_sorted_bounds key c lo (some (key x)) hc
      cases i with
      | zero =>
        have hx : ¬ key x < key pivot := by
          have := habove 0 (by simp) (by omega)
          simp only [List.getElem_cons_zero] at this
          exact not_lt.mpr (le_of_lt this)
        refine ⟨c, by simp, ⟨lo, some (key x), hc⟩, ?_⟩
        rw [inorderZip_cons_cons,
          dropWhile_append_cons_false _ _ _ _ (by simp [hx])]
        simp
      | succ i2 =>
        have hx : key x < key pivot := by
          have := hbelow 0 (by simp) (by omega)
          simpa using this
        obtain ⟨ch, hch, hchord, hcheq⟩ := ih cs i2 (some (key x)) hi hrest
          (by simpa using hile)
          (fun j hj hji => by
            have := hbelow (j + 1) (by simpa using hj) (by omega)
            simpa using this)
          (fun j hj hji => by
            have := habove (j + 1) (by simpa using hj) (by omega)
            simpa using this)
        refine ⟨ch, by simpa using hch, hchord, ?_⟩
        rw [inorderZip_cons_cons, dropWhile_append_all, List.dropWhile_cons,
          if_pos (by simp [hx]), hcheq]
        · simp
        · intro y hy
          have := (ub_some key (key x) y).mp ((hcb.2 y hy).2)
          simp [lt_trans this hx]

theorem nodeAscend_correct (key : α → K) (f : α → Bool) (pivot : α) :
    ∀ (n : BNode α) (lo hi : Option K), Ordered key lo hi n →
      nodeAscend key f pivot n =
        some (scanItems f
          (n.inorder.dropWhile (fun y => decide (key y < key pivot)))) := by
  intro n
  induction n using BNode.inductionOn with
  | hleaf c its =>
    intro lo hi hord
    rw [ordered_leaf] at hord
    have hsort : (BNode.leaf c its : BNode α).items.Pairwise
        (fun a b => key a < key b) := by simpa using hord.1
    have hb := bsearch_spec key (BNode.leaf c its) pivot hsort
    have hble := bsearch_index_le (k := pivot) hsort
    rw [nodeAscend, inorder_leaf]
    congr 1
    congr 1
    rcases hres : bsearch key (BNode.leaf c its) pivot with ⟨i, fnd⟩
    rw [hres] at hb hble
    simp only at hb hble ⊢
    cases fnd with
    | true =>
      obtain ⟨it, hit, hit1, hit2⟩ := hb.1 rfl
      simp only [BNode.items_leaf] at hit hble hsort
      have hilen : i < its.length := by
        by_contra hcon
        rw [List.getElem?_eq_none (by omega)] at hit
        simp at hit
      rw [List.getElem?_eq_getElem hilen] at hit
      have hiteq : it = its[i] := by
        have := Option.some.inj hit
        exact this.symm
      subst hiteq
      refine (dropWhile_eq_drop _ its i (by omega) ?_ ?_).symm
      · intro j hj hji
        have hkeq : key (its[i]) = key pivot := le_antisymm (not_lt.mp hit2) (not_lt.mp hit1)
        have := List.pairwise_iff_getElem.mp hsort j i hj hilen hji
        simp [hkeq ▸ this]
      · intro hj
        simp [hit1]
    | false =>
      obtain ⟨hlo2, hhi2, _⟩ := hb.2 rfl
      simp only [BNode.items_leaf] at hlo2 hhi2 hble
      refine (dropWhile_eq_drop _ its i (by omega) ?_ ?_).symm
      · intro j hj hji
        simp [hlo2 j hj hji]
      · intro hj
        have := hhi2 i hj le_rfl
        simp [not_lt.mpr (le_of_lt this)]
  | hinner c its cs ih =>
    intro lo hi hord
    rw [ordered_inner] at hord
    have hspec := ordered_to_spec key (BNode.inner c its cs) lo hi (by
      rw [ordered_inner]; exact hord)
    have hsort : its.Pairwise (fun a b => key a < key b) := by
      have := hspec.1
      rw [specOrder_inner] at this
      exact this.1
    have harity := hspec.2
    rw [arityOK_inner] at harity
    have hariAll : ∀ c2 ∈ cs, ArityOK c2 := by
      have := harity.2
      rw [arityAll_iff] at this
      exact this
    have hnsort : (BNode.inner c its cs : BNode α).items.Pairwise
        (fun a b => key a < key b) := by simpa using hsort
    have hb := bsearch_spec key (BNode.inner c its cs) pivot hnsort
    have hble := bsearch_index_le (k := pivot) hnsort
    rw [nodeAscend]
    rcases hres : bsearch key (BNode.inner c its cs) pivot with ⟨i, fnd⟩
    rw [hres] at hb hble
    simp only [BNode.items_inner] at hb hble
    cases fnd with
    | true =>
      simp only
      obtain ⟨it, hit, hit1, hit2⟩ := hb.1 rfl
      have hilen : i < its.length := by
        by_contra hcon
        rw [List.getElem?_eq_none (by omega)] at hit
        simp at hit
      rw [List.getElem?_eq_getElem hilen] at hit
      have hiteq : it = its[i] := (Option.some.inj hit).symm
      subst hiteq
      rw [ascendSuffix_correct f (its.drop i) (cs.drop (i + 1))
        (by simp [harity.1]; try omega)
        (fun c2 hc2 => hariAll c2 (List.mem_of_mem_drop hc2))]
      rw [inorder_inner,
        ascend_zip_found key pivot its cs i lo hi hord hilen
          (by simpa using hit1) (by simpa using hit2)
          (fun j hj hji => by
            have hkeq : key (its[i]) = key pivot :=
              le_antisymm (not_lt.mp hit2) (not_lt.mp hit1)
            have := List.pairwise_iff_getElem.mp hsort j i hj hilen hji
            exact hkeq ▸ this)]
    | false =>
      simp only
      obtain ⟨hlo2, hhi2, _⟩ := hb.2 rfl
      obtain ⟨ch, hch, ⟨lo2, hi2, hchord⟩, hcheq⟩ :=
        ascend_zip_notfound key pivot its cs i lo hi hord (hble.1) hlo2 hhi2
      have hchmem : ch ∈ cs := List.getElem?_mem hch
      rcases hv1 : scanItems f
          (ch.inorder.dropWhile (fun y => decide (key y < key pivot))) with ⟨v1, b1⟩
      rcases hv2 : scanItems f (ascendSeq (its.drop i) (cs.drop (i + 1))) with ⟨v2, b2⟩
      rw [inorder_inner, hcheq, scanItems_append, hv1, hv2]
      split
      next heq =>
        rw [hch] at heq
        exact absurd heq (by simp)
      next ch2 heq =>
        rw [hch] at heq
        have hcheq2 : ch2 = ch := (Option.some.inj heq.symm)
        subst hcheq2
        rw [ih ch2 hchmem lo2 hi2 hchord, hv1]
        cases b1 with
        | false => simp
        | true =>
          simp only
          rw [ascendSuffix_correct f (its.drop i) (cs.drop (i + 1))
            (by simp [harity.1]; try omega)
            (fun c2 hc2 => hariAll c2 (List.mem_of_mem_drop hc2)), hv2]
          simp

theorem sorted_filter_eq_dropWhile (key : α → K) (b : K) :
    ∀ l : List α, l.Pairwise (fun a b => key a < key b) →
      l.filter (fun y => ! decide (key y < b)) =
        l.dropWhile (fun y => decide (key y < b)) := by
  intro l
  induction l with
  | nil => simp
  | cons x tl ih =>
    intro hsort
    rw [List.pairwise_cons] at hsort
    rw [List.filter_cons, List.dropWhile_cons]
    by_cases hx : key x < b
    · rw [if_neg (by simp [hx]), if_pos (by simp [hx])]
      exact ih hsort.2
    · rw [if_pos (by simp [hx]), if_neg (by simp [hx])]
      congr 1
      refine List.filter_eq_self.mpr ?_
      intro y hy
      have : key x < key y := hsort.1 y hy
      have : ¬ key y < b := by
        intro hcon
        exact hx (lt_trans this hcon)
      simp [this]

@[simp] theorem sepOK_nil_items (key : α → K) (cs : List (BNode α)) :
    SepOK key [] cs := by
  rw [SepOK]
  trivial

@[simp] theorem sepOK_cons_nil_children (key : α → K) (x : α) (its : List α) :
    SepOK key (x :: its) [] := by
  rw [SepOK]
  trivial

/-- The root invariant bundle extracted from `TreeInv`. -/
theorem treeInv_root {key : α → K} {t : BTree α} (h : TreeInv key t) :
    ∀ n, t.root = some n →
      Ordered key none none n ∧ ArityOK n ∧ CountOK n ∧
        SizeOK t.min t.max true n ∧ (∃ d, DepthIs n d) ∧ n.items ≠ [] ∧
        t.count = n.inorder.length := by
  intro n hn
  obtain ⟨⟨hcount, _, hnode⟩, hne, _, _⟩ := h
  obtain ⟨hso, hsz, har, hco, hd⟩ := hnode n hn
  refine ⟨spec_to_ordered key n hso har none none ?_, har, hco, hsz, hd, hne n hn, ?_⟩
  · intro y _
    exact ⟨lb_none key y, ub_none key y⟩
  · rw [hcount, treeInorder, hn]

/-- C8.  On a tree satisfying the representation invariant, `Scan` visits
exactly the early-stopped prefix of the in-order sequence (every stored item
exactly once, in strictly ascending comparator order, when the visitor never
stops; stopping immediately after the first `false`), and `Ascend(pivot, f)`
does the same on exactly the stored items `x` with `less(x, pivot)` false
(the pivot itself included when present). -/
theorem scan_ascend_correct (key : α → K) (t : BTree α) (f : α → Bool) (pivot : α)
    (hinv : TreeInv key t) :
    Scan f t = some (scanItems f (treeInorder t)) ∧
    (treeInorder t).Pairwise (fun a b => key a < key b) ∧
    ((∀ x ∈ treeInorder t, f x = true) → Scan f t = some (treeInorder t, true)) ∧
    Ascend key pivot f t =
      some (scanItems f
        ((treeInorder t).filter (fun y => ! decide (key y < key pivot)))) := by
  cases hroot : t.root with
  | none =>
    rw [Scan, Ascend, hroot, treeInorder, hroot]
    simp
  | some n =>
    obtain ⟨hord, har, _, _, _, _, _⟩ := treeInv_root hinv n hroot
    have hsorted := ordered_inorder_sorted hord
    have htio : treeInorder t = n.inorder := by rw [treeInorder, hroot]
    have hscan : Scan f t = nodeScan f n := by rw [Scan, hroot]
    have hasc : Ascend key pivot f t = nodeAscend key f pivot n := by rw [Ascend, hroot]
    rw [htio, hscan, hasc]
    refine ⟨nodeScan_correct f n har, hsorted, ?_, ?_⟩
    · intro hall
      rw [nodeScan_correct f n har, scanItems_all_true f n.inorder hall]
    · rw [nodeAscend_correct key f pivot n none none hord,
        sorted_filter_eq_dropWhile key (key pivot) n.inorder hsorted]

/-- A small concrete degree-2 tree (`min = 1`, `max = 3`) used to witness
theorems with invariant hypotheses: items `1, 2, 3` with `2` at the root. -/
def sampleTree : BTree Int :=
  { root := some (BNode.inner 3 [2] [BNode.leaf 1 [1], BNode.leaf 1 [3]]),
    count := 3, min := 1, max := 3, empty := 0 }

theorem sampleTree_inorder : treeInorder sampleTree = [1, 2, 3] := by
  simp [treeInorder, sampleTree]

theorem sampleTree_inv : TreeInv (fun x : Int => x) sampleTree := by
  refine ⟨⟨?_, ?_, ?_⟩, ?_, ?_, ?_⟩
  · rw [sampleTree_inorder]
    rfl
  · rw [sampleTree]
    simp
  · intro n hn
    rw [sampleTree] at hn
    simp only [Option.some.injEq] at hn
    subst hn
    refine ⟨?_, ?_, ?_, ?_, ⟨1, ?_⟩⟩
    · rw [specOrder_inner]
      refine ⟨by simp, ?_, ?_⟩
      · rw [sepOK_cons_iff]
        refine ⟨?_, ?_, by simp⟩
        · intro y hy
          simp at hy
          simp [hy]
        · intro c2 hc2 y hy
          simp at hc2
          subst hc2
          simp at hy
          simp [hy]
      · rw [orderAll_iff]
        intro c hc
        simp at hc
        rcases hc with rfl | rfl <;> simp
    · rw [sizeOK_inner]
      refine ⟨by simp [sampleTree], by simp [sampleTree], ?_⟩
      rw [sizeAll_iff]
      intro c hc
      simp at hc
      rcases hc with rfl | rfl <;> simp [sampleTree]
    · rw [arityOK_inner]
      refine ⟨by simp, ?_⟩
      rw [arityAll_iff]
      intro c hc
      simp at hc
      rcases hc with rfl | rfl <;> simp
    · rw [countOK_inner]
      refine ⟨by simp [sumCnt], ?_⟩
      rw [countAll_iff]
      intro c hc
      simp at hc
      rcases hc with rfl | rfl <;> simp
    · rw [depthIs_inner]
      refine ⟨by omega, ?_⟩
      rw [depthAll_iff]
      intro c hc
      simp at hc
      rcases hc with rfl | rfl <;> simp
  · intro n hn
    rw [sampleTree] at hn
    simp only [Option.some.injEq] at hn
    subst hn
    simp
  · simp [sampleTree]
  · simp [sampleTree]

/-- Witness for C8 at a concrete input: scanning and ascending from pivot `2`
on the three-item sample tree with the visitor that accepts values below
`3`. -/
theorem scan_ascend_correct_witness :
    Scan (fun x : Int => decide (x < 3)) sampleTree =
      some (scanItems (fun x : Int => decide (x < 3)) (treeInorder sampleTree)) ∧
    (treeInorder sampleTree).Pairwise (fun a b : Int => a < b) ∧
    ((∀ x ∈ treeInorder sampleTree, (fun x : Int => decide (x < 3)) x = true) →
      Scan (fun x : Int => decide (x < 3)) sampleTree =
        some (treeInorder sampleTree, true)) ∧
    Ascend (fun x : Int => x) 2 (fun x : Int => decide (x < 3)) sampleTree =
      some (scanItems (fun x : Int => decide (x < 3))
        ((treeInorder sampleTree).filter (fun y : Int => ! decide (y < 2)))) :=
  scan_ascend_correct (fun x : Int => x) sampleTree
    (fun x : Int => decide (x < 3)) 2 sampleTree_inv

end Traversal

section RankAccess

variable {α K : Type} [LinearOrder K]

theorem inorder_length_eq_cnt :
    ∀ n : BNode α, CountOK n → ArityOK n → n.inorder.length = n.cnt := by
  have zipmain : ∀ (its : List α) (cs : List (BNode α)),
      (∀ c ∈ cs, CountOK c → ArityOK c → c.inorder.length = c.cnt) →
      cs.length = its.length + 1 → CountAll cs → ArityAll cs →
      (inorderZip its cs).length = its.length + sumCnt cs := by
    intro its
    induction its with
    | nil =>
      intro cs hch hlen hco har
      cases cs with
      | nil => simp at hlen
      | cons c cs2 =>
        cases cs2 with
        | nil =>
          rw [countAll_iff] at hco
          rw [arityAll_iff] at har
          rw [inorderZip_nil_left, hch c (by simp) (hco c (by simp)) (har c (by simp))]
          simp
        | cons c2 cs3 => simp at hlen
    | cons x its ih =>
      intro cs hch hlen hco har
      cases cs with
      | nil => simp at hlen
      | cons c cs =>
        rw [countAll_iff] at hco
        rw [arityAll_iff] at har
        rw [inorderZip_cons_cons]
        rw [List.length_append]
        rw [hch c (by simp) (hco c (by simp)) (har c (by simp))]
        rw [List.length_cons,
          ih cs (fun c2 hc2 => hch c2 (by simp [hc2])) (by simpa using hlen)
            (by rw [countAll_iff]; intro c2 hc2; exact hco c2 (by simp [hc2]))
            (by rw [arityAll_iff]; intro c2 hc2; exact har c2 (by simp [hc2]))]
        simp [sumCnt]
        omega
  intro n
  induction n using BNode.inductionOn with
  | hleaf c its =>
    intro hco _
    rw [countOK_leaf] at hco
    simp [hco]
  | hinner c its cs ih =>
    intro hco har
    rw [countOK_inner] at hco
    rw [arityOK_inner] at har
    rw [inorder_inner, BNode.cnt_inner, hco.1]
    exact zipmain its cs (fun c2 hc2 => ih c2 hc2) har.1 hco.2 har.2

mutual

/-- Mirror of the descent loop of Go `getAt` (btree.go lines 934-949): at a
leaf the index picks the item directly; at an internal node compare against
each child's cached count, answering with the separator on equality, else
subtracting `child.count + 1` and moving right, descending when the index
falls inside a child. -/
def getAtNode {α : Type} : BNode α → Nat → Option α
  | .leaf _ its, idx => its[idx]?
  | .inner _ its cs, idx => getAtLoop its cs idx

/-- The per-node loop of Go `getAt` over items and children. -/
def getAtLoop {α : Type} : List α → List (BNode α) → Nat → Option α
  | [], [], _ => none
  | _ :: _, [], _ => none
  | [], c :: _, idx => getAtNode c idx
  | x :: its, c :: cs, idx =>
      if idx < c.cnt then getAtNode c idx
      else if idx = c.cnt then some x
      else getAtLoop its cs (idx - (c.cnt + 1))

end

/-- Mirror of Go `GetAt` / `getAt` (btree.go lines 919-950): a `nil` root or
an out-of-range index (negative included, hence the `Int` argument) reports
not-found. -/
def GetAt {α : Type} (t : BTree α) (index : Int) : Option α :=
  match t.root with
  | none => none
  | some n =>
    if index < 0 ∨ (t.count : Int) ≤ index then none
    else getAtNode n index.toNat

theorem getAtNode_correct :
    ∀ n : BNode α, CountOK n → ArityOK n → ∀ idx, idx < n.cnt →
      getAtNode n idx = n.inorder[idx]? := by
  have zipmain : ∀ (its : List α) (cs : List (BNode α)),
      (∀ c ∈ cs, CountOK c → ArityOK c → ∀ idx, idx < c.cnt →
        getAtNode c idx = c.inorder[idx]?) →
      cs.length = its.length + 1 → CountAll cs → ArityAll cs →
      ∀ idx, idx < its.length + sumCnt cs →
      getAtLoop its cs idx = (inorderZip its cs)[idx]? := by
    intro its
    induction its with
    | nil =>
      intro cs hch hlen hco har idx hidx
      cases cs with
      | nil => simp at hlen
      | cons c cs2 =>
        cases cs2 with
        | nil =>
          rw [countAll_iff] at hco
          rw [arityAll_iff] at har
          rw [getAtLoop, inorderZip_nil_left]
          exact hch c (by simp) (hco c (by simp)) (har c (by simp)) idx
            (by simpa [sumCnt] using hidx)
        | cons c2 cs3 => simp at hlen
    | cons x its ih =>
      intro cs hch hlen hco har idx hidx
      cases cs with
      | nil => simp at hlen
      | cons c cs =>
        rw [countAll_iff] at hco
        rw [arityAll_iff] at har
        have hclen : c.inorder.length = c.cnt :=
          inorder_length_eq_cnt c (hco c (by simp)) (har c (by simp))
        rw [getAtLoop, inorderZip_cons_cons]
        by_cases h1 : idx < c.cnt
        · rw [if_pos h1, List.getElem?_append, if_pos (by omega)]
          exact hch c (by simp) (hco c (by simp)) (har c (by simp)) idx h1
        · rw [if_neg h1]
          by_cases h2 : idx = c.cnt
          · rw [if_pos h2, List.getElem?_append, if_neg (by omega)]
            subst h2
            rw [hclen]
            simp
          · rw [if_neg h2, List.getElem?_append, if_neg (by omega)]
            have : idx - c.inorder.length = (idx - (c.cnt + 1)) + 1 := by omega
            rw [this]
            rw [List.getElem?_cons_succ]
            refine ih cs (fun c2 hc2 => hch c2 (by simp [hc2])) (by simpa using hlen)
              (by rw [countAll_iff]; intro c2 hc2; exact hco c2 (by simp [hc2]))
              (by rw [arityAll_iff]; intro c2 hc2; exact har c2 (by simp [hc2]))
              (idx - (c.cnt + 1)) ?_
            simp [sumCnt] at hidx
            omega
  intro n
  induction n using BNode.inductionOn with
  | hleaf c its =>
    intro _ _ idx _
    rw [getAtNode, inorder_leaf]
  | hinner c its cs ih =>
    intro hco har idx hidx
    rw [countOK_inner] at hco
    rw [arityOK_inner] at har
    rw [getAtNode, inorder_inner]
    exact zipmain its cs (fun c2 hc2 => ih c2 hc2) har.1 hco.2 har.2 idx
      (by rw [BNode.cnt_inner, hco.1] at hidx; exact hidx)

/-- C7.  On a tree satisfying the representation invariant, `GetAt(i)` for
`0 ≤ i < Len()` returns exactly the `i`-th item (0-based) of the in-order
sequence that `Scan` yields, and any other index — negative or at least
`Len()`, the empty tree included — reports not-found rather than failing. -/
theorem getAt_correct (key : α → K) (t : BTree α) (hinv : TreeInv key t) :
    (∀ i : Int, 0 ≤ i → i < (Len t : Int) →
      GetAt t i = (treeInorder t)[i.toNat]? ∧ ∃ x, GetAt t i = some x) ∧
    (∀ i : Int, i < 0 ∨ (Len t : Int) ≤ i → GetAt t i = none) := by
  cases hroot : t.root with
  | none =>
    constructor
    · intro i h0 hlt
      obtain ⟨⟨_, hiff, _⟩, _, _, _⟩ := hinv
      have : t.count = 0 := hiff.mpr hroot
      rw [Len] at hlt
      omega
    · intro i _
      rw [GetAt, hroot]
  | some n =>
    obtain ⟨_, har, hco, _, _, _, hcnt⟩ :=
      (treeInv_root hinv n hroot).imp id id
    have hco2 : CountOK n := by
      obtain ⟨⟨_, _, hnode⟩, _, _, _⟩ := hinv
      exact (hnode n hroot).2.2.2.1
    have har2 : ArityOK n := by
      obtain ⟨⟨_, _, hnode⟩, _, _, _⟩ := hinv
      exact (hnode n hroot).2.2.1
    have hcnt2 : t.count = n.inorder.length := by
      obtain ⟨⟨hc, _, _⟩, _, _, _⟩ := hinv
      rw [hc, treeInorder, hroot]
    constructor
    · intro i h0 hlt
      rw [Len] at hlt
      have hguard : ¬ (i < 0 ∨ (t.count : Int) ≤ i) := by omega
      have hga : GetAt t i = getAtNode n i.toNat := by
        have hstep : GetAt t i =
            if i < 0 ∨ ((t.count : Int)) ≤ i then none else getAtNode n i.toNat := by
          rw [GetAt, hroot]
        rw [hstep, if_neg hguard]
      have hidx : i.toNat < n.cnt := by
        rw [← inorder_length_eq_cnt n hco2 har2, ← hcnt2]
        omega
      rw [hga, getAtNode_correct n hco2 har2 i.toNat hidx, treeInorder, hroot]
      refine ⟨rfl, ?_⟩
      rw [List.getElem?_eq_getElem
        (by rw [inorder_length_eq_cnt n hco2 har2]; exact hidx : i.toNat < n.inorder.length)]
      exact ⟨_, rfl⟩
    · intro i hout
      have hstep : GetAt t i =
          if i < 0 ∨ ((t.count : Int)) ≤ i then none else getAtNode n i.toNat := by
        rw [GetAt, hroot]
      rw [hstep, if_pos (by rw [Len] at hout; exact hout)]

/-- Witness for C7 at a concrete input: rank 1 of the three-item sample tree
(which holds item `2`), plus the out-of-range side at index `-1`. -/
theorem getAt_correct_witness :
    (∀ i : Int, 0 ≤ i → i < (Len sampleTree : Int) →
      GetAt sampleTree i = (treeInorder sampleTree)[i.toNat]? ∧
        ∃ x, GetAt sampleTree i = some x) ∧
    (∀ i : Int, i < 0 ∨ (Len sampleTree : Int) ≤ i → GetAt sampleTree i = none) :=
  getAt_correct (fun x : Int => x) sampleTree sampleTree_inv

end RankAccess

section Insert

variable {α K : Type} [LinearOrder K]

/-- Mirror of Go `node.updateCount` (btree.go lines 263-270): recompute the
cached subtree-count from the items and the children's cached counts. -/
def updateCount {α : Type} : BNode α → BNode α
  | .leaf _ its => .leaf its.length its
  | .inner _ its cs => .inner (its.length + sumCnt cs) its cs

@[simp] theorem updateCount_leaf (c : Nat) (its : List α) :
    updateCount (BNode.leaf c its) = .leaf its.length its := rfl

@[simp] theorem updateCount_inner (c : Nat) (its : List α) (cs : List (BNode α)) :
    updateCount (BNode.inner c its cs) = .inner (its.length + sumCnt cs) its cs := rfl

/-- Mirror of Go `nodeSplit` (btree.go lines 240-261): split a (full) node at
`i = max/2` into the left part (items and children up to `i`), the right
sibling (items and children past `i`) and the median item, refreshing both
cached counts.  `none` models the Go panic when `items[max/2]` does not
exist. -/
def nodeSplit {α : Type} (mx : Nat) : BNode α → Option (BNode α × BNode α × α)
  | .leaf _ its =>
    match its[mx / 2]? with
    | none => none
    | some median =>
      some (updateCount (.leaf 0 (its.take (mx / 2))),
        updateCount (.leaf 0 (its.drop (mx / 2 + 1))), median)
  | .inner _ its cs =>
    match its[mx / 2]? with
    | none => none
    | some median =>
      some (updateCount (.inner 0 (its.take (mx / 2)) (cs.take (mx / 2 + 1))),
        updateCount (.inner 0 (its.drop (mx / 2 + 1)) (cs.drop (mx / 2 + 1))), median)

/-- Result of `nodeSet` apart from the threaded hint: `split` reports an
untouched full node, `done` carries the replaced item (if any) and the
updated node. -/
inductive SetRes (α : Type) : Type where
  | split : SetRes α
  | done (prev : Option α) (n2 : BNode α) : SetRes α

/-- Mirror of Go `find` (btree.go lines 112-118): `bsearch` without a hint,
`hintsearch` (result and updated hint) with one; `none` is the hint-search
panic on an itemless node. -/
def find (key : α → K) (n : BNode α) (k : α) (hint : Option PathHint)
    (depth : Nat) : Option (Nat × Bool × Option PathHint) :=
  match hint with
  | none => some ((bsearch key n k).1, (bsearch key n k).2, none)
  | some h =>
    match hintsearch key n k h depth with
    | none => none
    | some (i, fnd, h2) => some (i, fnd, some h2)

/-- Mirror of Go `nodeSet` (btree.go lines 304-351), fuelled because the Go
code re-enters itself on the same node after splitting a full child
(`return tr.nodeSet(&n, item, hint, depth)`); `none` is fuel exhaustion or a
Go panic.  Found: replace in place.  Leaf: report split when full, else
insert at the search index and bump the count.  Internal: recurse; on a
child split with room, split the full child, insert the median and the right
sibling, and retry this node; otherwise store the updated child back and bump
the count unless an item was replaced. -/
def nodeSet (key : α → K) (mx : Nat) :
    Nat → BNode α → α → Option PathHint → Nat → Option (SetRes α × Option PathHint)
  | 0, _, _, _, _ => none
  | fuel + 1, n, item, hint, depth =>
    match find key n item hint depth with
    | none => none
    | some (i, found, hint1) =>
      if found then
        match n with
        | .leaf c its =>
          match its[i]? with
          | none => none
          | some prev => some (.done (some prev) (.leaf c (its.set i item)), hint1)
        | .inner c its cs =>
          match its[i]? with
          | none => none
          | some prev => some (.done (some prev) (.inner c (its.set i item) cs), hint1)
      else
        match n with
        | .leaf c its =>
          if its.length = mx then some (.split, hint1)
          else some (.done none (.leaf (c + 1) (its.insertIdx i item)), hint1)
        | .inner c its cs =>
          match cs[i]? with
          | none => none
          | some ci =>
            match nodeSet key mx fuel ci item hint1 (depth + 1) with
            | none => none
            | some (.split, hint2) =>
              if its.length = mx then some (.split, hint2)
              else
                match nodeSplit mx ci with
                | none => none
                | some (l, r, median) =>
                  nodeSet key mx fuel
                    (.inner c (its.insertIdx i median) ((cs.set i l).insertIdx (i + 1) r))
                    item hint2 depth
            | some (.done (some prev) ci2, hint2) =>
              some (.done (some prev) (.inner c its (cs.set i ci2)), hint2)
            | some (.done none ci2, hint2) =>
              some (.done none (.inner (c + 1) its (cs.set i ci2)), hint2)

/-- Mirror of Go `setHint` (btree.go lines 207-232), fuelled because it
retries itself after growing a new root over a split: an empty tree gets a
fresh one-item leaf root with both counts 1; otherwise run `nodeSet` on the
root, growing the tree by one level and retrying when the root itself must
split; an insertion (no replacement) bumps the tree count. -/
def setHint (key : α → K) :
    Nat → BTree α → α → Option PathHint → Option (Option α × BTree α)
  | 0, _, _, _ => none
  | fuel + 1, t, item, hint =>
    match t.root with
    | none => some (none, { t with root := some (.leaf 1 [item]), count := 1 })
    | some root =>
      match nodeSet key t.max fuel root item hint 0 with
      | none => none
      | some (.split, hint2) =>
        match nodeSplit t.max root with
        | none => none
        | some (l, r, median) =>
          setHint key fuel
            { t with root := some (updateCount (.inner 0 [median] [l, r])) } item hint2
      | some (.done (some prev) root2, _) =>
        some (some prev, { t with root := some root2 })
      | some (.done none root2, _) =>
        some (none, { t with root := some root2, count := t.count + 1 })

/-- Mirror of Go `Upsert` (btree.go lines 236-238): `SetHint` with no
hint. -/
def Upsert (key : α → K) (fuel : Nat) (t : BTree α) (item : α) :
    Option (Option α × BTree α) :=
  setHint key fuel t item none

/-- List-level upsert into a sorted list: replace the first item comparing
equal, or insert before the first larger item. -/
def listUpsert (key : α → K) (item : α) : List α → List α
  | [] => [item]
  | y :: tl =>
      if key y < key item then y :: listUpsert key item tl
      else if key item < key y then item :: y :: tl
      else item :: tl

@[simp] theorem listUpsert_nil (key : α → K) (item : α) :
    listUpsert key item [] = [item] := by
  rw [listUpsert]

theorem listUpsert_cons (key : α → K) (item y : α) (tl : List α) :
    listUpsert key item (y :: tl) =
      if key y < key item then y :: listUpsert key item tl
      else if key item < key y then item :: y :: tl
      else item :: tl := by
  rw [listUpsert]

theorem listUpsert_append_left (key : α → K) (item : α) (P B : List α)
    (hP : ∀ y ∈ P, key y < key item) :
    listUpsert key item (P ++ B) = P ++ listUpsert key item B := by
  induction P with
  | nil => simp
  | cons y P ih =>
    rw [List.cons_append, listUpsert_cons, if_pos (hP y (by simp)),
      ih (fun z hz => hP z (by simp [hz])), List.cons_append]

theorem listUpsert_append_right (key : α → K) (item : α) (C S : List α)
    (hS : ∀ z ∈ S, key item < key z) :
    listUpsert key item (C ++ S) = listUpsert key item C ++ S := by
  induction C with
  | nil =>
    cases S with
    | nil => simp
    | cons z S =>
      rw [List.nil_append, listUpsert_cons, if_neg (by
          have := hS z (by simp)
          exact not_lt.mpr (le_of_lt this)),
        if_pos (hS z (by simp)), listUpsert_nil, List.cons_append, List.nil_append]
  | cons y C ih =>
    rw [List.cons_append, listUpsert_cons, listUpsert_cons]
    by_cases h1 : key y < key item
    · rw [if_pos h1, if_pos h1, ih, List.cons_append]
    · rw [if_neg h1, if_neg h1]
      by_cases h2 : key item < key y
      · rw [if_pos h2, if_pos h2]
        simp
      · rw [if_neg h2, if_neg h2]
        simp

theorem listUpsert_eq_set (key : α → K) (item : α) :
    ∀ (its : List α) (i : Nat), its.Pairwise (fun a b => key a < key b) →
      (hi : i < its.length) → key (its.get ⟨i, hi⟩) = key item →
      listUpsert key item its = its.set i item := by
  intro its
  induction its with
  | nil =>
    intro i _ hi
    simp at hi
  | cons y tl ih =>
    intro i hsort hi heq
    rw [List.pairwise_cons] at hsort
    cases i with
    | zero =>
      simp only [List.get_eq_getElem, List.getElem_cons_zero] at heq
      rw [listUpsert_cons, if_neg (by rw [heq]; exact lt_irrefl _),
        if_neg (by rw [heq]; exact lt_irrefl _), List.set_cons_zero]
    | succ i2 =>
      have hi2 : i2 < tl.length := by simpa using hi
      simp only [List.get_eq_getElem, List.getElem_cons_succ] at heq
      have hylt : key y < key item := by
        have := hsort.1 (tl.get ⟨i2, hi2⟩) (List.get_mem tl i2 hi2)
        simp only [List.get_eq_getElem] at this
        exact heq ▸ this
      rw [listUpsert_cons, if_pos hylt, List.set_cons_succ,
        ih i2 hsort.2 hi2 (by simpa using heq)]

theorem listUpsert_eq_insertIdx (key : α → K) (item : α) :
    ∀ (its : List α) (i : Nat), i ≤ its.length →
      (∀ j, (hj : j < its.length) → j < i → key its[j] < key item) →
      (∀ j, (hj : j < its.length) → i ≤ j → key item < key its[j]) →
      listUpsert key item its = its.insertIdx i item := by
  intro its
  induction its with
  | nil =>
    intro i hi _ _
    have : i = 0 := by simpa using hi
    subst this
    simp
  | cons y tl ih =>
    intro i hi hbelow habove
    cases i with
    | zero =>
      have h0 : key item < key y := by simpa using habove 0 (by simp) (by omega)
      rw [listUpsert_cons, if_neg (not_lt.mpr (le_of_lt h0)), if_pos h0]
      simp
    | succ i2 =>
      have h0 : key y < key item := by simpa using hbelow 0 (by simp) (by omega)
      rw [listUpsert_cons, if_pos h0, List.insertIdx_succ_cons,
        ih i2 (by simpa using hi)
          (fun j hj hji => by simpa using hbelow (j + 1) (by simpa using hj) (by omega))
          (fun j hj hji => by simpa using habove (j + 1) (by simpa using hj) (by omega))]

/-- Items and children strictly before index `i` in the in-order
interleaving. -/
def zipTake {α : Type} : List α → List (BNode α) → Nat → List α
  | _, _, 0 => []
  | [], _, _ + 1 => []
  | _ :: _, [], _ + 1 => []
  | x :: its, c :: cs, i + 1 => c.inorder ++ x :: zipTake its cs i

@[simp] theorem zipTake_zero (its : List α) (cs : List (BNode α)) :
    zipTake its cs 0 = [] := by
  cases its <;> cases cs <;> rw [zipTake]

@[simp] theorem zipTake_succ_cons (x : α) (its : List α) (c : BNode α)
    (cs : List (BNode α)) (i : Nat) :
    zipTake (x :: its) (c :: cs) (i + 1) = c.inorder ++ x :: zipTake its cs i := by
  rw [zipTake]

theorem zip_decomp :
    ∀ (i : Nat) (its : List α) (cs : List (BNode α)) (ci : BNode α),
      cs[i]? = some ci → i ≤ its.length →
      inorderZip its cs =
        zipTake its cs i ++ ci.inorder ++ ascendSeq (its.drop i) (cs.drop (i + 1)) := by
  intro i
  induction i with
  | zero =>
    intro its cs ci hci _
    cases cs with
    | nil => simp at hci
    | cons c cs2 =>
      simp only [List.getElem?_cons_zero, Option.some.injEq] at hci
      subst hci
      rw [inorderZip_eq_ascendSeq]
      simp
  | succ i2 ih =>
    intro its cs ci hci hle
    cases its with
    | nil => simp at hle
    | cons x its2 =>
      cases cs with
      | nil => simp at hci
      | cons c cs2 =>
        rw [inorderZip_cons_cons, zipTake_succ_cons,
          ih its2 cs2 ci (by simpa using hci) (by simpa using hle)]
        simp

/-- Surgery on an ordered internal node: locate child `i`, produce its open
interval (with transfer rules matching the binary-search facts), and closures
that restore orderedness after replacing the child, or after splitting it
into two halves around a median that moves up into the items. -/
theorem zip_child_surgery (key : α → K) :
    ∀ (its : List α) (cs : List (BNode α)) (i : Nat) (lo hi : Option K) (ci : BNode α),
      OrderedZip key lo hi its cs → cs[i]? = some ci →
      ∃ lo2 hi2,
        Ordered key lo2 hi2 ci ∧
        (∀ y : α, (∀ j, (hj : j < its.length) → j < i → key its[j] < key y) →
          lb key lo y → lb key lo2 y) ∧
        (∀ y : α, (∀ j, (hj : j < its.length) → i ≤ j → key y < key its[j]) →
          ub key hi y → ub key hi2 y) ∧
        (∀ ci2, Ordered key lo2 hi2 ci2 →
          OrderedZip key lo hi its (cs.set i ci2)) ∧
        (∀ l r median, Ordered key lo2 (some (key median)) l →
          Ordered key (some (key median)) hi2 r →
          lb key lo2 median → ub key hi2 median →
          OrderedZip key lo hi (its.insertIdx i median)
            ((cs.set i l).insertIdx (i + 1) r)) := by
  intro its
  induction its with
  | nil =>
    intro cs i lo hi ci hz hci
    match cs with
    | [] => exact absurd hz (orderedZip_nil_nil key lo hi)
    | [c] =>
      rw [orderedZip_nil] at hz
      cases i with
      | zero =>
        simp only [List.getElem?_cons_zero, Option.some.injEq] at hci
        subst hci
        refine ⟨lo, hi, hz, fun y _ h => h, fun y _ h => h, ?_, ?_⟩
        · intro ci2 h2
          rw [List.set_cons_zero, orderedZip_nil]
          exact h2
        · intro l r median hl hr hlbm hubm
          rw [List.set_cons_zero]
          simp only [List.insertIdx_zero, List.insertIdx_succ_cons, List.insertIdx_zero]
          rw [orderedZip_cons]
          exact ⟨hl, hlbm, hubm, by rw [orderedZip_nil]; exact hr⟩
      | succ i2 => simp at hci
    | c :: c2 :: cs => exact absurd hz (orderedZip_nil_cons2 key lo hi c c2 cs)
  | cons x its2 ih =>
    intro cs i lo hi ci hz hci
    cases cs with
    | nil => exact absurd hz (orderedZip_cons_nil key lo hi x its2)
    | cons c cs2 =>
      rw [orderedZip_cons] at hz
      obtain ⟨hc, hlbx, hubx, hrest⟩ := hz
      cases i with
      | zero =>
        simp only [List.getElem?_cons_zero, Option.some.injEq] at hci
        subst hci
        refine ⟨lo, some (key x), hc, fun y _ h => h, ?_, ?_, ?_⟩
        · intro y habove _
          rw [ub_some]
          simpa using habove 0 (by simp) (by omega)
        · intro ci2 h2
          rw [List.set_cons_zero, orderedZip_cons]
          exact ⟨h2, hlbx, hubx, hrest⟩
        · intro l r median hl hr hlbm hubm
          rw [List.set_cons_zero]
          simp only [List.insertIdx_zero, List.insertIdx_succ_cons, List.insertIdx_zero]
          rw [orderedZip_cons]
          have hmx : key median < key x := (ub_some key (key x) median).mp hubm
          refine ⟨hl, hlbm, ?_, ?_⟩
          · intro h hh
            exact lt_trans hmx (hubx h hh)
          · rw [orderedZip_cons]
            refine ⟨hr, (lb_some key (key median) x).mpr hmx, hubx, hrest⟩
      | succ i2 =>
        obtain ⟨lo2, hi2, hciord, hlbT, hubT, hset, habsorb⟩ :=
          ih cs2 i2 (some (key x)) hi ci hrest (by simpa using hci)
        refine ⟨lo2, hi2, hciord, ?_, ?_, ?_, ?_⟩
        · intro y hbelow hlby
          refine hlbT y (fun j hj hji => by
            simpa using hbelow (j + 1) (by simpa using hj) (by omega)) ?_
          rw [lb_some]
          simpa using hbelow 0 (by simp) (by omega)
        · intro y habove huby
          exact hubT y (fun j hj hji => by
            simpa using habove (j + 1) (by simpa using hj) (by omega)) huby
        · intro ci2 h2
          rw [List.set_cons_succ, orderedZip_cons]
          exact ⟨hc, hlbx, hubx, hset ci2 h2⟩
        · intro l r median hl hr hlbm hubm
          rw [List.set_cons_succ, List.insertIdx_succ_cons, List.insertIdx_succ_cons,
            orderedZip_cons]
          exact ⟨hc, hlbx, hubx, habsorb l r median hl hr hlbm hubm⟩

theorem sumCnt_set :
    ∀ (cs : List (BNode α)) (i : Nat) (ci ci2 : BNode α), cs[i]? = some ci →
      sumCnt (cs.set i ci2) + ci.cnt = sumCnt cs + ci2.cnt := by
  intro cs
  induction cs with
  | nil =>
    intro i ci ci2 hci
    simp at hci
  | cons c cs ih =>
    intro i ci ci2 hci
    cases i with
    | zero =>
      simp only [List.getElem?_cons_zero, Option.some.injEq] at hci
      subst hci
      rw [List.set_cons_zero]
      simp
      omega
    | succ i2 =>
      rw [List.set_cons_succ]
      simp only [sumCnt_cons]
      have := ih i2 ci ci2 (by simpa using hci)
      omega

theorem sumCnt_absorb :
    ∀ (cs : List (BNode α)) (i : Nat) (ci l r : BNode α), cs[i]? = some ci →
      sumCnt ((cs.set i l).insertIdx (i + 1) r) + ci.cnt =
        sumCnt cs + l.cnt + r.cnt := by
  intro cs
  induction cs with
  | nil =>
    intro i ci l r hci
    simp at hci
  | cons c cs ih =>
    intro i ci l r hci
    cases i with
    | zero =>
      simp only [List.getElem?_cons_zero, Option.some.injEq] at hci
      subst hci
      rw [List.set_cons_zero, List.insertIdx_succ_cons]
      simp
      omega
    | succ i2 =>
      rw [List.set_cons_succ, List.insertIdx_succ_cons]
      simp only [sumCnt_cons]
      have := ih i2 ci l r (by simpa using hci)
      omega

theorem sumCnt_take_drop :
    ∀ (cs : List (BNode α)) (j : Nat),
      sumCnt (cs.take j) + sumCnt (cs.drop j) = sumCnt cs := by
  intro cs
  induction cs with
  | nil => intro j; simp
  | cons c cs ih =>
    intro j
    cases j with
    | zero => simp
    | succ j2 =>
      rw [List.take_succ_cons, List.drop_succ_cons]
      simp only [sumCnt_cons]
      have := ih j2
      omega

theorem zipTake_below (key : α → K) (item : α) :
    ∀ (its : List α) (cs : List (BNode α)) (i : Nat) (lo hi : Option K),
      OrderedZip key lo hi its cs →
      (∀ j, (hj : j < its.length) → j < i → key its[j] < key item) →
      ∀ y ∈ zipTake its cs i, key y < key item := by
  intro its
  induction its with
  | nil =>
    intro cs i lo hi _ _ y hy
    cases cs with
    | nil => cases i <;> simp [zipTake] at hy
    | cons c cs2 => cases i <;> simp [zipTake] at hy
  | cons x its2 ih =>
    intro cs i lo hi hz hbelow y hy
    cases cs with
    | nil => exact absurd hz (orderedZip_cons_nil key lo hi x its2)
    | cons c cs2 =>
      cases i with
      | zero => simp at hy
      | succ i2 =>
        rw [orderedZip_cons] at hz
        have hx : key x < key item := by simpa using hbelow 0 (by simp) (by omega)
        rw [zipTake_succ_cons] at hy
        rcases List.mem_append.mp hy with hy1 | hy2
        · have := (ordered_sorted_bounds key c lo (some (key x)) hz.1).2 y hy1
          exact lt_trans ((ub_some key (key x) y).mp this.2) hx
        · rcases List.mem_cons.mp hy2 with rfl | hy3
          · exact hx
          · exact ih cs2 i2 (some (key x)) hi hz.2.2.2
              (fun j hj hji => by
                simpa using hbelow (j + 1) (by simpa using hj) (by omega)) y hy3

theorem ascendSeq_above (key : α → K) (item : α) :
    ∀ (its : List α) (cs : List (BNode α)) (i : Nat) (lo hi : Option K),
      OrderedZip key lo hi its cs →
      (∀ j, (hj : j < its.length) → i ≤ j → key item < key its[j]) →
      ∀ y ∈ ascendSeq (its.drop i) (cs.drop (i + 1)), key item < key y := by
  intro its
  induction its with
  | nil =>
    intro cs i lo hi _ _ y hy
    simp at hy
  | cons x its2 ih =>
    intro cs i lo hi hz habove y hy
    cases cs with
    | nil => exact absurd hz (orderedZip_cons_nil key lo hi x its2)
    | cons c cs2 =>
      rw [orderedZip_cons] at hz
      cases i with
      | zero =>
        simp only [List.drop_zero, List.drop_succ_cons, List.drop_zero] at hy
        rw [ascendSeq_cons] at hy
        have hx : key item < key x := by simpa using habove 0 (by simp) (by omega)
        rcases List.mem_cons.mp hy with rfl | hy2
        · exact hx
        · have := orderedZip_sorted_bounds key its2 cs2 (some (key x)) hi
            (fun c2 hc2 => ordered_sorted_bounds key c2) hz.2.2.2
          exact lt_trans hx ((lb_some key (key x) y).mp (this.2 y hy2).1)
      | succ i2 =>
        rw [List.drop_succ_cons, List.drop_succ_cons] at hy
        exact ih cs2 i2 (some (key x)) hi hz.2.2.2
          (fun j hj hji => by
            simpa using habove (j + 1) (by simpa using hj) (by omega)) y hy

theorem zip_split_concat :
    ∀ (i : Nat) (its : List α) (cs : List (BNode α)),
      (hi : i < its.length) → cs.length = its.length + 1 →
      inorderZip its cs =
        inorderZip (its.take i) (cs.take (i + 1)) ++
          its[i] :: inorderZip (its.drop (i + 1)) (cs.drop (i + 1)) := by
  intro i
  induction i with
  | zero =>
    intro its cs hi hlen
    cases its with
    | nil => simp at hi
    | cons x its2 =>
      cases cs with
      | nil => simp at hlen
      | cons c cs2 =>
        simp
  | succ i2 ih =>
    intro its cs hi hlen
    cases its with
    | nil => simp at hi
    | cons x its2 =>
      cases cs with
      | nil => simp at hlen
      | cons c cs2 =>
        rw [List.take_succ_cons, List.take_succ_cons, List.drop_succ_cons,
          List.drop_succ_cons, inorderZip_cons_cons, inorderZip_cons_cons,
          ih its2 cs2 (by simpa using hi) (by simpa using hlen)]
        simp

theorem orderedZip_split (key : α → K) :
    ∀ (i : Nat) (its : List α) (cs : List (BNode α)) (lo hi : Option K),
      OrderedZip key lo hi its cs → (hilen : i < its.length) →
      OrderedZip key lo (some (key its[i])) (its.take i) (cs.take (i + 1)) ∧
      OrderedZip key (some (key its[i])) hi (its.drop (i + 1)) (cs.drop (i + 1)) ∧
      lb key lo its[i] ∧ ub key hi its[i] := by
  intro i
  induction i with
  | zero =>
    intro its cs lo hi hz hilen
    cases its with
    | nil => simp at hilen
    | cons x its2 =>
      cases cs with
      | nil => exact absurd hz (orderedZip_cons_nil key lo hi x its2)
      | cons c cs2 =>
        rw [orderedZip_cons] at hz
        obtain ⟨hc, hlbx, hubx, hrest⟩ := hz
        simp only [List.getElem_cons_zero, List.take_zero, List.take_succ_cons,
          List.take_zero, List.drop_succ_cons, List.drop_zero]
        exact ⟨by rw [orderedZip_nil]; exact hc, hrest, hlbx, hubx⟩
  | succ i2 ih =>
    intro its cs lo hi hz hilen
    cases its with
    | nil => simp at hilen
    | cons x its2 =>
      cases cs with
      | nil => exact absurd hz (orderedZip_cons_nil key lo hi x its2)
      | cons c cs2 =>
        rw [orderedZip_cons] at hz
        obtain ⟨hc, hlbx, hubx, hrest⟩ := hz
        obtain ⟨h1, h2, h3, h4⟩ := ih its2 cs2 (some (key x)) hi hrest
          (by simpa using hilen)
        simp only [List.getElem_cons_succ, List.take_succ_cons, List.drop_succ_cons]
        refine ⟨?_, h2, ?_, h4⟩
        · rw [orderedZip_cons]
          refine ⟨hc, hlbx, ?_, h1⟩
          intro hk hhk
          simp only [Option.mem_def, Option.some.injEq] at hhk
          subst hhk
          exact (lb_some key (key x) _).mp h3
        · intro l hl
          exact lt_trans (hlbx l hl) ((lb_some key (key x) _).mp h3)

theorem specOrder_of_ordered {key : α → K} {n : BNode α} {lo hi : Option K}
    (h : Ordered key lo hi n) : SpecOrder key n :=
  (ordered_to_spec key n lo hi h).1

theorem arityOK_of_ordered {key : α → K} {n : BNode α} {lo hi : Option K}
    (h : Ordered key lo hi n) : ArityOK n :=
  (ordered_to_spec key n lo hi h).2

theorem items_sorted_of_ordered {key : α → K} {n : BNode α} {lo hi : Option K}
    (h : Ordered key lo hi n) :
    n.items.Pairwise (fun a b => key a < key b) := by
  cases n with
  | leaf c its =>
    rw [ordered_leaf] at h
    simpa using h.1
  | inner c its cs =>
    have := specOrder_of_ordered h
    rw [specOrder_inner] at this
    simpa using this.1

/-- Splitting a full node with `max = 2*min+1` items yields two `min`-item
halves, ordered around the median, with correct counts, sizes and depths and
the same in-order run. -/
theorem nodeSplit_correct (key : α → K) (mn mx : Nat) (hmn : 1 ≤ mn)
    (hmx : mx = 2 * mn + 1) (n : BNode α) (lo hi : Option K) (h : Nat)
    (hord : Ordered key lo hi n) (hco : CountOK n) (hsz : SizeOK mn mx true n)
    (hdep : DepthIs n h) (hfull : n.items.length = mx) :
    ∃ l r median, nodeSplit mx n = some (l, r, median) ∧
      l.inorder ++ median :: r.inorder = n.inorder ∧
      Ordered key lo (some (key median)) l ∧ Ordered key (some (key median)) hi r ∧
      lb key lo median ∧ ub key hi median ∧
      CountOK l ∧ CountOK r ∧ l.cnt + r.cnt + 1 = n.cnt ∧
      SizeOK mn mx false l ∧ SizeOK mn mx false r ∧
      DepthIs l h ∧ DepthIs r h ∧
      l.items.length = mn ∧ r.items.length = mn := by
  have hhalf : mx / 2 = mn := by omega
  cases n with
  | leaf c its =>
    rw [ordered_leaf] at hord
    rw [countOK_leaf] at hco
    rw [depthIs_leaf] at hdep
    simp only [BNode.items_leaf] at hfull
    have hmed : mn < its.length := by omega
    refine ⟨updateCount (.leaf 0 (its.take mn)),
      updateCount (.leaf 0 (its.drop (mn + 1))), its[mn],
      ?_, ?_, ?_, ?_, ?_, ?_, ?_, ?_, ?_, ?_, ?_, ?_, ?_, ?_, ?_⟩
    · rw [nodeSplit, hhalf, List.getElem?_eq_getElem hmed]
    · rw [updateCount_leaf, updateCount_leaf, inorder_leaf, inorder_leaf, inorder_leaf]
      rw [← List.drop_eq_getElem_cons hmed, List.take_append_drop]
    · rw [updateCount_leaf, ordered_leaf]
      constructor
      · exact hord.1.sublist (List.take_sublist mn its)
      · intro y hy
        obtain ⟨j, hj, rfl⟩ := List.getElem_of_mem hy
        rw [List.getElem_take] at hy ⊢
        have hjlen : j < its.length := by
          have := List.length_take_le mn its
          omega
        refine ⟨(hord.2 _ (List.getElem_mem hjlen)).1, ?_⟩
        rw [ub_some]
        have hjm : j < mn := by
          have := List.length_take mn its
          omega
        exact List.pairwise_iff_getElem.mp hord.1 j mn hjlen hmed hjm
    · rw [updateCount_leaf, ordered_leaf]
      constructor
      · exact hord.1.sublist (List.drop_sublist (mn + 1) its)
      · intro y hy
        obtain ⟨j, hj, rfl⟩ := List.getElem_of_mem hy
        rw [List.getElem_drop]
        refine ⟨?_, ?_⟩
        · rw [lb_some]
          have := List.length_drop (mn + 1) its
          exact List.pairwise_iff_getElem.mp hord.1 mn (mn + 1 + j) hmed (by omega)
            (by omega)
        · rw [List.getElem_drop] at hy
          exact (hord.2 _ (List.getElem_mem (by
            have := List.length_drop (mn + 1) its
            omega))).2
    · exact (hord.2 _ (List.getElem_mem hmed)).1
    · exact (hord.2 _ (List.getElem_mem hmed)).2
    · rw [updateCount_leaf, countOK_leaf]
    · rw [updateCount_leaf, countOK_leaf]
    · rw [updateCount_leaf, updateCount_leaf, BNode.cnt_leaf, BNode.cnt_leaf,
        BNode.cnt_leaf, hco]
      rw [List.length_take, List.length_drop]
      omega
    · rw [updateCount_leaf, sizeOK_leaf]
      rw [List.length_take]
      omega
    · rw [updateCount_leaf, sizeOK_leaf]
      rw [List.length_drop]
      omega
    · rw [updateCount_leaf, depthIs_leaf]
      exact hdep
    · rw [updateCount_leaf, depthIs_leaf]
      exact hdep
    · rw [updateCount_leaf, BNode.items_leaf, List.length_take]
      omega
    · rw [updateCount_leaf, BNode.items_leaf, List.length_drop]
      omega
  | inner c its cs =>
    rw [ordered_inner] at hord
    rw [countOK_inner] at hco
    rw [depthIs_inner] at hdep
    rw [sizeOK_inner] at hsz
    simp only [BNode.items_inner] at hfull
    have hari : cs.length = its.length + 1 := by
      have := (ordered_to_spec key (BNode.inner c its cs) lo hi
        (by rw [ordered_inner]; exact hord)).2
      rw [arityOK_inner] at this
      exact this.1
    have hmed : mn < its.length := by omega
    obtain ⟨hl, hr, hlbm, hubm⟩ := orderedZip_split key mn its cs lo hi hord hmed
    refine ⟨updateCount (.inner 0 (its.take mn) (cs.take (mn + 1))),
      updateCount (.inner 0 (its.drop (mn + 1)) (cs.drop (mn + 1))), its[mn],
      ?_, ?_, ?_, ?_, hlbm, hubm, ?_, ?_, ?_, ?_, ?_, ?_, ?_, ?_, ?_⟩
    · rw [nodeSplit, hhalf, List.getElem?_eq_getElem hmed]
    · rw [updateCount_inner, updateCount_inner, inorder_inner, inorder_inner,
        inorder_inner]
      exact (zip_split_concat mn its cs hmed hari).symm
    · rw [updateCount_inner, ordered_inner]
      exact hl
    · rw [updateCount_inner, ordered_inner]
      exact hr
    · rw [updateCount_inner, countOK_inner]
      refine ⟨rfl, ?_⟩
      have hcall : ∀ c2 ∈ cs, CountOK c2 := (countAll_iff cs).mp hco.2
      rw [countAll_iff]
      exact fun c2 hc2 => hcall c2 (List.mem_of_mem_take hc2)
    · rw [updateCount_inner, countOK_inner]
      refine ⟨rfl, ?_⟩
      have hcall : ∀ c2 ∈ cs, CountOK c2 := (countAll_iff cs).mp hco.2
      rw [countAll_iff]
      exact fun c2 hc2 => hcall c2 (List.mem_of_mem_drop hc2)
    · rw [updateCount_inner, updateCount_inner, BNode.cnt_inner, BNode.cnt_inner,
        BNode.cnt_inner, hco.1]
      have hsum := sumCnt_take_drop cs (mn + 1)
      rw [List.length_take, List.length_drop]
      omega
    · rw [updateCount_inner, sizeOK_inner]
      have hsall : ∀ c2 ∈ cs, SizeOK mn mx false c2 := (sizeAll_iff mn mx cs).mp hsz.2.2
      refine ⟨?_, ?_, ?_⟩
      · intro _
        rw [List.length_take]
        omega
      · rw [List.length_take]
        omega
      · rw [sizeAll_iff]
        exact fun c2 hc2 => hsall c2 (List.mem_of_mem_take hc2)
    · rw [updateCount_inner, sizeOK_inner]
      have hsall : ∀ c2 ∈ cs, SizeOK mn mx false c2 := (sizeAll_iff mn mx cs).mp hsz.2.2
      refine ⟨?_, ?_, ?_⟩
      · intro _
        rw [List.length_drop]
        omega
      · rw [List.length_drop]
        omega
      · rw [sizeAll_iff]
        exact fun c2 hc2 => hsall c2 (List.mem_of_mem_drop hc2)
    · rw [updateCount_inner, depthIs_inner]
      have hdall := (depthAll_iff cs (h - 1)).mp hdep.2
      refine ⟨hdep.1, ?_⟩
      rw [depthAll_iff]
      exact fun c2 hc2 => hdall c2 (List.mem_of_mem_take hc2)
    · rw [updateCount_inner, depthIs_inner]
      have hdall := (depthAll_iff cs (h - 1)).mp hdep.2
      refine ⟨hdep.1, ?_⟩
      rw [depthAll_iff]
      exact fun c2 hc2 => hdall c2 (List.mem_of_mem_drop hc2)
    · rw [updateCount_inner, BNode.items_inner, List.length_take]
      omega
    · rw [updateCount_inner, BNode.items_inner, List.length_drop]
      omega

/-- The facts `nodeSet` guarantees about a completed (non-split) update:
invariants are preserved at the same height and interval, the item run grows
by at most one slot, the in-order sequence is the list-level upsert, the
cached count moves in step, and the reported previous value is a stored
equal-key item (or no equal-key item exists). -/
def SetDone (key : α → K) (mn mx : Nat) (item : α) (lo hi : Option K) (h : Nat)
    (n n2 : BNode α) (prev : Option α) : Prop :=
  Ordered key lo hi n2 ∧ CountOK n2 ∧ SizeOK mn mx true n2 ∧ DepthIs n2 h ∧
  n.items.length ≤ n2.items.length ∧
  n2.inorder = listUpsert key item n.inorder ∧
  n2.cnt = n.cnt + (match prev with | some _ => 0 | none => 1) ∧
  (match prev with
   | some p => p ∈ n.inorder ∧ key p = key item
   | none => ∀ y ∈ n.inorder, key y ≠ key item)

theorem zipTake_set_children :
    ∀ (its : List α) (cs : List (BNode α)) (i : Nat) (x : BNode α),
      zipTake its (cs.set i x) i = zipTake its cs i := by
  intro its
  induction its with
  | nil => intro cs i x; cases cs <;> cases i <;> simp [zipTake]
  | cons y its2 ih =>
    intro cs i x
    cases cs with
    | nil => cases i <;> simp [zipTake]
    | cons c cs2 =>
      cases i with
      | zero => simp
      | succ i2 =>
        rw [List.set_cons_succ, zipTake_succ_cons, zipTake_succ_cons, ih cs2 i2 x]

theorem zipTake_set_items :
    ∀ (its : List α) (cs : List (BNode α)) (i : Nat) (x : α),
      zipTake (its.set i x) cs i = zipTake its cs i := by
  intro its
  induction its with
  | nil => intro cs i x; cases cs <;> cases i <;> simp [zipTake]
  | cons y its2 ih =>
    intro cs i x
    cases cs with
    | nil => cases i <;> simp [zipTake]
    | cons c cs2 =>
      cases i with
      | zero => simp
      | succ i2 =>
        rw [List.set_cons_succ, zipTake_succ_cons, zipTake_succ_cons, ih cs2 i2 x]

theorem drop_set_of_le {β : Type} :
    ∀ (l : List β) (i j : Nat) (x : β), i < j → (l.set i x).drop j = l.drop j := by
  intro l
  induction l with
  | nil => intro i j x _; simp
  | cons y l ih =>
    intro i j x hij
    cases i with
    | zero =>
      cases j with
      | zero => omega
      | succ j2 => rw [List.set_cons_zero, List.drop_succ_cons, List.drop_succ_cons]
    | succ i2 =>
      cases j with
      | zero => omega
      | succ j2 =>
        rw [List.set_cons_succ, List.drop_succ_cons, List.drop_succ_cons,
          ih i2 j2 x (by omega)]

theorem drop_set_self {β : Type} :
    ∀ (l : List β) (i : Nat) (x : β), i < l.length →
      (l.set i x).drop i = x :: l.drop (i + 1) := by
  intro l
  induction l with
  | nil => intro i x hi; simp at hi
  | cons y l ih =>
    intro i x hi
    cases i with
    | zero => simp
    | succ i2 =>
      rw [List.set_cons_succ, List.drop_succ_cons, List.drop_succ_cons,
        ih i2 x (by simpa using hi)]

theorem getElem?_insertIdx_lt {β : Type} :
    ∀ (l : List β) (i j : Nat) (x : β), j < i →
      (l.insertIdx i x)[j]? = l[j]? := by
  intro l
  induction l with
  | nil =>
    intro i j x hj
    cases i with
    | zero => omega
    | succ i2 =>
      cases j <;> simp
  | cons y l ih =>
    intro i j x hj
    cases i with
    | zero => omega
    | succ i2 =>
      rw [List.insertIdx_succ_cons]
      cases j with
      | zero => simp
      | succ j2 =>
        rw [List.getElem?_cons_succ, List.getElem?_cons_succ, ih i2 j2 x (by omega)]

theorem getElem?_insertIdx_self {β : Type} :
    ∀ (l : List β) (i : Nat) (x : β), i ≤ l.length →
      (l.insertIdx i x)[i]? = some x := by
  intro l
  induction l with
  | nil =>
    intro i x hi
    have : i = 0 := by simpa using hi
    subst this
    simp
  | cons y l ih =>
    intro i x hi
    cases i with
    | zero => simp
    | succ i2 =>
      rw [List.insertIdx_succ_cons, List.getElem?_cons_succ, ih i2 x (by simpa using hi)]

theorem getElem?_insertIdx_shift {β : Type} :
    ∀ (l : List β) (i j : Nat) (x : β), i ≤ j →
      (l.insertIdx i x)[j + 1]? = l[j]? := by
  intro l
  induction l with
  | nil =>
    intro i j x hij
    cases i with
    | zero => cases j <;> simp
    | succ i2 => cases j <;> simp
  | cons y l ih =>
    intro i j x hij
    cases i with
    | zero =>
      rw [List.insertIdx_zero, List.getElem?_cons_succ]
    | succ i2 =>
      cases j with
      | zero => omega
      | succ j2 =>
        rw [List.insertIdx_succ_cons, List.getElem?_cons_succ, List.getElem?_cons_succ,
          ih i2 j2 x (by omega)]

theorem sizeOK_false_of_true {mn mx : Nat} {m : BNode α}
    (h : SizeOK mn mx true m) (hlen : mn ≤ m.items.length) : SizeOK mn mx false m := by
  cases m with
  | leaf c its =>
    rw [sizeOK_leaf] at h ⊢
    simp only [BNode.items_leaf] at hlen
    exact ⟨fun _ => hlen, h.2⟩
  | inner c its cs =>
    rw [sizeOK_inner] at h ⊢
    simp only [BNode.items_inner] at hlen
    exact ⟨fun _ => hlen, h.2.1, h.2.2⟩

theorem orderedZip_set_item (key : α → K) (item : α) :
    ∀ (its : List α) (cs : List (BNode α)) (i : Nat) (lo hi : Option K),
      OrderedZip key lo hi its cs → (hilen : i < its.length) →
      key its[i] = key item →
      (∀ j, (hj : j < its.length) → j < i → key its[j] < key item) →
      lb key lo item → ub key hi item →
      OrderedZip key lo hi (its.set i item) cs := by
  intro its
  induction its with
  | nil =>
    intro cs i lo hi _ hilen
    simp at hilen
  | cons x its2 ih =>
    intro cs i lo hi hz hilen heq hbelow hlbi hubi
    cases cs with
    | nil => exact absurd hz (orderedZip_cons_nil key lo hi x its2)
    | cons c cs2 =>
      rw [orderedZip_cons] at hz
      obtain ⟨hc, hlbx, hubx, hrest⟩ := hz
      cases i with
      | zero =>
        simp only [List.getElem_cons_zero] at heq
        rw [List.set_cons_zero, orderedZip_cons]
        refine ⟨by rw [← heq]; exact hc, hlbi, hubi, by rw [← heq]; exact hrest⟩
      | succ i2 =>
        rw [List.set_cons_succ, orderedZip_cons]
        refine ⟨hc, hlbx, hubx, ?_⟩
        refine ih cs2 i2 (some (key x)) hi hrest (by simpa using hilen)
          (by simpa using heq)
          (fun j hj hji => by
            simpa using hbelow (j + 1) (by simpa using hj) (by omega)) ?_ hubi
        rw [lb_some]
        simpa using hbelow 0 (by simp) (by omega)

theorem getElem?_set_self_of_lt {β : Type} :
    ∀ (l : List β) (i : Nat) (x : β), i < l.length → (l.set i x)[i]? = some x := by
  intro l
  induction l with
  | nil => intro i x hi; simp at hi
  | cons y l ih =>
    intro i x hi
    cases i with
    | zero => simp
    | succ i2 =>
      rw [List.set_cons_succ, List.getElem?_cons_succ, ih i2 x (by simpa using hi)]

/-- Lifting a completed child update (at slot `i`, under the binary-search
facts for a not-found separator scan) to the parent node, the way the
`nodeSet` internal-node branch stores the child back and bumps the count
on insertion. -/
theorem combine_done (key : α → K) (mn mx : Nat) (item : α)
    (c c2 : Nat) (its : List α) (cs : List (BNode α)) (i : Nat)
    (ci ci2 : BNode α) (prev : Option α) (lo hi lo2 hi2 : Option K) (h : Nat)
    (hc2 : c2 = c + (match prev with | some _ => 0 | none => 1))
    (hz : OrderedZip key lo hi its cs)
    (hci : cs[i]? = some ci)
    (hile : i ≤ its.length)
    (hbelow : ∀ j, (hj : j < its.length) → j < i → key its[j] < key item)
    (habove : ∀ j, (hj : j < its.length) → i ≤ j → key item < key its[j])
    (hsetcont : ∀ ci2b, Ordered key lo2 hi2 ci2b →
      OrderedZip key lo hi its (cs.set i ci2b))
    (hchild : SetDone key mn mx item lo2 hi2 (h - 1) ci ci2 prev)
    (hco : CountOK (BNode.inner c its cs))
    (hsz : SizeOK mn mx true (BNode.inner c its cs))
    (hszci : SizeOK mn mx false ci)
    (hdep : DepthIs (BNode.inner c its cs) h) :
    SetDone key mn mx item lo hi h
      (BNode.inner c its cs) (BNode.inner c2 its (cs.set i ci2)) prev := by
  obtain ⟨hord2, hco2, hsz2, hdep2, hlen1, hin2, hcnt2, hprev2⟩ := hchild
  have hilt : i < cs.length := by
    by_contra hlt
    rw [List.getElem?_eq_none (by omega)] at hci
    simp at hci
  have hci2 : (cs.set i ci2)[i]? = some ci2 := getElem?_set_self_of_lt cs i ci2 hilt
  have hdecomp := zip_decomp i its cs ci hci hile
  have hdecomp2 := zip_decomp i its (cs.set i ci2) ci2 hci2 hile
  rw [zipTake_set_children, drop_set_of_le cs i (i + 1) ci2 (by omega)] at hdecomp2
  have hR : listUpsert key item
      (zipTake its cs i ++ ci.inorder ++ ascendSeq (its.drop i) (cs.drop (i + 1))) =
      zipTake its cs i ++ ci2.inorder ++ ascendSeq (its.drop i) (cs.drop (i + 1)) := by
    rw [List.append_assoc,
      listUpsert_append_left key item (zipTake its cs i) _
        (zipTake_below key item its cs i lo hi hz hbelow),
      listUpsert_append_right key item ci.inorder _
        (ascendSeq_above key item its cs i lo hi hz habove),
      ← hin2, ← List.append_assoc]
  rw [countOK_inner] at hco
  rw [sizeOK_inner] at hsz
  rw [depthIs_inner] at hdep
  have hszci2 : SizeOK mn mx false ci2 := by
    refine sizeOK_false_of_true hsz2 ?_
    cases ci with
    | leaf c3 its3 =>
      rw [sizeOK_leaf] at hszci
      simp only [BNode.items_leaf] at hszci hlen1 ⊢
      exact le_trans (hszci.1 trivial) hlen1
    | inner c3 its3 cs3 =>
      rw [sizeOK_inner] at hszci
      simp only [BNode.items_inner] at hszci hlen1 ⊢
      exact le_trans (hszci.1 trivial) hlen1
  refine ⟨?_, ?_, ?_, ?_, le_refl _, ?_, ?_, ?_⟩
  · rw [ordered_inner]
    exact hsetcont ci2 hord2
  · rw [countOK_inner]
    constructor
    · have hsum := sumCnt_set cs i ci ci2 hci
      rw [hc2, hco.1]
      omega
    · rw [countAll_iff]
      intro c3 hc3
      rcases List.mem_or_eq_of_mem_set hc3 with hmem | rfl
      · exact (countAll_iff cs).mp hco.2 c3 hmem
      · exact hco2
  · rw [sizeOK_inner]
    refine ⟨fun hff => absurd hff (by simp), by simpa using hsz.2.1, ?_⟩
    rw [sizeAll_iff]
    intro c3 hc3
    rcases List.mem_or_eq_of_mem_set hc3 with hmem | rfl
    · exact (sizeAll_iff mn mx cs).mp hsz.2.2 c3 hmem
    · exact hszci2
  · rw [depthIs_inner]
    refine ⟨hdep.1, ?_⟩
    rw [depthAll_iff]
    intro c3 hc3
    rcases List.mem_or_eq_of_mem_set hc3 with hmem | rfl
    · exact (depthAll_iff cs (h - 1)).mp hdep.2 c3 hmem
    · exact hdep2
  · rw [inorder_inner, inorder_inner, hdecomp2, hdecomp, hR]
  · rw [BNode.cnt_inner, BNode.cnt_inner, hc2]
  · cases prev with
    | some p =>
      obtain ⟨hp1, hp2⟩ := hprev2
      refine ⟨?_, hp2⟩
      rw [inorder_inner, hdecomp]
      exact List.mem_append.mpr (Or.inl (List.mem_append.mpr (Or.inr hp1)))
    | none =>
      intro y hy
      rw [inorder_inner, hdecomp] at hy
      rcases List.mem_append.mp hy with hy1 | hy3
      · rcases List.mem_append.mp hy1 with hy4 | hy5
        · exact ne_of_lt (zipTake_below key item its cs i lo hi hz hbelow y hy4)
        · exact hprev2 y hy5
      · exact ne_of_gt (ascendSeq_above key item its cs i lo hi hz habove y hy3)

theorem lb_congr (key : α → K) {lo : Option K} {y z : α} (h : key y = key z)
    (hl : lb key lo y) : lb key lo z := fun l hl2 => h ▸ hl l hl2

theorem ub_congr (key : α → K) {hi : Option K} {y z : α} (h : key y = key z)
    (hu : ub key hi y) : ub key hi z := fun l hl2 => h ▸ hu l hl2

theorem listUpsert_mem (key : α → K) (item : α) :
    ∀ (its : List α) (z : α), z ∈ listUpsert key item its → z = item ∨ z ∈ its := by
  intro its
  induction its with
  | nil =>
    intro z hz
    simp at hz
    exact Or.inl hz
  | cons y tl ih =>
    intro z hz
    rw [listUpsert_cons] at hz
    by_cases h1 : key y < key item
    · rw [if_pos h1] at hz
      rcases List.mem_cons.mp hz with rfl | hz2
      · exact Or.inr (by simp)
      · rcases ih z hz2 with rfl | hz3
        · exact Or.inl rfl
        · exact Or.inr (by simp [hz3])
    · rw [if_neg h1] at hz
      by_cases h2 : key item < key y
      · rw [if_pos h2] at hz
        rcases List.mem_cons.mp hz with rfl | hz2
        · exact Or.inl rfl
        · exact Or.inr hz2
      · rw [if_neg h2] at hz
        rcases List.mem_cons.mp hz with rfl | hz2
        · exact Or.inl rfl
        · exact Or.inr (by simp [hz2])

theorem listUpsert_sorted_bounds (key : α → K) (item : α) :
    ∀ (its : List α) (lo hi : Option K),
      its.Pairwise (fun a b => key a < key b) →
      (∀ y ∈ its, lb key lo y ∧ ub key hi y) →
      lb key lo item → ub key hi item →
      (listUpsert key item its).Pairwise (fun a b => key a < key b) ∧
      ∀ y ∈ listUpsert key item its, lb key lo y ∧ ub key hi y := by
  intro its
  induction its with
  | nil =>
    intro lo hi _ _ hlb hub
    refine ⟨by simp, ?_⟩
    intro y hy
    simp at hy
    subst hy
    exact ⟨hlb, hub⟩
  | cons y tl ih =>
    intro lo hi hsort hbnd hlb hub
    rw [List.pairwise_cons] at hsort
    rw [listUpsert_cons]
    by_cases h1 : key y < key item
    · rw [if_pos h1]
      obtain ⟨ihs, ihb⟩ := ih lo hi hsort.2 (fun z hz => hbnd z (by simp [hz])) hlb hub
      refine ⟨List.pairwise_cons.mpr ⟨?_, ihs⟩, ?_⟩
      · intro z hz
        rcases listUpsert_mem key item tl z hz with rfl | hz2
        · exact h1
        · exact hsort.1 z hz2
      · intro z hz
        rcases List.mem_cons.mp hz with rfl | hz2
        · exact hbnd z (by simp)
        · exact ihb z hz2
    · rw [if_neg h1]
      by_cases h2 : key item < key y
      · rw [if_pos h2]
        refine ⟨List.pairwise_cons.mpr ⟨?_, List.pairwise_cons.mpr ⟨hsort.1, hsort.2⟩⟩, ?_⟩
        · intro z hz
          rcases List.mem_cons.mp hz with rfl | hz2
          · exact h2
          · exact lt_trans h2 (hsort.1 z hz2)
        · intro z hz
          rcases List.mem_cons.mp hz with rfl | hz2
          · exact ⟨hlb, hub⟩
          · exact hbnd z hz2
      · rw [if_neg h2]
        have heq : key y = key item := le_antisymm (not_lt.mp h2) (not_lt.mp h1)
        refine ⟨List.pairwise_cons.mpr ⟨?_, hsort.2⟩, ?_⟩
        · intro z hz
          exact heq ▸ hsort.1 z hz
        · intro z hz
          rcases List.mem_cons.mp hz with rfl | hz2
          · exact ⟨hlb, hub⟩
          · exact hbnd z (by simp [hz2])

theorem length_insertIdx_of_le {β : Type} :
    ∀ (l : List β) (i : Nat) (x : β), i ≤ l.length →
      (l.insertIdx i x).length = l.length + 1 := by
  intro l
  induction l with
  | nil =>
    intro i x hi
    have : i = 0 := by simpa using hi
    subst this
    simp
  | cons y l ih =>
    intro i x hi
    cases i with
    | zero => simp
    | succ i2 =>
      rw [List.insertIdx_succ_cons, List.length_cons, List.length_cons,
        ih i2 x (by simpa using hi)]

theorem sizeOK_true_of_false {mn mx : Nat} {m : BNode α}
    (h : SizeOK mn mx false m) : SizeOK mn mx true m := by
  cases m with
  | leaf c its =>
    rw [sizeOK_leaf] at h ⊢
    exact ⟨fun hcontra => absurd hcontra (by simp), h.2⟩
  | inner c its cs =>
    rw [sizeOK_inner] at h ⊢
    exact ⟨fun hcontra => absurd hcontra (by simp), h.2.1, h.2.2⟩

theorem child_below (key : α → K) :
    ∀ (its : List α) (cs : List (BNode α)) (i : Nat) (lo hi : Option K)
      (ci : BNode α),
      OrderedZip key lo hi its cs → (hilen : i < its.length) → cs[i]? = some ci →
      ∀ y ∈ ci.inorder, key y < key its[i] := by
  intro its
  induction its with
  | nil =>
    intro cs i lo hi ci _ hilen
    simp at hilen
  | cons x its2 ih =>
    intro cs i lo hi ci hz hilen hci
    cases cs with
    | nil => exact absurd hz (orderedZip_cons_nil key lo hi x its2)
    | cons c cs2 =>
      rw [orderedZip_cons] at hz
      cases i with
      | zero =>
        simp only [List.getElem?_cons_zero, Option.some.injEq] at hci
        intro y hy
        have hc1 : Ordered key lo (some (key x)) ci := hci ▸ hz.1
        simpa using ((ordered_sorted_bounds key ci lo (some (key x)) hc1).2 y hy).2
          (key x) rfl
      | succ i2 =>
        intro y hy
        simpa using ih cs2 i2 (some (key x)) hi ci hz.2.2.2 (by simpa using hilen)
          (by simpa using hci) y hy

/-- The hint is absent, or has the Go array shape: 8 used flags and 8 path
bytes. -/
def HintOK : Option PathHint → Prop
  | none => True
  | some hh => hh.used.length = 8 ∧ hh.path.length = 8

theorem pathMatchUpdate_lengths (hint : PathHint) (depth : Nat) (lf : Bool)
    (index : Nat) (found : Bool) (hu8 : hint.used.length = 8)
    (hp8 : hint.path.length = 8) :
    (pathMatchUpdate hint depth lf index found).used.length = 8 ∧
    (pathMatchUpdate hint depth lf index found).path.length = 8 := by
  simp only [pathMatchUpdate]
  by_cases hd : depth < 8
  · rw [if_pos hd]
    by_cases hne : ((if lf ∧ found then index + 1 else index) % 256) ≠
        hint.path.getD depth 0
    · rw [if_pos hne]
      constructor
      · rw [setFalseLoop_length, List.length_set, hu8]
      · rw [List.length_set, hp8]
    · rw [if_neg hne]
      exact ⟨by rw [List.length_set, hu8], hp8⟩
  · rw [if_neg hd]
    exact ⟨hu8, hp8⟩

/-- `find` dispatches to `bsearch` or `hintsearch`; on a nonempty sorted node
it always returns the `bsearch` pair, and the threaded hint keeps the Go
array shape. -/
theorem find_spec (key : α → K) (n : BNode α) (k : α) (hint : Option PathHint)
    (depth : Nat) (hsort : n.items.Pairwise (fun a b => key a < key b))
    (hne : n.items ≠ []) (hOK : HintOK hint) :
    ∃ hint1, find key n k hint depth =
        some ((bsearch key n k).1, (bsearch key n k).2, hint1) ∧ HintOK hint1 := by
  cases hint with
  | none => exact ⟨none, rfl, trivial⟩
  | some hh =>
    obtain ⟨hu8, hp8⟩ := hOK
    rcases hbs : bsearch key n k with ⟨i, fnd⟩
    have hcore : hintsearch key n k hh depth =
        some (i, fnd, pathMatchUpdate hh depth n.isLeaf i fnd) := by
      rw [hintsearch, hintsearchCore_eq_bsearch key n k hh depth hsort hne, hbs]
    refine ⟨some (pathMatchUpdate hh depth n.isLeaf i fnd), ?_, ?_⟩
    · rw [find, hcore]
    · exact pathMatchUpdate_lengths hh depth n.isLeaf i fnd hu8 hp8

/-- The found branch of `nodeSet` on a leaf: replacing the equal-comparing
item in place satisfies the completed-update contract. -/
theorem setDone_leaf_found (key : α → K) (mn mx : Nat) (item : α) (c : Nat)
    (its : List α) (i : Nat) (lo hi : Option K)
    (hord : Ordered key lo hi (BNode.leaf c its)) (hco : CountOK (BNode.leaf c its))
    (hsz : SizeOK mn mx true (BNode.leaf c its))
    (hilen : i < its.length) (heq : key its[i] = key item) :
    SetDone key mn mx item lo hi 0 (BNode.leaf c its)
      (BNode.leaf c (its.set i item)) (some its[i]) := by
  rw [ordered_leaf] at hord
  obtain ⟨hsort, hbnd⟩ := hord
  have hset : its.set i item = listUpsert key item its :=
    (listUpsert_eq_set key item its i hsort hilen (by simpa using heq)).symm
  have hlbi : lb key lo item :=
    lb_congr key heq (hbnd its[i] (List.getElem_mem hilen)).1
  have hubi : ub key hi item :=
    ub_congr key heq (hbnd its[i] (List.getElem_mem hilen)).2
  obtain ⟨hps, hpb⟩ := listUpsert_sorted_bounds key item its lo hi hsort hbnd hlbi hubi
  refine ⟨?_, ?_, ?_, ?_, ?_, ?_, ?_, ?_⟩
  · rw [ordered_leaf, hset]
    exact ⟨hps, hpb⟩
  · rw [countOK_leaf] at hco ⊢
    rw [List.length_set]
    exact hco
  · rw [sizeOK_leaf] at hsz ⊢
    rw [List.length_set]
    exact hsz
  · rw [depthIs_leaf]
  · simp [List.length_set]
  · rw [inorder_leaf, inorder_leaf, hset]
  · rfl
  · exact ⟨by rw [inorder_leaf]; exact List.getElem_mem hilen, heq⟩

/-- The not-found branch of `nodeSet` on a non-full leaf: inserting at the
search index and bumping the count satisfies the completed-update contract. -/
theorem setDone_leaf_insert (key : α → K) (mn mx : Nat) (item : α) (c : Nat)
    (its : List α) (i : Nat) (lo hi : Option K)
    (hord : Ordered key lo hi (BNode.leaf c its)) (hco : CountOK (BNode.leaf c its))
    (hsz : SizeOK mn mx true (BNode.leaf c its)) (hnotfull : its.length ≠ mx)
    (hile : i ≤ its.length)
    (hbelow : ∀ j, (hj : j < its.length) → j < i → key its[j] < key item)
    (habove : ∀ j, (hj : j < its.length) → i ≤ j → key item < key its[j])
    (hlbi : lb key lo item) (hubi : ub key hi item) :
    SetDone key mn mx item lo hi 0 (BNode.leaf c its)
      (BNode.leaf (c + 1) (its.insertIdx i item)) none := by
  rw [ordered_leaf] at hord
  obtain ⟨hsort, hbnd⟩ := hord
  have hins : its.insertIdx i item = listUpsert key item its :=
    (listUpsert_eq_insertIdx key item its i hile hbelow habove).symm
  obtain ⟨hps, hpb⟩ := listUpsert_sorted_bounds key item its lo hi hsort hbnd hlbi hubi
  refine ⟨?_, ?_, ?_, ?_, ?_, ?_, ?_, ?_⟩
  · rw [ordered_leaf, hins]
    exact ⟨hps, hpb⟩
  · rw [countOK_leaf] at hco ⊢
    rw [length_insertIdx_of_le its i item hile, hco]
  · rw [sizeOK_leaf] at hsz ⊢
    rw [length_insertIdx_of_le its i item hile]
    refine ⟨fun hcontra => absurd hcontra (by simp), ?_⟩
    have := hsz.2
    omega
  · rw [depthIs_leaf]
  · simp only [BNode.items_leaf]
    rw [length_insertIdx_of_le its i item hile]
    omega
  · rw [inorder_leaf, inorder_leaf, hins]
  · rfl
  · intro y hy
    rw [inorder_leaf] at hy
    obtain ⟨j, hj, rfl⟩ := List.getElem_of_mem hy
    rcases Nat.lt_or_ge j i with hji | hji
    · exact ne_of_lt (hbelow j hj hji)
    · exact ne_of_gt (habove j hj hji)

/-- The found branch of `nodeSet` on an internal node: replacing the
equal-comparing separator in place satisfies the completed-update
contract. -/
theorem setDone_inner_found (key : α → K) (mn mx : Nat) (item : α) (c : Nat)
    (its : List α) (cs : List (BNode α)) (i : Nat) (lo hi : Option K) (h : Nat)
    (hord : Ordered key lo hi (BNode.inner c its cs))
    (hco : CountOK (BNode.inner c its cs))
    (hsz : SizeOK mn mx true (BNode.inner c its cs))
    (hdep : DepthIs (BNode.inner c its cs) h)
    (hilen : i < its.length) (heq : key its[i] = key item) :
    SetDone key mn mx item lo hi h (BNode.inner c its cs)
      (BNode.inner c (its.set i item) cs) (some its[i]) := by
  have hz : OrderedZip key lo hi its cs := by rwa [ordered_inner] at hord
  have hsort : its.Pairwise (fun a b => key a < key b) := by
    simpa using items_sorted_of_ordered hord
  have hari : cs.length = its.length + 1 := by
    have := arityOK_of_ordered hord
    rw [arityOK_inner] at this
    exact this.1
  have hcieq : cs[i]? = some cs[i] := List.getElem?_eq_getElem (by omega)
  have hbelow : ∀ j, (hj : j < its.length) → j < i → key its[j] < key item :=
    fun j hj hji => heq ▸ List.pairwise_iff_getElem.mp hsort j i hj hilen hji
  obtain ⟨hl, hr, hlbm, hubm⟩ := orderedZip_split key i its cs lo hi hz hilen
  have hlbi : lb key lo item := lb_congr key heq hlbm
  have hubi : ub key hi item := ub_congr key heq hubm
  have hdecomp := zip_decomp i its cs (cs[i]) hcieq (le_of_lt hilen)
  have hdecompL := zip_decomp i (its.set i item) cs (cs[i]) hcieq
    (by rw [List.length_set]; omega)
  rw [zipTake_set_items, drop_set_self its i item hilen, ascendSeq_cons] at hdecompL
  rw [List.drop_eq_getElem_cons hilen, ascendSeq_cons] at hdecomp
  have hPB : ∀ y ∈ zipTake its cs i ++ (cs[i]).inorder, key y < key item := by
    intro y hy
    rcases List.mem_append.mp hy with hy1 | hy2
    · exact zipTake_below key item its cs i lo hi hz hbelow y hy1
    · exact heq ▸ child_below key its cs i lo hi (cs[i]) hz hilen hcieq y hy2
  refine ⟨?_, ?_, ?_, ?_, ?_, ?_, ?_, ?_⟩
  · rw [ordered_inner]
    exact orderedZip_set_item key item its cs i lo hi hz hilen heq hbelow hlbi hubi
  · rw [countOK_inner] at hco ⊢
    rw [List.length_set]
    exact hco
  · rw [sizeOK_inner] at hsz ⊢
    rw [List.length_set]
    exact hsz
  · rw [depthIs_inner] at hdep ⊢
    exact hdep
  · simp [List.length_set]
  · rw [inorder_inner, inorder_inner, hdecompL, hdecomp,
      listUpsert_append_left key item _ _ hPB, listUpsert_cons,
      if_neg (by rw [heq]; exact lt_irrefl _), if_neg (by rw [heq]; exact lt_irrefl _)]
  · rfl
  · refine ⟨?_, heq⟩
    rw [inorder_inner, hdecomp]
    exact List.mem_append.mpr (Or.inr (by simp))

theorem mem_insertIdx_elim {β : Type} :
    ∀ (L : List β) (i : Nat) (x z : β), z ∈ L.insertIdx i x → z = x ∨ z ∈ L := by
  intro L
  induction L with
  | nil =>
    intro i x z hz
    cases i with
    | zero =>
      simp at hz
      exact Or.inl hz
    | succ i2 =>
      simp at hz
  | cons y L ih =>
    intro i x z hz
    cases i with
    | zero =>
      rw [List.insertIdx_zero] at hz
      rcases List.mem_cons.mp hz with rfl | hz2
      · exact Or.inl rfl
      · exact Or.inr hz2
    | succ i2 =>
      rw [List.insertIdx_succ_cons] at hz
      rcases List.mem_cons.mp hz with rfl | hz2
      · exact Or.inr (by simp)
      · rcases ih i2 x z hz2 with rfl | hz3
        · exact Or.inl rfl
        · exact Or.inr (by simp [hz3])

/-- Absorbing a split child (median into the items, halves into the child
slots) leaves the in-order item sequence unchanged. -/
theorem zip_absorb_inorder :
    ∀ (i : Nat) (its : List α) (cs : List (BNode α)) (ci l r : BNode α) (median : α),
      cs[i]? = some ci → i ≤ its.length →
      l.inorder ++ median :: r.inorder = ci.inorder →
      inorderZip (its.insertIdx i median) ((cs.set i l).insertIdx (i + 1) r) =
        inorderZip its cs := by
  intro i
  induction i with
  | zero =>
    intro its cs ci l r median hci hile hsplit
    cases cs with
    | nil => simp at hci
    | cons c0 cs2 =>
      simp only [List.getElem?_cons_zero, Option.some.injEq] at hci
      rw [List.insertIdx_zero, List.set_cons_zero, List.insertIdx_succ_cons,
        List.insertIdx_zero, inorderZip_cons_cons, inorderZip_eq_ascendSeq its r cs2,
        inorderZip_eq_ascendSeq its c0 cs2, hci, ← hsplit]
      simp
  | succ i2 ih =>
    intro its cs ci l r median hci hile hsplit
    cases its with
    | nil => simp at hile
    | cons x its2 =>
      cases cs with
      | nil => simp at hci
      | cons c0 cs2 =>
        rw [List.insertIdx_succ_cons, List.set_cons_succ, List.insertIdx_succ_cons,
          inorderZip_cons_cons, inorderZip_cons_cons,
          ih its2 cs2 ci l r median (by simpa using hci) (by simpa using hile) hsplit]

/-- After `nodeSet` absorbs a full child's split (median inserted at `i`, the
two halves replacing the child), the node keeps its interval, counts, sizes,
depth and in-order sequence, with one more separator. -/
theorem absorb_props (key : α → K) (mn mx : Nat) (item : α)
    (c : Nat) (its : List α) (cs : List (BNode α)) (i : Nat)
    (ci l r : BNode α) (median : α) (lo hi : Option K) (h : Nat)
    (hci : cs[i]? = some ci) (hile : i ≤ its.length)
    (hnotfull : its.length ≠ mx)
    (hzip : OrderedZip key lo hi (its.insertIdx i median)
      ((cs.set i l).insertIdx (i + 1) r))
    (hsplitio : l.inorder ++ median :: r.inorder = ci.inorder)
    (hcoL : CountOK l) (hcoR : CountOK r) (hcnt : l.cnt + r.cnt + 1 = ci.cnt)
    (hszL : SizeOK mn mx false l) (hszR : SizeOK mn mx false r)
    (hdepL : DepthIs l (h - 1)) (hdepR : DepthIs r (h - 1))
    (hco : CountOK (BNode.inner c its cs))
    (hsz : SizeOK mn mx true (BNode.inner c its cs))
    (hdep : DepthIs (BNode.inner c its cs) h) :
    Ordered key lo hi (BNode.inner c (its.insertIdx i median)
      ((cs.set i l).insertIdx (i + 1) r)) ∧
    CountOK (BNode.inner c (its.insertIdx i median)
      ((cs.set i l).insertIdx (i + 1) r)) ∧
    SizeOK mn mx true (BNode.inner c (its.insertIdx i median)
      ((cs.set i l).insertIdx (i + 1) r)) ∧
    DepthIs (BNode.inner c (its.insertIdx i median)
      ((cs.set i l).insertIdx (i + 1) r)) h ∧
    (BNode.inner c (its.insertIdx i median)
      ((cs.set i l).insertIdx (i + 1) r)).inorder =
      (BNode.inner c its cs).inorder ∧
    (its.insertIdx i median).length = its.length + 1 := by
  rw [countOK_inner] at hco
  rw [sizeOK_inner] at hsz
  rw [depthIs_inner] at hdep
  have hmem : ∀ z ∈ (cs.set i l).insertIdx (i + 1) r, z = r ∨ z = l ∨ z ∈ cs := by
    intro z hz
    rcases mem_insertIdx_elim _ _ _ _ hz with rfl | hz2
    · exact Or.inl rfl
    · rcases List.mem_or_eq_of_mem_set hz2 with hz3 | rfl
      · exact Or.inr (Or.inr hz3)
      · exact Or.inr (Or.inl rfl)
  have hlen1 := length_insertIdx_of_le its i median hile
  refine ⟨?_, ?_, ?_, ?_, ?_, hlen1⟩
  · rw [ordered_inner]
    exact hzip
  · rw [countOK_inner]
    constructor
    · have habs := sumCnt_absorb cs i ci l r hci
      rw [hlen1, hco.1]
      omega
    · rw [countAll_iff]
      intro z hz
      rcases hmem z hz with rfl | rfl | hz3
      · exact hcoR
      · exact hcoL
      · exact (countAll_iff cs).mp hco.2 z hz3
  · rw [sizeOK_inner]
    refine ⟨fun hcontra => absurd hcontra (by simp), ?_, ?_⟩
    · rw [hlen1]
      have := hsz.2.1
      omega
    · rw [sizeAll_iff]
      intro z hz
      rcases hmem z hz with rfl | rfl | hz3
      · exact hszR
      · exact hszL
      · exact (sizeAll_iff mn mx cs).mp hsz.2.2 z hz3
  · rw [depthIs_inner]
    refine ⟨hdep.1, ?_⟩
    rw [depthAll_iff]
    intro z hz
    rcases hmem z hz with rfl | rfl | hz3
    · exact hdepR
    · exact hdepL
    · exact (depthAll_iff cs (h - 1)).mp hdep.2 z hz3
  · rw [inorder_inner, inorder_inner]
    exact zip_absorb_inorder i its cs ci l r median hci hile hsplitio

/-- After an absorb, the retry's binary search on the widened node lands (in
the not-found case) on one of the two fresh halves, each holding exactly `mn`
items. -/
theorem retry_target (key : α → K) (mn : Nat) (item : α)
    (c2 : Nat) (its : List α) (cs : List (BNode α)) (i : Nat)
    (l r : BNode α) (median : α) (i2 : Nat)
    (hile : i ≤ its.length) (hilt : i < cs.length)
    (hbelow : ∀ j, (hj : j < its.length) → j < i → key its[j] < key item)
    (habove : ∀ j, (hj : j < its.length) → i ≤ j → key item < key its[j])
    (hlenL : l.items.length = mn) (hlenR : r.items.length = mn)
    (hsort2 : (its.insertIdx i median).Pairwise (fun a b => key a < key b))
    (hbs : bsearch key (BNode.inner c2 (its.insertIdx i median)
      ((cs.set i l).insertIdx (i + 1) r)) item = (i2, false)) :
    ∃ ci2, ((cs.set i l).insertIdx (i + 1) r)[i2]? = some ci2 ∧
      ci2.items.length = mn := by
  have hlen1 := length_insertIdx_of_le its i median hile
  have hsortn : (BNode.inner c2 (its.insertIdx i median)
      ((cs.set i l).insertIdx (i + 1) r)).items.Pairwise
      (fun a b => key a < key b) := by simpa using hsort2
  have hnf := (bsearch_spec key (BNode.inner c2 (its.insertIdx i median)
    ((cs.set i l).insertIdx (i + 1) r)) item hsortn).2 (by rw [hbs])
  have hidx := @bsearch_index_le _ _ _ key
    (BNode.inner c2 (its.insertIdx i median)
      ((cs.set i l).insertIdx (i + 1) r)) item hsortn
  rw [hbs] at hidx
  simp only [BNode.items_inner] at hnf hidx
  rw [hbs] at hnf
  obtain ⟨hbelow2, habove2, _⟩ := hnf
  have hi2le : i2 ≤ its.length + 1 := by
    have := hidx.1
    omega
  have hge : i ≤ i2 := by
    by_contra hc
    push_neg at hc
    have hi2its : i2 < its.length := by omega
    have hi2its2 : i2 < (its.insertIdx i median).length := by omega
    have hsame : (its.insertIdx i median)[i2]? = its[i2]? :=
      getElem?_insertIdx_lt its i i2 median hc
    rw [List.getElem?_eq_getElem hi2its2, List.getElem?_eq_getElem hi2its] at hsame
    have hval : (its.insertIdx i median)[i2] = its[i2] := Option.some.inj hsame
    have h1 := habove2 i2 hi2its2 le_rfl
    rw [hval] at h1
    exact lt_asymm h1 (hbelow i2 hi2its hc)
  have hle2 : i2 ≤ i + 1 := by
    by_contra hc
    push_neg at hc
    have hiits : i < its.length := by omega
    have hi1lt : i + 1 < (its.insertIdx i median).length := by omega
    have hsame : (its.insertIdx i median)[i + 1]? = its[i]? :=
      getElem?_insertIdx_shift its i i median le_rfl
    rw [List.getElem?_eq_getElem hi1lt, List.getElem?_eq_getElem hiits] at hsame
    have hval : (its.insertIdx i median)[i + 1] = its[i] := Option.some.inj hsame
    have h1 := hbelow2 (i + 1) hi1lt (by omega)
    rw [hval] at h1
    exact lt_asymm h1 (habove i hiits le_rfl)
  rcases Nat.eq_or_lt_of_le hge with heq | hlt
  · subst heq
    refine ⟨l, ?_, hlenL⟩
    rw [getElem?_insertIdx_lt _ _ _ _ (by omega)]
    exact getElem?_set_self_of_lt cs i l hilt
  · have : i2 = i + 1 := by omega
    subst this
    refine ⟨r, ?_, hlenR⟩
    exact getElem?_insertIdx_self (cs.set i l) (i + 1) r
      (by rw [List.length_set]; omega)

theorem sizeOK_false_min {mn mx : Nat} {m : BNode α}
    (h : SizeOK mn mx false m) : mn ≤ m.items.length := by
  cases m with
  | leaf c its =>
    rw [sizeOK_leaf] at h
    simpa using h.1 rfl
  | inner c its cs =>
    rw [sizeOK_inner] at h
    simpa using h.1 rfl

/-- Correctness of `nodeSet`, by induction on the fuel.  With fuel at least
`2h+1` the call returns: `split` on an untouched full node, or `done` with
the completed-update contract.  With fuel `2h` the same holds for an internal
node whose not-found search target is not full — the shape of the retry call
after absorbing a split — and the result is then always `done`. -/
theorem nodeSet_ok (key : α → K) (mn mx : Nat) (hmn : 1 ≤ mn)
    (hmx : mx = 2 * mn + 1) :
    ∀ (fuel : Nat) (n : BNode α) (item : α) (hint : Option PathHint) (depth : Nat)
      (lo hi : Option K) (h : Nat),
      Ordered key lo hi n → CountOK n → SizeOK mn mx true n → DepthIs n h →
      1 ≤ n.items.length → lb key lo item → ub key hi item → HintOK hint →
      (2 * h + 1 ≤ fuel →
        ∃ hint2, HintOK hint2 ∧
          ((nodeSet key mx fuel n item hint depth = some (.split, hint2) ∧
            n.items.length = mx) ∨
           (∃ prev n2,
             nodeSet key mx fuel n item hint depth = some (.done prev n2, hint2) ∧
             SetDone key mn mx item lo hi h n n2 prev))) ∧
      (∀ c its cs, n = BNode.inner c its cs → 2 * h ≤ fuel →
        ((bsearch key n item).2 = false →
          ∀ ci3, cs[(bsearch key n item).1]? = some ci3 →
            ci3.items.length ≠ mx) →
        ∃ hint2 prev n2, HintOK hint2 ∧
          nodeSet key mx fuel n item hint depth = some (.done prev n2, hint2) ∧
          SetDone key mn mx item lo hi h n n2 prev) := by
  intro fuel
  induction fuel with
  | zero =>
    intro n item hint depth lo hi h hord hco hsz hdep hne hlb hub hOK
    constructor
    · intro hfuel
      omega
    · intro c its cs hn hfuel _
      subst hn
      rw [depthIs_inner] at hdep
      omega
  | succ f ih =>
    intro n item hint depth lo hi h hord hco hsz hdep hne hlb hub hOK
    have hsort : n.items.Pairwise (fun a b => key a < key b) :=
      items_sorted_of_ordered hord
    have hnenil : n.items ≠ [] := by
      intro hcontra
      rw [hcontra] at hne
      simp at hne
    obtain ⟨hint1, hfind, hOK1⟩ := find_spec key n item hint depth hsort hnenil hOK
    have hbc := bsearch_spec key n item hsort
    have hidxle := @bsearch_index_le _ _ _ key n item hsort
    rcases hbs : bsearch key n item with ⟨i, found⟩
    simp only [hbs] at hfind hbc hidxle
    cases found with
    | true =>
      obtain ⟨it, hit, hnlt1, hnlt2⟩ := hbc.1 rfl
      have hilen : i < n.items.length := hidxle.2 rfl
      have hiteq : it = n.items[i] := by
        rw [List.getElem?_eq_getElem hilen] at hit
        exact (Option.some.inj hit).symm
      have heq : key n.items[i] = key item := by
        rw [← hiteq]
        exact le_antisymm (not_lt.mp hnlt2) (not_lt.mp hnlt1)
      cases n with
      | leaf c its =>
        have h0 : h = 0 := by rwa [depthIs_leaf] at hdep
        subst h0
        simp only [BNode.items_leaf] at hilen heq
        have hstep : nodeSet key mx (f + 1) (BNode.leaf c its) item hint depth =
            some (.done (some its[i]) (BNode.leaf c (its.set i item)), hint1) := by
          simp [nodeSet, hfind, List.getElem?_eq_getElem hilen]
        have hsd := setDone_leaf_found key mn mx item c its i lo hi hord hco hsz
          hilen heq
        constructor
        · intro _
          exact ⟨hint1, hOK1, Or.inr ⟨some its[i], _, hstep, hsd⟩⟩
        · intro c2 its2 cs2 hn _ _
          simp at hn
      | inner c its cs =>
        simp only [BNode.items_inner] at hilen heq
        have hstep : nodeSet key mx (f + 1) (BNode.inner c its cs) item hint depth =
            some (.done (some its[i]) (BNode.inner c (its.set i item) cs), hint1) := by
          simp [nodeSet, hfind, List.getElem?_eq_getElem hilen]
        have hsd := setDone_inner_found key mn mx item c its cs i lo hi h hord hco
          hsz hdep hilen heq
        constructor
        · intro _
          exact ⟨hint1, hOK1, Or.inr ⟨some its[i], _, hstep, hsd⟩⟩
        · intro c2 its2 cs2 hn _ _
          cases hn
          exact ⟨hint1, some its[i], _, hOK1, hstep, hsd⟩
    | false =>
      obtain ⟨hbelow0, habove0, hnoeq⟩ := hbc.2 rfl
      have hile0 : i ≤ n.items.length := hidxle.1
      cases n with
      | leaf c its =>
        have h0 : h = 0 := by rwa [depthIs_leaf] at hdep
        subst h0
        simp only [BNode.items_leaf] at hbelow0 habove0 hile0
        by_cases hfull : its.length = mx
        · have hstep : nodeSet key mx (f + 1) (BNode.leaf c its) item hint depth =
              some (.split, hint1) := by
            simp [nodeSet, hfind, hfull]
          constructor
          · intro _
            exact ⟨hint1, hOK1, Or.inl ⟨hstep, by simpa using hfull⟩⟩
          · intro c2 its2 cs2 hn _ _
            simp at hn
        · have hstep : nodeSet key mx (f + 1) (BNode.leaf c its) item hint depth =
              some (.done none (BNode.leaf (c + 1) (its.insertIdx i item)), hint1) := by
            simp [nodeSet, hfind, hfull]
          have hsd := setDone_leaf_insert key mn mx item c its i lo hi hord hco hsz
            hfull hile0 hbelow0 habove0 hlb hub
          constructor
          · intro _
            exact ⟨hint1, hOK1, Or.inr ⟨none, _, hstep, hsd⟩⟩
          · intro c2 its2 cs2 hn _ _
            simp at hn
      | inner c its cs =>
        simp only [BNode.items_inner] at hbelow0 habove0 hile0 hsort
        have hz : OrderedZip key lo hi its cs := by
          have := hord
          rwa [ordered_inner] at this
        have harity : cs.length = its.length + 1 := by
          have := arityOK_of_ordered hord
          rw [arityOK_inner] at this
          exact this.1
        have hilt : i < cs.length := by omega
        have hcieq : cs[i]? = some cs[i] := List.getElem?_eq_getElem hilt
        obtain ⟨lo2, hi2, hciord, hlbT, hubT, hsetc, habsorb⟩ :=
          zip_child_surgery key its cs i lo hi (cs[i]) hz hcieq
        have hcoI := hco
        rw [countOK_inner] at hcoI
        have hszI := hsz
        rw [sizeOK_inner] at hszI
        have hdepI := hdep
        rw [depthIs_inner] at hdepI
        have hh1 : 0 < h := hdepI.1
        have hcoci : CountOK (cs[i]) :=
          (countAll_iff cs).mp hcoI.2 (cs[i]) (List.getElem_mem hilt)
        have hszci : SizeOK mn mx false (cs[i]) :=
          (sizeAll_iff mn mx cs).mp hszI.2.2 (cs[i]) (List.getElem_mem hilt)
        have hdepci : DepthIs (cs[i]) (h - 1) :=
          (depthAll_iff cs (h - 1)).mp hdepI.2 (cs[i]) (List.getElem_mem hilt)
        have hneci : 1 ≤ (cs[i]).items.length :=
          le_trans hmn (sizeOK_false_min hszci)
        have hlbci : lb key lo2 item := hlbT item hbelow0 hlb
        have hubci : ub key hi2 item := hubT item habove0 hub
        have hchildA := (ih (cs[i]) item hint1 (depth + 1) lo2 hi2 (h - 1) hciord
          hcoci (sizeOK_true_of_false hszci) hdepci hneci hlbci hubci hOK1).1
        have hassemble : ∀ (hint2 : Option PathHint) (prev : Option α)
            (ci2 : BNode α), HintOK hint2 →
            nodeSet key mx f (cs[i]) item hint1 (depth + 1) =
              some (.done prev ci2, hint2) →
            SetDone key mn mx item lo2 hi2 (h - 1) (cs[i]) ci2 prev →
            ∃ hint3 prev2 n2, HintOK hint3 ∧
              nodeSet key mx (f + 1) (BNode.inner c its cs) item hint depth =
                some (.done prev2 n2, hint3) ∧
              SetDone key mn mx item lo hi h (BNode.inner c its cs) n2 prev2 := by
          intro hint2 prev ci2 hOK2 hcheq hsd
          cases prev with
          | some p =>
            refine ⟨hint2, some p, BNode.inner c its (cs.set i ci2), hOK2, ?_, ?_⟩
            · simp [nodeSet, hfind, hcieq, hcheq]
            · exact combine_done key mn mx item c c its cs i (cs[i]) ci2 (some p)
                lo hi lo2 hi2 h rfl hz hcieq hile0 hbelow0 habove0 hsetc hsd
                hco hsz hszci hdep
          | none =>
            refine ⟨hint2, none, BNode.inner (c + 1) its (cs.set i ci2), hOK2, ?_, ?_⟩
            · simp [nodeSet, hfind, hcieq, hcheq]
            · exact combine_done key mn mx item c (c + 1) its cs i (cs[i]) ci2 none
                lo hi lo2 hi2 h rfl hz hcieq hile0 hbelow0 habove0 hsetc hsd
                hco hsz hszci hdep
        constructor
        · intro hfuel
          obtain ⟨hint2, hOK2, hres⟩ := hchildA (by omega)
          rcases hres with ⟨hcheq, hcfull⟩ | ⟨prev, ci2, hcheq, hsd⟩
          · by_cases hfull : its.length = mx
            · refine ⟨hint2, hOK2, Or.inl ⟨?_, by simpa using hfull⟩⟩
              simp [nodeSet, hfind, hcieq, hcheq, hfull]
            · obtain ⟨l, r, median, hsplit, hio, hordl, hordr, hlbm, hubm, hcol,
                hcor, hcnt, hszl, hszr, hdepl, hdepr, hlenl, hlenr⟩ :=
                nodeSplit_correct key mn mx hmn hmx (cs[i]) lo2 hi2 (h - 1) hciord
                  hcoci (sizeOK_true_of_false hszci) hdepci hcfull
              have hzip2 := habsorb l r median hordl hordr hlbm hubm
              obtain ⟨hordn, hcon, hszn, hdepn, hion, hlen2⟩ :=
                absorb_props key mn mx item c its cs i (cs[i]) l r median lo hi h
                  hcieq hile0 hfull hzip2 hio hcol hcor hcnt hszl hszr hdepl hdepr
                  hco hsz hdep
              have hstep : nodeSet key mx (f + 1) (BNode.inner c its cs) item
                  hint depth = nodeSet key mx f
                    (BNode.inner c (its.insertIdx i median)
                      ((cs.set i l).insertIdx (i + 1) r)) item hint2 depth := by
                simp [nodeSet, hfind, hcieq, hcheq, hsplit, hfull]
              have hsortn : (its.insertIdx i median).Pairwise
                  (fun a b => key a < key b) := by
                simpa using items_sorted_of_ordered hordn
              have htarget : (bsearch key (BNode.inner c (its.insertIdx i median)
                    ((cs.set i l).insertIdx (i + 1) r)) item).2 = false →
                  ∀ ci3, ((cs.set i l).insertIdx (i + 1) r)[(bsearch key
                      (BNode.inner c (its.insertIdx i median)
                        ((cs.set i l).insertIdx (i + 1) r)) item).1]? = some ci3 →
                    ci3.items.length ≠ mx := by
                intro hbsf ci3 hci3
                rcases hbs2 : bsearch key (BNode.inner c (its.insertIdx i median)
                  ((cs.set i l).insertIdx (i + 1) r)) item with ⟨i2, fnd2⟩
                simp only [hbs2] at hbsf hci3
                subst hbsf
                obtain ⟨ci4, hci4, hlenm⟩ := retry_target key mn item c its cs i
                  l r median i2 hile0 hilt hbelow0 habove0 hlenl hlenr hsortn hbs2
                rw [hci4] at hci3
                obtain rfl := Option.some.inj hci3
                omega
              obtain ⟨hint3, prev2, n2, hOK3, hreseq, hsd2⟩ :=
                (ih (BNode.inner c (its.insertIdx i median)
                    ((cs.set i l).insertIdx (i + 1) r)) item hint2 depth lo hi h
                  hordn hcon hszn hdepn
                  (by simp only [BNode.items_inner]; omega) hlb hub hOK2).2
                  c (its.insertIdx i median) ((cs.set i l).insertIdx (i + 1) r)
                  rfl (by omega) htarget
              obtain ⟨s1, s2, s3, s4, s5, s6, s7, s8⟩ := hsd2
              refine ⟨hint3, hOK3, Or.inr ⟨prev2, n2, ?_, s1, s2, s3, s4, ?_, ?_,
                s7, ?_⟩⟩
              · rw [hstep]
                exact hreseq
              · simp only [BNode.items_inner] at s5 ⊢
                omega
              · rw [s6, hion]
              · cases prev2 with
                | some p =>
                  rw [hion] at s8
                  exact s8
                | none =>
                  intro y hy
                  rw [← hion] at hy
                  exact s8 y hy
          · obtain ⟨hint3, prev2, n2, hOK3, heq2, hsd2⟩ :=
              hassemble hint2 prev ci2 hOK2 hcheq hsd
            exact ⟨hint3, hOK3, Or.inr ⟨prev2, n2, heq2, hsd2⟩⟩
        · intro c2 its2 cs2 hn hfuel htarget
          injection hn with e1 e2 e3
          subst e1
          subst e2
          subst e3
          obtain ⟨hint2, hOK2, hres⟩ := hchildA (by omega)
          rcases hres with ⟨hcheq, hcfull⟩ | ⟨prev, ci2, hcheq, hsd⟩
          · exact absurd hcfull (htarget rfl (cs[i]) hcieq)
          · exact hassemble hint2 prev ci2 hOK2 hcheq hsd

theorem sorted_mem_unique (key : α → K) {l : List α}
    (hsort : l.Pairwise (fun a b => key a < key b)) {y z : α}
    (hy : y ∈ l) (hz : z ∈ l) (heq : key y = key z) : y = z := by
  obtain ⟨j1, hj1, rfl⟩ := List.getElem_of_mem hy
  obtain ⟨j2, hj2, rfl⟩ := List.getElem_of_mem hz
  rcases Nat.lt_trichotomy j1 j2 with hlt | rfl | hgt
  · exact absurd heq (ne_of_lt (List.pairwise_iff_getElem.mp hsort j1 j2 hj1 hj2 hlt))
  · rfl
  · exact absurd heq.symm
      (ne_of_lt (List.pairwise_iff_getElem.mp hsort j2 j1 hj2 hj1 hgt))

theorem listUpsert_length_of_no_eq (key : α → K) (item : α) :
    ∀ (l : List α), (∀ y ∈ l, key y ≠ key item) →
      (listUpsert key item l).length = l.length + 1 := by
  intro l
  induction l with
  | nil =>
    intro _
    simp
  | cons y tl ih =>
    intro hno
    rw [listUpsert_cons]
    by_cases h1 : key y < key item
    · rw [if_pos h1, List.length_cons, List.length_cons,
        ih (fun z hz => hno z (by simp [hz]))]
    · rw [if_neg h1]
      by_cases h2 : key item < key y
      · rw [if_pos h2]
        simp
      · exact absurd (le_antisymm (not_lt.mp h2) (not_lt.mp h1)) (hno y (by simp))

theorem listUpsert_length_of_eq (key : α → K) (item : α) :
    ∀ (l : List α), l.Pairwise (fun a b => key a < key b) →
      ∀ z ∈ l, key z = key item →
      (listUpsert key item l).length = l.length := by
  intro l
  induction l with
  | nil =>
    intro _ z hz
    simp at hz
  | cons y tl ih =>
    intro hsort z hz heq
    rw [List.pairwise_cons] at hsort
    rw [listUpsert_cons]
    by_cases h1 : key y < key item
    · have hzy : z ≠ y := by
        intro hcontra
        subst hcontra
        rw [heq] at h1
        exact lt_irrefl _ h1
      have hztl : z ∈ tl := by
        rcases List.mem_cons.mp hz with rfl | h
        · exact absurd rfl hzy
        · exact h
      rw [if_pos h1, List.length_cons, List.length_cons, ih hsort.2 z hztl heq]
    · rw [if_neg h1]
      by_cases h2 : key item < key y
      · rcases List.mem_cons.mp hz with rfl | hztl
        · rw [heq] at h2
          exact absurd h2 (lt_irrefl _)
        · have := hsort.1 z hztl
          rw [heq] at this
          exact absurd h2 (asymm this)
      · rw [if_neg h2]
        simp

/-- `0` when an equal item was replaced, `1` when a new item was inserted:
how much a completed `setHint` adds to the tree count. -/
def prevDelta {α : Type} : Option α → Nat
  | some _ => 0
  | none => 1

/-- The tree produced by a completed `setHint`: the new root, with the count
bumped by one exactly on an insertion (no previous value). -/
def bumped {α : Type} (t : BTree α) (root2 : BNode α) (prev : Option α) : BTree α :=
  { t with root := some root2, count := t.count + prevDelta prev }

/-- The replace/insert contract on the value returned by `setHint`: a
reported previous value is a stored equal-comparing item and the length is
unchanged; no previous value means no stored item compares equal and the
length grows by one. -/
def UpsertPrev (key : α → K) (item : α) (oldIn : List α) (oldLen : Nat)
    (t2 : BTree α) : Option α → Prop
  | some p => p ∈ oldIn ∧ key p = key item ∧ Len t2 = oldLen
  | none => (∀ y ∈ oldIn, key y ≠ key item) ∧ Len t2 = oldLen + 1

/-- Assembling the final tree from a completed root update: the updated
count, the new root, the upserted in-order sequence, and the representation
invariant. -/
theorem upsert_result_inv (key : α → K) (t : BTree α) (item : α)
    (root2 : BNode α) (prev : Option α) (oldIn : List α) (h2 : Nat)
    (hcount : t.count = oldIn.length)
    (hmn : 1 ≤ t.min) (hmx : t.max = 2 * t.min + 1)
    (hsorted : oldIn.Pairwise (fun a b => key a < key b))
    (hord2 : Ordered key none none root2) (hco2 : CountOK root2)
    (hsz2 : SizeOK t.min t.max true root2) (hdep2 : DepthIs root2 h2)
    (hne2 : root2.items ≠ [])
    (hin2 : root2.inorder = listUpsert key item oldIn)
    (hprev : match prev with
      | some p => p ∈ oldIn ∧ key p = key item
      | none => ∀ y ∈ oldIn, key y ≠ key item) :
    treeInorder (bumped t root2 prev) = listUpsert key item oldIn ∧
    TreeInv key (bumped t root2 prev) ∧
    UpsertPrev key item oldIn (Len t) (bumped t root2 prev) prev := by
  have hlen : (listUpsert key item oldIn).length = oldIn.length + prevDelta prev := by
    cases prev with
    | some p =>
      rw [listUpsert_length_of_eq key item oldIn hsorted p hprev.1 hprev.2]
      rfl
    | none =>
      rw [listUpsert_length_of_no_eq key item oldIn hprev]
      rfl
  have hio : treeInorder (bumped t root2 prev) = listUpsert key item oldIn := hin2
  refine ⟨hio, ⟨⟨?_, ?_, ?_⟩, ?_, hmn, hmx⟩, ?_⟩
  · show t.count + prevDelta prev = (treeInorder (bumped t root2 prev)).length
    rw [hio, hlen, hcount]
  · show t.count + prevDelta prev = 0 ↔ (some root2 : Option (BNode α)) = none
    constructor
    · intro hc0
      exfalso
      cases prev with
      | some p =>
        have hnn : oldIn ≠ [] := by
          intro hcontra
          rw [hcontra] at hprev
          simp at hprev
        have hpos : 0 < oldIn.length := List.length_pos.mpr hnn
        rw [prevDelta] at hc0
        omega
      | none =>
        rw [prevDelta] at hc0
        omega
    · intro hc
      simp at hc
  · intro n hn
    have hn2 : some root2 = some n := hn
    obtain rfl := Option.some.inj hn2
    exact ⟨specOrder_of_ordered hord2, hsz2, arityOK_of_ordered hord2, hco2,
      ⟨h2, hdep2⟩⟩
  · intro n hn
    have hn2 : some root2 = some n := hn
    obtain rfl := Option.some.inj hn2
    exact hne2
  · cases prev with
    | some p => exact ⟨hprev.1, hprev.2, rfl⟩
    | none => exact ⟨hprev, rfl⟩

/-- Correctness of `setHint` on an invariant-satisfying tree of root depth
`h`, given fuel for the worst case (one root split followed by a bounded
retry): the call completes, the in-order sequence becomes the list-level
upsert, the invariant is preserved, the degree bounds and zero value are
untouched, and the returned previous value obeys the replace/insert
contract with the matching `Len` change. -/
theorem setHint_ok (key : α → K) (fuel : Nat) (t : BTree α) (item : α)
    (hint : Option PathHint) (h : Nat)
    (hinv : TreeInv key t)
    (hdep : ∀ rt, t.root = some rt → DepthIs rt h)
    (hOK : HintOK hint) (hfuel : 2 * h + 4 ≤ fuel) :
    ∃ prev t2, setHint key fuel t item hint = some (prev, t2) ∧
      treeInorder t2 = listUpsert key item (treeInorder t) ∧
      TreeInv key t2 ∧ t2.min = t.min ∧ t2.max = t.max ∧ t2.empty = t.empty ∧
      UpsertPrev key item (treeInorder t) (Len t) t2 prev := by
  obtain ⟨F, rfl⟩ : ∃ F, fuel = F + 1 := ⟨fuel - 1, by omega⟩
  obtain ⟨⟨hcount, hzero, hnode⟩, hrne, hmn, hmx⟩ := hinv
  cases hroot : t.root with
  | none =>
    have htio : treeInorder t = [] := by rw [treeInorder, hroot]
    have hc0 : t.count = 0 := hzero.mpr hroot
    refine ⟨none, { t with root := some (.leaf 1 [item]), count := 1 },
      by simp [setHint, hroot], ?_, ⟨⟨?_, ?_, ?_⟩, ?_, hmn, hmx⟩, rfl, rfl, rfl,
      ?_, ?_⟩
    · rw [htio, listUpsert_nil]
      rfl
    · rfl
    · constructor
      · intro hcontra
        simp at hcontra
      · intro hcontra
        simp at hcontra
    · intro n hn
      simp only [Option.some.injEq] at hn
      subst hn
      refine ⟨by rw [specOrder_leaf]; simp, ?_, arityOK_leaf 1 [item],
        by rw [countOK_leaf]; simp, ⟨0, by rw [depthIs_leaf]⟩⟩
      rw [sizeOK_leaf]
      refine ⟨fun hcontra => absurd hcontra (by simp), by simp; omega⟩
    · intro n hn
      simp only [Option.some.injEq] at hn
      subst hn
      simp
    · rw [htio]
      intro y hy
      simp at hy
    · show (1 : Nat) = t.count + 1
      omega
  | some rt =>
    have htio : treeInorder t = rt.inorder := by rw [treeInorder, hroot]
    obtain ⟨hordr, harr, hcor, hszr, _, hner, hcntlen⟩ :=
      treeInv_root ⟨⟨hcount, hzero, hnode⟩, hrne, hmn, hmx⟩ rt hroot
    have hsorted : rt.inorder.Pairwise (fun a b => key a < key b) :=
      ordered_inorder_sorted hordr
    have hdeprt : DepthIs rt h := hdep rt hroot
    have hne1 : 1 ≤ rt.items.length :=
      List.length_pos.mpr (fun hc => hner hc)
    obtain ⟨hint2, hOK2, hres⟩ := (nodeSet_ok key t.min t.max hmn hmx F rt item
      hint 0 none none h hordr hcor hszr hdeprt hne1 (lb_none key item)
      (ub_none key item) hOK).1 (by omega)
    rcases hres with ⟨hns, hfullrt⟩ | ⟨prev, root2, hns, hsd⟩
    · obtain ⟨l, r, median, hsplit, hio, hordl, hordr2, hlbm, hubm, hcol, hcor2,
        hcnt2, hszl, hszr2, hdepl, hdepr2, hlenl, hlenr⟩ :=
        nodeSplit_correct key t.min t.max hmn hmx rt none none h hordr hcor hszr
          hdeprt hfullrt
      have hstep : setHint key (F + 1) t item hint =
          setHint key F
            { t with root := some (updateCount (BNode.inner 0 [median] [l, r])) }
            item hint2 := by
        simp [setHint, hroot, hns, hsplit]
      obtain ⟨F2, hF2⟩ : ∃ F2, F = F2 + 1 := ⟨F - 1, by omega⟩
      subst hF2
      have hordz : OrderedZip key none none [median] [l, r] := by
        rw [orderedZip_cons]
        exact ⟨hordl, lb_none key median, ub_none key median,
          by rw [orderedZip_nil]; exact hordr2⟩
      have hio1 : (updateCount (BNode.inner 0 [median] [l, r])).inorder =
          rt.inorder := by
        rw [updateCount_inner, inorder_inner, inorderZip_cons_cons,
          inorderZip_eq_ascendSeq, ascendSeq_nil, List.append_nil]
        exact hio
      have hord1 : Ordered key none none
          (updateCount (BNode.inner 0 [median] [l, r])) := by
        rw [updateCount_inner, ordered_inner]
        exact hordz
      have hco1 : CountOK (updateCount (BNode.inner 0 [median] [l, r])) := by
        rw [updateCount_inner, countOK_inner]
        exact ⟨rfl, hcol, hcor2, trivial⟩
      have hsz1 : SizeOK t.min t.max true
          (updateCount (BNode.inner 0 [median] [l, r])) := by
        rw [updateCount_inner, sizeOK_inner]
        exact ⟨fun hcontra => absurd hcontra (by simp), by simp; omega,
          hszl, hszr2, trivial⟩
      have hdep1 : DepthIs (updateCount (BNode.inner 0 [median] [l, r]))
          (h + 1) := by
        rw [updateCount_inner, depthIs_inner]
        refine ⟨by omega, ?_⟩
        simp only [Nat.add_sub_cancel]
        exact ⟨hdepl, hdepr2, trivial⟩
      have hrteq : updateCount (BNode.inner 0 [median] [l, r]) =
          BNode.inner (([median] : List α).length + sumCnt [l, r]) [median]
            [l, r] := by
        rw [updateCount_inner]
      have htarget : (bsearch key (updateCount (BNode.inner 0 [median] [l, r]))
            item).2 = false →
          ∀ ci3, ([l, r] : List (BNode α))[(bsearch key
              (updateCount (BNode.inner 0 [median] [l, r])) item).1]? =
              some ci3 →
            ci3.items.length ≠ t.max := by
        intro hbsf ci3 hci3
        rcases hbs2 : bsearch key (updateCount (BNode.inner 0 [median] [l, r]))
          item with ⟨i2, fnd2⟩
        simp only [hbs2] at hbsf hci3
        subst hbsf
        have hbs3 : bsearch key (BNode.inner
            (([median] : List α).length + sumCnt [l, r])
            (([] : List α).insertIdx 0 median)
            ((([rt] : List (BNode α)).set 0 l).insertIdx (0 + 1) r)) item =
            (i2, false) := hbs2
        obtain ⟨ci4, hci4, hlenm⟩ := retry_target key t.min item
          (([median] : List α).length + sumCnt [l, r]) [] [rt] 0 l r median i2
          (by simp) (by simp) (fun j hj => by simp at hj)
          (fun j hj => by simp at hj) hlenl hlenr (by simp) hbs3
        have h5 : ([l, r] : List (BNode α))[i2]? = some ci4 := hci4
        rw [h5] at hci3
        obtain rfl := Option.some.inj hci3
        omega
      obtain ⟨hint3, prev, root2, hOK3, hns2, hsd⟩ := (nodeSet_ok key t.min t.max
        hmn hmx F2 (updateCount (BNode.inner 0 [median] [l, r])) item hint2 0
        none none (h + 1) hord1 hco1 hsz1 hdep1 (by rw [hrteq]; simp)
        (lb_none key item) (ub_none key item) hOK2).2
        (([median] : List α).length + sumCnt [l, r]) [median] [l, r] hrteq
        (by omega) htarget
      obtain ⟨s1, s2, s3, s4, s5, s6, s7, s8⟩ := hsd
      have hns3 := hns2
      simp [sumCnt_cons, sumCnt_nil] at hns3
      have hstep2 : setHint key (F2 + 1)
          { t with root := some (updateCount (BNode.inner 0 [median] [l, r])) }
          item hint2 = some (prev, bumped t root2 prev) := by
        cases prev with
        | some p => simp [setHint, hns3, bumped, prevDelta]
        | none => simp [setHint, hns3, bumped, prevDelta]
      have hne2 : root2.items ≠ [] := by
        rw [hrteq] at s5
        simp only [BNode.items_inner] at s5
        exact List.length_pos.mp (by simp at s5; omega)
      have hin2 : root2.inorder = listUpsert key item rt.inorder := by
        rw [s6, hio1]
      rw [hio1] at s8
      have hfinal := upsert_result_inv key t item root2 prev rt.inorder (h + 1)
        hcntlen hmn hmx hsorted s1 s2 s3 s4 hne2 hin2 s8
      refine ⟨prev, bumped t root2 prev, by rw [hstep]; exact hstep2, ?_, ?_,
        rfl, rfl, rfl, ?_⟩
      · rw [htio]
        exact hfinal.1
      · exact hfinal.2.1
      · rw [htio]
        exact hfinal.2.2
    · obtain ⟨s1, s2, s3, s4, s5, s6, s7, s8⟩ := hsd
      have hstep : setHint key (F + 1) t item hint =
          some (prev, bumped t root2 prev) := by
        cases prev with
        | some p => simp [setHint, hroot, hns, bumped, prevDelta]
        | none => simp [setHint, hroot, hns, bumped, prevDelta]
      have hne2 : root2.items ≠ [] := List.length_pos.mp (by omega)
      have hfinal := upsert_result_inv key t item root2 prev rt.inorder h
        hcntlen hmn hmx hsorted s1 s2 s3 s4 hne2 s6 s8
      refine ⟨prev, bumped t root2 prev, hstep, ?_, ?_, rfl, rfl, rfl, ?_⟩
      · rw [htio]
        exact hfinal.1
      · exact hfinal.2.1
      · rw [htio]
        exact hfinal.2.2

/-- C2.  On a tree satisfying the representation invariant (root depth `h`,
fuel covering the worst-case root split), `Upsert` and `SetHint` with any
hint of the Go array shape return the same previous value and equivalent
trees: when a stored item compares equal to `x` it is the unique such item,
it is returned as the previous value, it is replaced by `x` in place and
`Len` is unchanged; otherwise no previous value is reported, `x` is inserted
at its sorted position and `Len` grows by exactly one.  The resulting
in-order sequence is the list-level upsert of the old sequence, and the
representation invariant still holds. -/
theorem upsert_correct (key : α → K) (t : BTree α) (item : α)
    (hint : Option PathHint) (h : Nat) (fuel : Nat)
    (hinv : TreeInv key t)
    (hdep : ∀ rt, t.root = some rt → DepthIs rt h)
    (hOK : HintOK hint) (hfuel : 2 * h + 4 ≤ fuel) :
    ∃ prev t2 t3,
      setHint key fuel t item hint = some (prev, t2) ∧
      Upsert key fuel t item = some (prev, t3) ∧
      treeInorder t2 = listUpsert key item (treeInorder t) ∧
      treeInorder t3 = treeInorder t2 ∧
      Len t3 = Len t2 ∧
      TreeInv key t2 ∧ TreeInv key t3 ∧
      (∀ p, prev = some p → ∀ y ∈ treeInorder t, key y = key item → y = p) ∧
      UpsertPrev key item (treeInorder t) (Len t) t2 prev := by
  obtain ⟨prev1, t2, heq1, hio1, hinv1, _, _, _, hup1⟩ :=
    setHint_ok key fuel t item hint h hinv hdep hOK hfuel
  obtain ⟨prev2, t3, heq2, hio2, hinv2, _, _, _, hup2⟩ :=
    setHint_ok key fuel t item none h hinv hdep trivial hfuel
  have hsorted : (treeInorder t).Pairwise (fun a b => key a < key b) := by
    cases hroot : t.root with
    | none =>
      rw [treeInorder, hroot]
      simp
    | some rt =>
      rw [treeInorder, hroot]
      exact ordered_inorder_sorted (treeInv_root hinv rt hroot).1
  have hpe : prev2 = prev1 := by
    cases prev1 with
    | some p =>
      cases prev2 with
      | some q =>
        exact congrArg some (sorted_mem_unique key hsorted hup2.1 hup1.1
          (hup2.2.1.trans hup1.2.1.symm))
      | none => exact absurd hup1.2.1 (hup2.1 p hup1.1)
    | none =>
      cases prev2 with
      | some q => exact absurd hup2.2.1 (hup1.1 q hup2.1)
      | none => rfl
  subst hpe
  refine ⟨prev2, t2, t3, heq1, heq2, hio1, by rw [hio2, hio1], ?_, hinv1, hinv2,
    ?_, hup1⟩
  · cases prev2 with
    | some p => rw [hup2.2.2, hup1.2.2]
    | none => rw [hup2.2, hup1.2]
  · intro p hp y hy hkey
    subst hp
    exact sorted_mem_unique key hsorted hy hup1.1 (hkey.trans hup1.2.1.symm)

/-- Witness for C2 at a concrete input: inserting `4` into the three-item
sample tree (no equal item stored) with no hint and fuel `6`. -/
theorem upsert_correct_witness :
    ∃ prev t2 t3,
      setHint (fun x : Int => x) 6 sampleTree 4 none = some (prev, t2) ∧
      Upsert (fun x : Int => x) 6 sampleTree 4 = some (prev, t3) ∧
      treeInorder t2 = listUpsert (fun x : Int => x) 4 (treeInorder sampleTree) ∧
      treeInorder t3 = treeInorder t2 ∧
      Len t3 = Len t2 ∧
      TreeInv (fun x : Int => x) t2 ∧ TreeInv (fun x : Int => x) t3 ∧
      (∀ p, prev = some p → ∀ y ∈ treeInorder sampleTree, y = (4 : Int) → y = p) ∧
      UpsertPrev (fun x : Int => x) 4 (treeInorder sampleTree) (Len sampleTree)
        t2 prev :=
  upsert_correct (fun x : Int => x) sampleTree 4 none 1 6 sampleTree_inv
    (by
      intro rt hrt
      simp only [sampleTree, Option.some.injEq] at hrt
      subst hrt
      rw [depthIs_inner]
      refine ⟨by decide, ?_⟩
      rw [depthAll_iff]
      intro c hc
      simp at hc
      rcases hc with rfl | rfl <;> rw [depthIs_leaf])
    trivial (by decide)

end Insert

section Delete

variable {α K : Type} [LinearOrder K]

/-- The merge block of Go `nodeRebalance` (btree.go lines 534-556) acting on
the two children: the left node absorbs the parent separator and the right
node's contents, summing the cached counts.  Go consults only `left.leaf()`:
a leaf left with an internal right silently drops the right child list
(unreachable under the uniform-depth invariant), while an internal left with
a leaf right dereferences the nil children pointer — a panic, `none` here. -/
def mergeNodes {α : Type} (sep : α) : BNode α → BNode α → Option (BNode α)
  | .leaf lc lits, .leaf rc rits => some (.leaf (lc + rc + 1) (lits ++ sep :: rits))
  | .leaf lc lits, .inner rc rits _ => some (.leaf (lc + rc + 1) (lits ++ sep :: rits))
  | .inner lc lits lcs, .inner rc rits rcs =>
      some (.inner (lc + rc + 1) (lits ++ sep :: rits) (lcs ++ rcs))
  | .inner _ _ _, .leaf _ _ => none

/-- The left-to-right rotation of Go `nodeRebalance` (btree.go lines 557-581):
the parent separator moves into the right node's first slot, the left node's
last item replaces the separator, and (for internal nodes) the left node's
last child moves to the right node's front with the counts following it.
`none` models the Go panics: reading the last item or child of an empty
left node, and dereferencing the nil children pointer of a leaf right node
when the left is internal. -/
def rotateLR {α : Type} (sep : α) : BNode α → BNode α → Option (BNode α × α × BNode α)
  | .leaf lc lits, r =>
    match lits.getLast? with
    | none => none
    | some lastIt =>
      some (.leaf (lc - 1) lits.dropLast, lastIt,
        match r with
        | .leaf rc rits => .leaf (rc + 1) (sep :: rits)
        | .inner rc rits rcs => .inner (rc + 1) (sep :: rits) rcs)
  | .inner lc lits lcs, r =>
    match r with
    | .leaf _ _ => none
    | .inner rc rits rcs =>
      match lits.getLast?, lcs.getLast? with
      | some lastIt, some lastC =>
        some (.inner (lc - 1 - lastC.cnt) lits.dropLast lcs.dropLast, lastIt,
          .inner (rc + 1 + lastC.cnt) (sep :: rits) (lastC :: rcs))
      | _, _ => none

/-- The right-to-left rotation of Go `nodeRebalance` (btree.go lines 582-602),
symmetric to `rotateLR`: the separator is appended to the left node, the
right node's first item becomes the separator, and (for internal nodes) the
right node's first child moves to the left node's end. -/
def rotateRL {α : Type} (sep : α) : BNode α → BNode α → Option (BNode α × α × BNode α)
  | .leaf lc lits, .leaf rc rits =>
    match rits with
    | [] => none
    | r0 :: rrest => some (.leaf (lc + 1) (lits ++ [sep]), r0, .leaf (rc - 1) rrest)
  | .leaf lc lits, .inner rc rits rcs =>
    match rits with
    | [] => none
    | r0 :: rrest => some (.leaf (lc + 1) (lits ++ [sep]), r0, .inner (rc - 1) rrest rcs)
  | .inner _ _ _, .leaf _ _ => none
  | .inner lc lits lcs, .inner rc rits rcs =>
    match rits, rcs with
    | r0 :: rrest, rc0 :: rcrest =>
      some (.inner (lc + 1 + rc0.cnt) (lits ++ [sep]) (lcs ++ [rc0]), r0,
        .inner (rc - 1 - rc0.cnt) rrest rcrest)
    | _, _ => none

/-- The body of Go `nodeRebalance` (btree.go lines 531-603) once the working
index `i` is fixed: merge the sibling pair `(i, i+1)` when the combined items
fit below `max`, otherwise rotate one item (and child) from the larger
sibling. -/
def nodeRebalanceAt (mx : Nat) (c : Nat) (its : List α) (cs : List (BNode α))
    (i : Nat) : Option (BNode α) :=
  match its[i]?, cs[i]?, cs[i + 1]? with
  | some sep, some left, some right =>
    if left.items.length + right.items.length < mx then
      match mergeNodes sep left right with
      | none => none
      | some m => some (.inner c (its.eraseIdx i) ((cs.set i m).eraseIdx (i + 1)))
    else if right.items.length < left.items.length then
      match rotateLR sep left right with
      | none => none
      | some (l2, sep2, r2) =>
        some (.inner c (its.set i sep2) ((cs.set i l2).set (i + 1) r2))
    else
      match rotateRL sep left right with
      | none => none
      | some (l2, sep2, r2) =>
        some (.inner c (its.set i sep2) ((cs.set i l2).set (i + 1) r2))
  | _, _, _ => none

/-- Mirror of Go `nodeRebalance` (btree.go lines 525-603): shift the working
index left when it names the last child (`if i == len(n.items) { i-- }`) and
run the merge-or-rotate body on the pair `(i, i+1)`.  `none` models the Go
panics: calling it on a leaf (nil children dereference) and the `i = -1`
child access when the node has no items. -/
def nodeRebalance (mx : Nat) : BNode α → Nat → Option (BNode α)
  | .leaf _ _, _ => none
  | .inner c its cs, i0 =>
    if i0 = its.length ∧ i0 = 0 then none
    else nodeRebalanceAt mx c its cs (if i0 = its.length then i0 - 1 else i0)

/-- The common tail of Go `delete` after a successful recursive deletion
(btree.go lines 515-519): decrement the cached count and rebalance child `i`
when it fell below `min` items. -/
def deleteFinish (mn mx : Nat) (c : Nat) (its : List α) (cs : List (BNode α))
    (i : Nat) (prev : α) : Option (Option (α × BNode α)) :=
  match cs[i]? with
  | none => none
  | some ci =>
    if ci.items.length < mn then
      match nodeRebalance mx (BNode.inner (c - 1) its cs) i with
      | none => none
      | some n2 => some (some (prev, n2))
    else some (some (prev, BNode.inner (c - 1) its cs))

/-- Mirror of Go `delete` (btree.go lines 473-520).  `max = true` is the
delete-maximum descent (`i := len(items)-1, found := true`, `Int` because Go
lets it reach `-1` on an itemless node); otherwise the index comes from
`find`.  At a leaf the found item is removed in place.  At an internal node
a found separator is replaced by the maximum of the left child extracted by
a recursive delete-max (`deleted` is forced `true` there, Go discards the
recursive flag); otherwise the deletion recurses into the search child.
After any successful child deletion the count is decremented and the child
is rebalanced if it fell below `min`.  The outer `none` models Go panics;
`some none` is a completed not-found call, which leaves every node
untouched. -/
def deleteGo (key : α → K) (mn mx : Nat) (emp : α) :
    Nat → BNode α → Bool → α → Option PathHint → Nat →
    Option (Option (α × BNode α))
  | 0, _, _, _, _, _ => none
  | fuel + 1, n, max, k, hint, depth =>
    match (if max then some (((n.items.length : Int) - 1, true, hint))
           else match find key n k hint depth with
                | none => none
                | some (i, found, hint1) => some (((i : Nat) : Int), found, hint1)) with
    | none => none
    | some (i, found, hint1) =>
      match n with
      | .leaf c its =>
        if found then
          match (if 0 ≤ i then its[i.toNat]? else none) with
          | none => none
          | some prev => some (some (prev, .leaf (c - 1) (its.eraseIdx i.toNat)))
        else some none
      | .inner c its cs =>
        if found then
          if max then
            match cs[(i + 1).toNat]? with
            | none => none
            | some ci =>
              match deleteGo key mn mx emp fuel ci true emp none 0 with
              | none => none
              | some none => some none
              | some (some (prev, ci2)) =>
                deleteFinish mn mx c its (cs.set (i + 1).toNat ci2) (i + 1).toNat prev
          else
            match its[i.toNat]?, cs[i.toNat]? with
            | some prevSep, some ci =>
              match deleteGo key mn mx emp fuel ci true emp none 0 with
              | none => none
              | some res =>
                deleteFinish mn mx c
                  (its.set i.toNat (match res with | some (m, _) => m | none => emp))
                  (cs.set i.toNat (match res with | some (_, c2) => c2 | none => ci))
                  i.toNat prevSep
            | _, _ => none
        else
          match cs[i.toNat]? with
          | none => none
          | some ci =>
            match deleteGo key mn mx emp fuel ci max k hint1 (depth + 1) with
            | none => none
            | some none => some none
            | some (some (prev, ci2)) =>
              deleteFinish mn mx c its (cs.set i.toNat ci2) i.toNat prev

/-- Mirror of Go `deleteHint` (btree.go lines 455-471): run the recursive
delete from the root; a not-found result leaves the tree untouched;
otherwise collapse an itemless internal root into its only child, decrement
the tree count and drop the root entirely when it reaches zero. -/
def deleteHint (key : α → K) (fuel : Nat) (t : BTree α) (k : α)
    (hint : Option PathHint) : Option (Option α × BTree α) :=
  match t.root with
  | none => some (none, t)
  | some root =>
    match deleteGo key t.min t.max t.empty fuel root false k hint 0 with
    | none => none
    | some none => some (none, t)
    | some (some (prev, root1)) =>
      match (match root1 with
             | .inner _ [] cs => cs[0]?
             | _ => some root1) with
      | none => none
      | some root2 =>
        some (some prev,
          { t with root := if t.count - 1 = 0 then none else some root2,
                   count := t.count - 1 })

/-- Mirror of Go `Delete` (btree.go lines 441-443): `DeleteHint` without a
hint. -/
def Delete (key : α → K) (fuel : Nat) (t : BTree α) (k : α) :
    Option (Option α × BTree α) :=
  deleteHint key fuel t k none

theorem sumCnt_append :
    ∀ (a b : List (BNode α)), sumCnt (a ++ b) = sumCnt a + sumCnt b := by
  intro a b
  induction a with
  | nil => simp
  | cons c a ih =>
    rw [List.cons_append]
    simp only [sumCnt_cons]
    omega

theorem inorderZip_append (sep : α) :
    ∀ (its1 : List α) (cs1 : List (BNode α)) (its2 : List α) (cs2 : List (BNode α)),
      cs1.length = its1.length + 1 →
      inorderZip (its1 ++ sep :: its2) (cs1 ++ cs2) =
        inorderZip its1 cs1 ++ sep :: inorderZip its2 cs2 := by
  intro its1
  induction its1 with
  | nil =>
    intro cs1 its2 cs2 hlen
    match cs1 with
    | [c] =>
      cases cs2 with
      | nil => simp
      | cons c2 cs2b => simp
    | [] => simp at hlen
    | c :: c2 :: cs1b => simp at hlen
  | cons x its1b ih =>
    intro cs1 its2 cs2 hlen
    cases cs1 with
    | nil => simp at hlen
    | cons c cs1b =>
      rw [List.cons_append, List.cons_append, inorderZip_cons_cons,
        inorderZip_cons_cons, ih cs1b its2 cs2 (by simpa using hlen)]
      simp

theorem orderedZip_append (key : α → K) (sep : α) :
    ∀ (its1 : List α) (cs1 : List (BNode α)) (its2 : List α)
      (cs2 : List (BNode α)) (lo hi : Option K),
      OrderedZip key lo (some (key sep)) its1 cs1 →
      OrderedZip key (some (key sep)) hi its2 cs2 →
      lb key lo sep → ub key hi sep →
      OrderedZip key lo hi (its1 ++ sep :: its2) (cs1 ++ cs2) := by
  intro its1
  induction its1 with
  | nil =>
    intro cs1 its2 cs2 lo hi h1 h2 hlb hub
    match cs1 with
    | [] => exact absurd h1 (orderedZip_nil_nil key lo (some (key sep)))
    | [c] =>
      rw [orderedZip_nil] at h1
      simp only [List.nil_append, List.cons_append]
      rw [orderedZip_cons]
      exact ⟨h1, hlb, hub, h2⟩
    | c :: c2 :: cs1b =>
      exact absurd h1 (orderedZip_nil_cons2 key lo (some (key sep)) c c2 cs1b)
  | cons x its1b ih =>
    intro cs1 its2 cs2 lo hi h1 h2 hlb hub
    cases cs1 with
    | nil => exact absurd h1 (orderedZip_cons_nil key lo (some (key sep)) x its1b)
    | cons c cs1b =>
      rw [orderedZip_cons] at h1
      obtain ⟨hc, hlbx, hubx, hrest⟩ := h1
      simp only [List.cons_append]
      rw [orderedZip_cons]
      refine ⟨hc, hlbx, ?_, ih cs1b its2 cs2 (some (key x)) hi hrest h2 ?_ hub⟩
      · intro hk hhk
        exact lt_trans ((ub_some key (key sep) x).mp hubx) (hub hk hhk)
      · rw [lb_some]
        exact (ub_some key (key sep) x).mp hubx

theorem sorted_bounds_append (key : α → K) (sep : α) (l1 l2 : List α)
    (lo hi : Option K)
    (hs1 : l1.Pairwise (fun a b => key a < key b))
    (hb1 : ∀ y ∈ l1, lb key lo y ∧ ub key (some (key sep)) y)
    (hs2 : l2.Pairwise (fun a b => key a < key b))
    (hb2 : ∀ y ∈ l2, lb key (some (key sep)) y ∧ ub key hi y)
    (hlb : lb key lo sep) (hub : ub key hi sep) :
    (l1 ++ sep :: l2).Pairwise (fun a b => key a < key b) ∧
    ∀ y ∈ l1 ++ sep :: l2, lb key lo y ∧ ub key hi y := by
  constructor
  · rw [List.pairwise_append]
    refine ⟨hs1, List.pairwise_cons.mpr ⟨?_, hs2⟩, ?_⟩
    · intro z hz
      exact (lb_some key (key sep) z).mp (hb2 z hz).1
    · intro a ha b hb
      rcases List.mem_cons.mp hb with hbe | hb2m
      · rw [hbe]
        exact (ub_some key (key sep) a).mp (hb1 a ha).2
      · exact lt_trans ((ub_some key (key sep) a).mp (hb1 a ha).2)
          ((lb_some key (key sep) b).mp (hb2 b hb2m).1)
  · intro y hy
    rcases List.mem_append.mp hy with hy1 | hy2
    · refine ⟨(hb1 y hy1).1, ?_⟩
      intro hk hhk
      exact lt_trans ((ub_some key (key sep) y).mp (hb1 y hy1).2) (hub hk hhk)
    · rcases List.mem_cons.mp hy2 with rfl | hy3
      · exact ⟨hlb, hub⟩
      · refine ⟨?_, (hb2 y hy3).2⟩
        intro hk hhk
        exact lt_trans (hlb hk hhk) ((lb_some key (key sep) y).mp (hb2 y hy3).1)

theorem depthIs_zero_leaf {n : BNode α} (h : DepthIs n 0) :
    ∃ c its, n = BNode.leaf c its := by
  cases n with
  | leaf c its => exact ⟨c, its, rfl⟩
  | inner c its cs =>
    rw [depthIs_inner] at h
    omega

theorem depthIs_pos_inner {n : BNode α} {d : Nat} (hd : 0 < d) (h : DepthIs n d) :
    ∃ c its cs, n = BNode.inner c its cs := by
  cases n with
  | leaf c its =>
    rw [depthIs_leaf] at h
    omega
  | inner c its cs => exact ⟨c, its, cs, rfl⟩

/-- Focus an adjacent sibling pair of an ordered internal node: extract the
intervals of children `i` and `i+1` around the separator `items[i]`, with
closures that restore orderedness after merging the pair into one child
(removing the separator) or after rotating (replacing the separator and both
children). -/
theorem zip_pair_surgery (key : α → K) :
    ∀ (its : List α) (cs : List (BNode α)) (i : Nat) (lo hi : Option K)
      (l r : BNode α),
      OrderedZip key lo hi its cs → (hilen : i < its.length) →
      cs[i]? = some l → cs[i + 1]? = some r →
      ∃ loL hiR,
        Ordered key loL (some (key its[i])) l ∧
        Ordered key (some (key its[i])) hiR r ∧
        lb key loL its[i] ∧ ub key hiR its[i] ∧
        (∀ m, Ordered key loL hiR m →
          OrderedZip key lo hi (its.eraseIdx i) ((cs.set i m).eraseIdx (i + 1))) ∧
        (∀ l2 sep2 r2, Ordered key loL (some (key sep2)) l2 →
          Ordered key (some (key sep2)) hiR r2 →
          lb key loL sep2 → ub key hiR sep2 →
          OrderedZip key lo hi (its.set i sep2) ((cs.set i l2).set (i + 1) r2)) := by
  intro its
  induction its with
  | nil =>
    intro cs i lo hi l r _ hilen
    simp at hilen
  | cons x its2 ih =>
    intro cs i lo hi l r hz hilen hl hr
    cases cs with
    | nil => exact absurd hz (orderedZip_cons_nil key lo hi x its2)
    | cons c cs2 =>
      rw [orderedZip_cons] at hz
      obtain ⟨hc, hlbx, hubx, hrest⟩ := hz
      cases i with
      | zero =>
        simp only [List.getElem?_cons_zero, Option.some.injEq] at hl
        subst hl
        simp only [List.getElem?_cons_succ] at hr
        simp only [List.getElem_cons_zero]
        cases cs2 with
        | nil => simp at hr
        | cons r0 cs3 =>
          simp only [List.getElem?_cons_zero, Option.some.injEq] at hr
          subst hr
          cases its2 with
          | nil =>
            cases cs3 with
            | cons c2 cs4 =>
              exact absurd hrest (orderedZip_nil_cons2 key (some (key x)) hi r0 c2 cs4)
            | nil =>
              rw [orderedZip_nil] at hrest
              refine ⟨lo, hi, hc, hrest, hlbx, hubx, ?_, ?_⟩
              · intro m hm
                simp only [List.eraseIdx_cons_zero, List.set_cons_zero,
                  List.eraseIdx_cons_succ, List.eraseIdx_cons_zero]
                rw [orderedZip_nil]
                exact hm
              · intro l2 sep2 r2 hl2 hr2 hlb2 hub2
                simp only [List.set_cons_zero, List.set_cons_succ]
                rw [orderedZip_cons]
                refine ⟨hl2, hlb2, hub2, ?_⟩
                rw [orderedZip_nil]
                exact hr2
          | cons x2 its3 =>
            rw [orderedZip_cons] at hrest
            obtain ⟨hr0, hlbx2, hubx2, hrest2⟩ := hrest
            refine ⟨lo, some (key x2), hc, hr0, hlbx, ?_, ?_, ?_⟩
            · rw [ub_some]
              exact (lb_some key (key x) x2).mp hlbx2
            · intro m hm
              simp only [List.eraseIdx_cons_zero, List.set_cons_zero,
                List.eraseIdx_cons_succ, List.eraseIdx_cons_zero]
              rw [orderedZip_cons]
              refine ⟨hm, ?_, hubx2, hrest2⟩
              intro hk hhk
              exact lt_trans (hlbx hk hhk) ((lb_some key (key x) x2).mp hlbx2)
            · intro l2 sep2 r2 hl2 hr2 hlb2 hub2
              simp only [List.set_cons_zero, List.set_cons_succ]
              rw [orderedZip_cons]
              refine ⟨hl2, hlb2, ?_, ?_⟩
              · intro hk hhk
                exact lt_trans ((ub_some key (key x2) sep2).mp hub2) (hubx2 hk hhk)
              · rw [orderedZip_cons]
                refine ⟨hr2, ?_, hubx2, hrest2⟩
                rw [lb_some]
                exact (ub_some key (key x2) sep2).mp hub2
      | succ i2 =>
        simp only [List.getElem?_cons_succ] at hl hr
        obtain ⟨loL, hiR, hOl, hOr, hlbs, hubs, hmerge, hrot⟩ :=
          ih cs2 i2 (some (key x)) hi l r hrest (by simpa using hilen) hl hr
        simp only [List.getElem_cons_succ]
        refine ⟨loL, hiR, hOl, hOr, hlbs, hubs, ?_, ?_⟩
        · intro m hm
          rw [List.eraseIdx_cons_succ, List.set_cons_succ, List.eraseIdx_cons_succ,
            orderedZip_cons]
          exact ⟨hc, hlbx, hubx, hmerge m hm⟩
        · intro l2 sep2 r2 hl2 hr2 hlb2 hub2
          rw [List.set_cons_succ, List.set_cons_succ, List.set_cons_succ,
            orderedZip_cons]
          exact ⟨hc, hlbx, hubx, hrot l2 sep2 r2 hl2 hr2 hlb2 hub2⟩

theorem orderedZip_snoc (key : α → K) :
    ∀ (its1 : List α) (cs1 : List (BNode α)) (y : α) (cLast : BNode α)
      (lo hi : Option K),
      cs1.length = its1.length + 1 →
      OrderedZip key lo hi (its1 ++ [y]) (cs1 ++ [cLast]) →
      OrderedZip key lo (some (key y)) its1 cs1 ∧
      Ordered key (some (key y)) hi cLast ∧ lb key lo y ∧ ub key hi y := by
  intro its1
  induction its1 with
  | nil =>
    intro cs1 y cLast lo hi hlen hz
    match cs1 with
    | [c] =>
      simp only [List.nil_append, List.cons_append, List.nil_append] at hz
      rw [orderedZip_cons] at hz
      obtain ⟨hc, hlby, huby, hrest⟩ := hz
      rw [orderedZip_nil] at hrest
      exact ⟨by rw [orderedZip_nil]; exact hc, hrest, hlby, huby⟩
    | [] => simp at hlen
    | c :: c2 :: cs1b => simp at hlen
  | cons x its1b ih =>
    intro cs1 y cLast lo hi hlen hz
    cases cs1 with
    | nil => simp at hlen
    | cons c cs1b =>
      simp only [List.cons_append] at hz
      rw [orderedZip_cons] at hz
      obtain ⟨hc, hlbx, hubx, hrest⟩ := hz
      obtain ⟨z1, z2, z3, z4⟩ := ih cs1b y cLast (some (key x)) hi
        (by simpa using hlen) hrest
      refine ⟨?_, z2, ?_, z4⟩
      · rw [orderedZip_cons]
        refine ⟨hc, hlbx, ?_, z1⟩
        rw [ub_some]
        exact (lb_some key (key x) y).mp z3
      · intro hk hhk
        exact lt_trans (hlbx hk hhk) ((lb_some key (key x) y).mp z3)

/-- Merging an ordered sibling pair around their separator (the merge branch
of `nodeRebalance`) yields one node spanning both intervals, with correct
count, depth and concatenated in-order sequence. -/
theorem mergeNodes_ok (key : α → K) (sep : α) (l r : BNode α)
    (loL hiR : Option K) (d : Nat)
    (hdl : DepthIs l d) (hdr : DepthIs r d)
    (hordl : Ordered key loL (some (key sep)) l)
    (hordr : Ordered key (some (key sep)) hiR r)
    (hlb : lb key loL sep) (hub : ub key hiR sep)
    (hcol : CountOK l) (hcor : CountOK r) :
    ∃ m, mergeNodes sep l r = some m ∧
      Ordered key loL hiR m ∧ CountOK m ∧ DepthIs m d ∧
      m.inorder = l.inorder ++ sep :: r.inorder ∧
      m.cnt = l.cnt + r.cnt + 1 ∧
      m.items.length = l.items.length + r.items.length + 1 := by
  cases d with
  | zero =>
    obtain ⟨lc, lits, rfl⟩ := depthIs_zero_leaf hdl
    obtain ⟨rc, rits, rfl⟩ := depthIs_zero_leaf hdr
    rw [ordered_leaf] at hordl hordr
    rw [countOK_leaf] at hcol hcor
    obtain ⟨hps, hpb⟩ := sorted_bounds_append key sep lits rits loL hiR
      hordl.1 hordl.2 hordr.1 hordr.2 hlb hub
    refine ⟨.leaf (lc + rc + 1) (lits ++ sep :: rits), rfl, ?_, ?_, ?_, ?_, ?_, ?_⟩
    · rw [ordered_leaf]
      exact ⟨hps, hpb⟩
    · rw [countOK_leaf, List.length_append, List.length_cons]
      omega
    · rw [depthIs_leaf]
    · simp
    · simp
    · simp only [BNode.items_leaf, List.length_append, List.length_cons]
      omega
  | succ e =>
    obtain ⟨lc, lits, lcs, rfl⟩ := depthIs_pos_inner (by omega) hdl
    obtain ⟨rc, rits, rcs, rfl⟩ := depthIs_pos_inner (by omega) hdr
    have harl := arityOK_of_ordered hordl
    rw [arityOK_inner] at harl
    rw [ordered_inner] at hordl hordr
    rw [countOK_inner] at hcol hcor
    rw [depthIs_inner] at hdl hdr
    simp only [Nat.add_sub_cancel] at hdl hdr
    refine ⟨.inner (lc + rc + 1) (lits ++ sep :: rits) (lcs ++ rcs), rfl,
      ?_, ?_, ?_, ?_, ?_, ?_⟩
    · rw [ordered_inner]
      exact orderedZip_append key sep lits lcs rits rcs loL hiR hordl hordr hlb hub
    · rw [countOK_inner]
      constructor
      · rw [List.length_append, List.length_cons, sumCnt_append]
        have := hcol.1
        have := hcor.1
        omega
      · rw [countAll_iff]
        intro z hz
        rcases List.mem_append.mp hz with hz1 | hz2
        · exact (countAll_iff lcs).mp hcol.2 z hz1
        · exact (countAll_iff rcs).mp hcor.2 z hz2
    · rw [depthIs_inner]
      refine ⟨by omega, ?_⟩
      simp only [Nat.add_sub_cancel]
      rw [depthAll_iff]
      intro z hz
      rcases List.mem_append.mp hz with hz1 | hz2
      · exact (depthAll_iff lcs e).mp hdl.2 z hz1
      · exact (depthAll_iff rcs e).mp hdr.2 z hz2
    · rw [inorder_inner, inorder_inner, inorder_inner,
        inorderZip_append sep lits lcs rits rcs harl.1]
    · simp
    · simp only [BNode.items_inner, List.length_append, List.length_cons]
      omega

/-- Moving the last item (and child) of the left sibling through the parent
separator into the right sibling (the left-to-right rotation branch of
`nodeRebalance`): the separator becomes the right node's head, the left
node's last item becomes the new separator, intervals, counts, depths and
the concatenated in-order sequence are preserved. -/
theorem rotateLR_ok (key : α → K) (sep : α) (l r : BNode α)
    (loL hiR : Option K) (d : Nat)
    (hdl : DepthIs l d) (hdr : DepthIs r d)
    (hordl : Ordered key loL (some (key sep)) l)
    (hordr : Ordered key (some (key sep)) hiR r)
    (hlb : lb key loL sep) (hub : ub key hiR sep)
    (hcol : CountOK l) (hcor : CountOK r)
    (hne : 1 ≤ l.items.length) :
    ∃ l2 sep2 r2, rotateLR sep l r = some (l2, sep2, r2) ∧
      Ordered key loL (some (key sep2)) l2 ∧
      Ordered key (some (key sep2)) hiR r2 ∧
      lb key loL sep2 ∧ ub key hiR sep2 ∧
      CountOK l2 ∧ CountOK r2 ∧ DepthIs l2 d ∧ DepthIs r2 d ∧
      l2.inorder ++ sep2 :: r2.inorder = l.inorder ++ sep :: r.inorder ∧
      l2.cnt + r2.cnt = l.cnt + r.cnt ∧
      l2.items.length + 1 = l.items.length ∧
      r2.items.length = r.items.length + 1 := by
  cases d with
  | zero =>
    obtain ⟨lc, lits, rfl⟩ := depthIs_zero_leaf hdl
    obtain ⟨rc, rits, rfl⟩ := depthIs_zero_leaf hdr
    simp only [BNode.items_leaf] at hne
    rcases List.eq_nil_or_concat lits with rfl | ⟨litsInit, lastIt, rfl⟩
    · simp at hne
    simp only [List.concat_eq_append] at *
    rw [ordered_leaf] at hordl hordr
    rw [countOK_leaf] at hcol hcor
    obtain ⟨hps, _, hcross⟩ := List.pairwise_append.mp hordl.1
    have hlastmem : lastIt ∈ litsInit ++ [lastIt] := List.mem_append.mpr (Or.inr (by simp))
    refine ⟨.leaf (lc - 1) (litsInit ++ [lastIt]).dropLast, lastIt,
      .leaf (rc + 1) (sep :: rits), ?_, ?_, ?_, ?_, ?_, ?_, ?_, ?_, ?_, ?_, ?_,
      ?_, ?_⟩
    · simp only [rotateLR, List.getLast?_concat]
    · rw [ordered_leaf, List.dropLast_concat]
      refine ⟨hps, ?_⟩
      intro y hy
      refine ⟨(hordl.2 y (List.mem_append.mpr (Or.inl hy))).1, ?_⟩
      rw [ub_some]
      exact hcross y hy lastIt (by simp)
    · rw [ordered_leaf]
      refine ⟨List.pairwise_cons.mpr ⟨?_, hordr.1⟩, ?_⟩
      · intro z hz
        exact (lb_some key (key sep) z).mp (hordr.2 z hz).1
      · intro y hy
        rcases List.mem_cons.mp hy with hye | hy2
        · rw [hye]
          refine ⟨?_, hub⟩
          rw [lb_some]
          exact (ub_some key (key sep) lastIt).mp (hordl.2 lastIt hlastmem).2
        · refine ⟨?_, (hordr.2 y hy2).2⟩
          rw [lb_some]
          exact lt_trans ((ub_some key (key sep) lastIt).mp
            (hordl.2 lastIt hlastmem).2)
            ((lb_some key (key sep) y).mp (hordr.2 y hy2).1)
    · exact (hordl.2 lastIt hlastmem).1
    · intro hk hhk
      exact lt_trans ((ub_some key (key sep) lastIt).mp (hordl.2 lastIt hlastmem).2)
        (hub hk hhk)
    · rw [countOK_leaf, List.dropLast_concat]
      rw [List.length_append] at hcol
      simp only [List.length_cons, List.length_nil] at hcol
      omega
    · rw [countOK_leaf, List.length_cons]
      omega
    · rw [List.dropLast_concat, depthIs_leaf]
    · rw [depthIs_leaf]
    · rw [inorder_leaf, inorder_leaf, inorder_leaf, inorder_leaf,
        List.dropLast_concat]
      simp
    · simp only [BNode.cnt_leaf]
      rw [List.length_append] at hcol
      simp only [List.length_cons, List.length_nil] at hcol
      omega
    · simp only [BNode.items_leaf, List.dropLast_concat, List.length_append,
        List.length_cons, List.length_nil]
    · simp only [BNode.items_leaf, List.length_cons]
  | succ e =>
    obtain ⟨lc, lits, lcs, rfl⟩ := depthIs_pos_inner (by omega) hdl
    obtain ⟨rc, rits, rcs, rfl⟩ := depthIs_pos_inner (by omega) hdr
    simp only [BNode.items_inner] at hne
    have harl := arityOK_of_ordered hordl
    rw [arityOK_inner] at harl
    rcases List.eq_nil_or_concat lits with rfl | ⟨litsInit, lastIt, rfl⟩
    · simp at hne
    rcases List.eq_nil_or_concat lcs with rfl | ⟨lcsInit, lastC, rfl⟩
    · rw [List.concat_eq_append] at harl
      simp at harl
    simp only [List.concat_eq_append] at *
    have harl2 : lcsInit.length = litsInit.length + 1 := by
      rw [List.length_append, List.length_append] at harl
      simp only [List.length_cons, List.length_nil] at harl
      omega
    rw [ordered_inner] at hordl hordr
    rw [countOK_inner] at hcol hcor
    rw [depthIs_inner] at hdl hdr
    simp only [Nat.add_sub_cancel] at hdl hdr
    obtain ⟨z1, z2, z3, z4⟩ := orderedZip_snoc key litsInit lcsInit lastIt lastC
      loL (some (key sep)) harl2 hordl
    refine ⟨.inner (lc - 1 - lastC.cnt) (litsInit ++ [lastIt]).dropLast
        (lcsInit ++ [lastC]).dropLast, lastIt,
      .inner (rc + 1 + lastC.cnt) (sep :: rits) (lastC :: rcs),
      ?_, ?_, ?_, z3, ?_, ?_, ?_, ?_, ?_, ?_, ?_, ?_, ?_⟩
    · simp only [rotateLR, List.getLast?_concat]
    · rw [List.dropLast_concat, List.dropLast_concat, ordered_inner]
      exact z1
    · rw [ordered_inner, orderedZip_cons]
      refine ⟨z2, ?_, hub, hordr⟩
      rw [lb_some]
      exact (ub_some key (key sep) lastIt).mp z4
    · intro hk hhk
      exact lt_trans ((ub_some key (key sep) lastIt).mp z4) (hub hk hhk)
    · rw [List.dropLast_concat, List.dropLast_concat, countOK_inner]
      constructor
      · have := hcol.1
        rw [List.length_append, sumCnt_append] at this
        simp only [List.length_cons, List.length_nil, sumCnt_cons, sumCnt_nil]
          at this
        omega
      · rw [countAll_iff]
        intro z hz
        exact (countAll_iff _).mp hcol.2 z (List.mem_append.mpr (Or.inl hz))
    · rw [countOK_inner]
      constructor
      · have := hcor.1
        simp only [List.length_cons, sumCnt_cons]
        omega
      · rw [countAll_iff]
        intro z hz
        rcases List.mem_cons.mp hz with hze | hz2
        · subst hze
          exact (countAll_iff _).mp hcol.2 z (List.mem_append.mpr (Or.inr (by simp)))
        · exact (countAll_iff rcs).mp hcor.2 z hz2
    · rw [List.dropLast_concat, List.dropLast_concat, depthIs_inner]
      refine ⟨by omega, ?_⟩
      simp only [Nat.add_sub_cancel]
      rw [depthAll_iff]
      intro z hz
      exact (depthAll_iff _ e).mp hdl.2 z (List.mem_append.mpr (Or.inl hz))
    · rw [depthIs_inner]
      refine ⟨by omega, ?_⟩
      simp only [Nat.add_sub_cancel]
      rw [depthAll_iff]
      intro z hz
      rcases List.mem_cons.mp hz with hze | hz2
      · subst hze
        exact (depthAll_iff _ e).mp hdl.2 z (List.mem_append.mpr (Or.inr (by simp)))
      · exact (depthAll_iff rcs e).mp hdr.2 z hz2
    · rw [List.dropLast_concat, List.dropLast_concat, inorder_inner, inorder_inner,
        inorder_inner, inorder_inner, inorderZip_cons_cons,
        inorderZip_append lastIt litsInit lcsInit [] [lastC] harl2]
      simp
    · simp only [BNode.cnt_inner]
      have := hcol.1
      rw [List.length_append, sumCnt_append] at this
      simp only [List.length_cons, List.length_nil, sumCnt_cons, sumCnt_nil] at this
      omega
    · simp only [BNode.items_inner, List.dropLast_concat, List.length_append,
        List.length_cons, List.length_nil]
    · simp only [BNode.items_inner, List.length_cons]

/-- Moving the first item (and child) of the right sibling through the parent
separator into the left sibling (the right-to-left rotation branch of
`nodeRebalance`), symmetric to `rotateLR_ok`. -/
theorem rotateRL_ok (key : α → K) (sep : α) (l r : BNode α)
    (loL hiR : Option K) (d : Nat)
    (hdl : DepthIs l d) (hdr : DepthIs r d)
    (hordl : Ordered key loL (some (key sep)) l)
    (hordr : Ordered key (some (key sep)) hiR r)
    (hlb : lb key loL sep) (hub : ub key hiR sep)
    (hcol : CountOK l) (hcor : CountOK r)
    (hne : 1 ≤ r.items.length) :
    ∃ l2 sep2 r2, rotateRL sep l r = some (l2, sep2, r2) ∧
      Ordered key loL (some (key sep2)) l2 ∧
      Ordered key (some (key sep2)) hiR r2 ∧
      lb key loL sep2 ∧ ub key hiR sep2 ∧
      CountOK l2 ∧ CountOK r2 ∧ DepthIs l2 d ∧ DepthIs r2 d ∧
      l2.inorder ++ sep2 :: r2.inorder = l.inorder ++ sep :: r.inorder ∧
      l2.cnt + r2.cnt = l.cnt + r.cnt ∧
      l2.items.length = l.items.length + 1 ∧
      r2.items.length + 1 = r.items.length := by
  cases d with
  | zero =>
    obtain ⟨lc, lits, rfl⟩ := depthIs_zero_leaf hdl
    obtain ⟨rc, rits, rfl⟩ := depthIs_zero_leaf hdr
    simp only [BNode.items_leaf] at hne
    cases rits with
    | nil => simp at hne
    | cons r0 rrest =>
    rw [ordered_leaf] at hordl hordr
    rw [countOK_leaf] at hcol hcor
    have hr0 := hordr.2 r0 (List.mem_cons_self r0 rrest)
    obtain ⟨hrps, hrtail⟩ := List.pairwise_cons.mp hordr.1
    obtain ⟨hps, hpb⟩ := sorted_bounds_append key sep lits [] loL (some (key r0))
      hordl.1 hordl.2 (List.Pairwise.nil) (by intro y hy; simp at hy) hlb
      (by intro hk hhk; rw [Option.mem_some_iff] at hhk; rw [← hhk]
          exact (lb_some key (key sep) r0).mp hr0.1)
    refine ⟨.leaf (lc + 1) (lits ++ [sep]), r0, .leaf (rc - 1) rrest,
      rfl, ?_, ?_, ?_, hr0.2, ?_, ?_, ?_, ?_, ?_, ?_, ?_, ?_⟩
    · rw [ordered_leaf]
      exact ⟨hps, hpb⟩
    · rw [ordered_leaf]
      refine ⟨hrtail, ?_⟩
      intro y hy
      refine ⟨?_, (hordr.2 y (List.mem_cons_of_mem r0 hy)).2⟩
      rw [lb_some]
      exact hrps y hy
    · intro hk hhk
      exact lt_trans (hlb hk hhk) ((lb_some key (key sep) r0).mp hr0.1)
    · rw [countOK_leaf, List.length_append, List.length_cons, List.length_nil]
      omega
    · rw [countOK_leaf]
      rw [List.length_cons] at hcor
      omega
    · rw [depthIs_leaf]
    · rw [depthIs_leaf]
    · simp
    · simp only [BNode.cnt_leaf]
      rw [List.length_cons] at hcor
      omega
    · simp only [BNode.items_leaf, List.length_append, List.length_cons,
        List.length_nil]
    · simp only [BNode.items_leaf, List.length_cons]
  | succ e =>
    obtain ⟨lc, lits, lcs, rfl⟩ := depthIs_pos_inner (by omega) hdl
    obtain ⟨rc, rits, rcs, rfl⟩ := depthIs_pos_inner (by omega) hdr
    simp only [BNode.items_inner] at hne
    have harl := arityOK_of_ordered hordl
    have harr := arityOK_of_ordered hordr
    rw [arityOK_inner] at harl harr
    cases rits with
    | nil => simp at hne
    | cons r0 rrest =>
    cases rcs with
    | nil => simp at harr
    | cons rc0 rcrest =>
    rw [ordered_inner] at hordl hordr
    rw [countOK_inner] at hcol hcor
    rw [depthIs_inner] at hdl hdr
    simp only [Nat.add_sub_cancel] at hdl hdr
    rw [orderedZip_cons] at hordr
    obtain ⟨hrc0, hlbr0, hubr0, hzrest⟩ := hordr
    have hseplt : key sep < key r0 := by
      have := arityOK_of_ordered hrc0
      exact (lb_some key (key sep) r0).mp hlbr0
    refine ⟨.inner (lc + 1 + rc0.cnt) (lits ++ [sep]) (lcs ++ [rc0]), r0,
      .inner (rc - 1 - rc0.cnt) rrest rcrest, rfl, ?_, ?_, ?_, hubr0,
      ?_, ?_, ?_, ?_, ?_, ?_, ?_, ?_⟩
    · rw [ordered_inner]
      have happ := orderedZip_append key sep lits lcs [] [rc0] loL (some (key r0))
        hordl (by rw [orderedZip_nil]; exact hrc0) hlb
        (by intro hk hhk; rw [Option.mem_some_iff] at hhk; rw [← hhk]; exact hseplt)
      exact happ
    · rw [ordered_inner]
      exact hzrest
    · intro hk hhk
      exact lt_trans (hlb hk hhk) hseplt
    · rw [countOK_inner]
      constructor
      · rw [List.length_append, sumCnt_append]
        simp only [List.length_cons, List.length_nil, sumCnt_cons, sumCnt_nil]
        omega
      · rw [countAll_iff]
        intro z hz
        rcases List.mem_append.mp hz with hz1 | hz2
        · exact (countAll_iff lcs).mp hcol.2 z hz1
        · rw [List.mem_singleton] at hz2
          rw [hz2]
          exact (countAll_iff (rc0 :: rcrest)).mp hcor.2 rc0
            (List.mem_cons_self rc0 rcrest)
    · rw [countOK_inner]
      constructor
      · have := hcor.1
        simp only [List.length_cons, sumCnt_cons] at this
        omega
      · rw [countAll_iff]
        intro z hz
        exact (countAll_iff (rc0 :: rcrest)).mp hcor.2 z (List.mem_cons_of_mem rc0 hz)
    · rw [depthIs_inner]
      refine ⟨by omega, ?_⟩
      simp only [Nat.add_sub_cancel]
      rw [depthAll_iff]
      intro z hz
      rcases List.mem_append.mp hz with hz1 | hz2
      · exact (depthAll_iff lcs e).mp hdl.2 z hz1
      · rw [List.mem_singleton] at hz2
        rw [hz2]
        exact (depthAll_iff (rc0 :: rcrest) e).mp hdr.2 rc0
          (List.mem_cons_self rc0 rcrest)
    · rw [depthIs_inner]
      refine ⟨by omega, ?_⟩
      simp only [Nat.add_sub_cancel]
      rw [depthAll_iff]
      intro z hz
      exact (depthAll_iff (rc0 :: rcrest) e).mp hdr.2 z (List.mem_cons_of_mem rc0 hz)
    · rw [inorder_inner, inorder_inner, inorder_inner, inorder_inner,
        inorderZip_cons_cons, inorderZip_append sep lits lcs [] [rc0] harl.1]
      simp
    · simp only [BNode.cnt_inner]
      have := hcor.1
      simp only [List.length_cons, sumCnt_cons] at this
      omega
    · simp only [BNode.items_inner, List.length_append, List.length_cons,
        List.length_nil]
    · simp only [BNode.items_inner, List.length_cons]

/-- Window weakening lifted to the item/child zip. -/
theorem orderedZip_weaken (key : α → K) :
    ∀ (its : List α) (cs : List (BNode α)) (lo hi lo2 hi2 : Option K),
      OrderedZip key lo hi its cs →
      (∀ y : α, lb key lo y → lb key lo2 y) →
      (∀ y : α, ub key hi y → ub key hi2 y) →
      OrderedZip key lo2 hi2 its cs := by
  intro its
  induction its with
  | nil =>
    intro cs lo hi lo2 hi2 hz hlo hhi
    match cs with
    | [] => exact absurd hz (orderedZip_nil_nil key lo hi)
    | [c] =>
      rw [orderedZip_nil] at hz ⊢
      exact ordered_weaken key c lo hi lo2 hi2 hz hlo hhi
    | c :: c2 :: cs2 => exact absurd hz (orderedZip_nil_cons2 key lo hi c c2 cs2)
  | cons x its2 ih =>
    intro cs lo hi lo2 hi2 hz hlo hhi
    cases cs with
    | nil => exact absurd hz (orderedZip_cons_nil key lo hi x its2)
    | cons c cs2 =>
      rw [orderedZip_cons] at hz ⊢
      obtain ⟨hc, hlbx, hubx, htail⟩ := hz
      exact ⟨ordered_weaken key c lo (some (key x)) lo2 (some (key x)) hc hlo
          (fun y hy => hy),
        hlo x hlbx, hhi x hubx,
        ih cs2 (some (key x)) hi (some (key x)) hi2 htail (fun y hy => hy) hhi⟩

/-- The children of a node all satisfy the non-root size invariant (the
node's own item count is constrained by its parent, not here). -/
def ChildrenSizeAll {α : Type} (mn mx : Nat) : BNode α → Prop
  | .leaf _ _ => True
  | .inner _ _ cs => SizeAll mn mx cs

@[simp] theorem childrenSizeAll_leaf (mn mx c : Nat) (its : List α) :
    ChildrenSizeAll mn mx (BNode.leaf c its) ↔ True := by
  rw [ChildrenSizeAll]

@[simp] theorem childrenSizeAll_inner (mn mx c : Nat) (its : List α)
    (cs : List (BNode α)) :
    ChildrenSizeAll mn mx (BNode.inner c its cs) ↔ SizeAll mn mx cs := by
  rw [ChildrenSizeAll]

theorem sizeAll_append (mn mx : Nat) (a b : List (BNode α)) :
    SizeAll mn mx (a ++ b) ↔ SizeAll mn mx a ∧ SizeAll mn mx b := by
  rw [sizeAll_iff, sizeAll_iff, sizeAll_iff]
  constructor
  · intro h
    exact ⟨fun c hc => h c (List.mem_append.mpr (Or.inl hc)),
      fun c hc => h c (List.mem_append.mpr (Or.inr hc))⟩
  · intro h c hc
    rcases List.mem_append.mp hc with h1 | h2
    · exact h.1 c h1
    · exact h.2 c h2

theorem sizeAll_of_getElem (mn mx : Nat) (cs : List (BNode α))
    (h : ∀ j (hj : j < cs.length), SizeOK mn mx false cs[j]) :
    SizeAll mn mx cs := by
  rw [sizeAll_iff]
  intro c hc
  obtain ⟨j, hj, hje⟩ := List.mem_iff_getElem.mp hc
  rw [← hje]
  exact h j hj

/-- Assemble a non-root size invariant from its three parts. -/
theorem sizeOK_build (mn mx : Nat) (n : BNode α) (h1 : mn ≤ n.items.length)
    (h2 : n.items.length ≤ mx) (h3 : ChildrenSizeAll mn mx n) :
    SizeOK mn mx false n := by
  cases n with
  | leaf c its =>
    simp only [BNode.items_leaf] at h1 h2
    exact (sizeOK_leaf mn mx false c its).mpr ⟨fun _ => h1, h2⟩
  | inner c its cs =>
    simp only [BNode.items_inner] at h1 h2
    rw [childrenSizeAll_inner] at h3
    exact (sizeOK_inner mn mx false c its cs).mpr ⟨fun _ => h1, h2, h3⟩

/-- Assemble a root-position size invariant (no minimum on the node itself). -/
theorem sizeOK_true_build (mn mx : Nat) (n : BNode α)
    (h2 : n.items.length ≤ mx) (h3 : ChildrenSizeAll mn mx n) :
    SizeOK mn mx true n := by
  cases n with
  | leaf c its =>
    simp only [BNode.items_leaf] at h2
    exact (sizeOK_leaf mn mx true c its).mpr ⟨fun hc => by simp at hc, h2⟩
  | inner c its cs =>
    simp only [BNode.items_inner] at h2
    rw [childrenSizeAll_inner] at h3
    exact (sizeOK_inner mn mx true c its cs).mpr ⟨fun hc => by simp at hc, h2, h3⟩

/-- Split a size invariant into its three parts. -/
theorem sizeOK_parts (mn mx : Nat) (b : Bool) (n : BNode α)
    (h : SizeOK mn mx b n) :
    n.items.length ≤ mx ∧ ChildrenSizeAll mn mx n ∧
      (b = false → mn ≤ n.items.length) := by
  cases n with
  | leaf c its =>
    rw [sizeOK_leaf] at h
    exact ⟨h.2, trivial, h.1⟩
  | inner c its cs =>
    rw [sizeOK_inner] at h
    exact ⟨h.2.1, (childrenSizeAll_inner mn mx c its cs).mpr h.2.2, h.1⟩

theorem getLast?_mem {γ : Type} {l : List γ} {a : γ} (h : l.getLast? = some a) :
    a ∈ l := by
  cases l with
  | nil => simp at h
  | cons x xs =>
    rw [List.getLast?_eq_getLast (x :: xs) (by simp)] at h
    injection h with h2
    rw [← h2]
    exact List.getLast_mem (by simp)

/-- A merged node's children inherit the size invariant from the two
sources. -/
theorem mergeNodes_children (mn mx : Nat) (sep : α) (l r m : BNode α)
    (h : mergeNodes sep l r = some m)
    (hl : ChildrenSizeAll mn mx l) (hr : ChildrenSizeAll mn mx r) :
    ChildrenSizeAll mn mx m := by
  cases l with
  | leaf lc lits =>
    cases r with
    | leaf rc rits =>
      simp only [mergeNodes, Option.some.injEq] at h
      rw [← h, childrenSizeAll_leaf]
      trivial
    | inner rc rits rcs =>
      simp only [mergeNodes, Option.some.injEq] at h
      rw [← h, childrenSizeAll_leaf]
      trivial
  | inner lc lits lcs =>
    cases r with
    | leaf rc rits => simp [mergeNodes] at h
    | inner rc rits rcs =>
      simp only [mergeNodes, Option.some.injEq] at h
      rw [← h, childrenSizeAll_inner, sizeAll_append]
      rw [childrenSizeAll_inner] at hl hr
      exact ⟨hl, hr⟩

/-- Children of the two nodes produced by a left-to-right rotation inherit
the size invariant. -/
theorem rotateLR_children (mn mx : Nat) (sep : α) (l r l2 r2 : BNode α)
    (sep2 : α) (h : rotateLR sep l r = some (l2, sep2, r2))
    (hl : ChildrenSizeAll mn mx l) (hr : ChildrenSizeAll mn mx r) :
    ChildrenSizeAll mn mx l2 ∧ ChildrenSizeAll mn mx r2 := by
  cases l with
  | leaf lc lits =>
    simp only [rotateLR] at h
    cases hg : lits.getLast? with
    | none => rw [hg] at h; simp at h
    | some lastIt =>
      rw [hg] at h
      simp only [Option.some.injEq, Prod.mk.injEq] at h
      obtain ⟨hl2, _, hr2⟩ := h
      subst hl2
      constructor
      · rw [childrenSizeAll_leaf]; trivial
      · cases r with
        | leaf rc rits =>
          rw [← hr2, childrenSizeAll_leaf]; trivial
        | inner rc rits rcs =>
          rw [← hr2, childrenSizeAll_inner]
          rw [childrenSizeAll_inner] at hr
          exact hr
  | inner lc lits lcs =>
    cases r with
    | leaf rc rits => simp [rotateLR] at h
    | inner rc rits rcs =>
      simp only [rotateLR] at h
      cases hg1 : lits.getLast? with
      | none => rw [hg1] at h; simp at h
      | some lastIt =>
        cases hg2 : lcs.getLast? with
        | none => rw [hg1, hg2] at h; simp at h
        | some lastC =>
          rw [hg1, hg2] at h
          simp only [Option.some.injEq, Prod.mk.injEq] at h
          obtain ⟨hl2, _, hr2⟩ := h
          rw [childrenSizeAll_inner] at hl hr
          constructor
          · rw [← hl2, childrenSizeAll_inner]
            rw [sizeAll_iff] at hl ⊢
            intro z hz
            exact hl z (List.Sublist.subset (List.dropLast_sublist lcs) hz)
          · rw [← hr2, childrenSizeAll_inner]
            rw [sizeAll_iff] at hl hr ⊢
            intro z hz
            rcases List.mem_cons.mp hz with hze | hz2
            · rw [hze]
              exact hl lastC (getLast?_mem hg2)
            · exact hr z hz2

/-- Children of the two nodes produced by a right-to-left rotation inherit
the size invariant. -/
theorem rotateRL_children (mn mx : Nat) (sep : α) (l r l2 r2 : BNode α)
    (sep2 : α) (h : rotateRL sep l r = some (l2, sep2, r2))
    (hl : ChildrenSizeAll mn mx l) (hr : ChildrenSizeAll mn mx r) :
    ChildrenSizeAll mn mx l2 ∧ ChildrenSizeAll mn mx r2 := by
  cases l with
  | leaf lc lits =>
    cases r with
    | leaf rc rits =>
      cases rits with
      | nil => simp [rotateRL] at h
      | cons r0 rrest =>
        simp only [rotateRL, Option.some.injEq, Prod.mk.injEq] at h
        obtain ⟨hl2, _, hr2⟩ := h
        rw [← hl2, ← hr2]
        exact ⟨trivial, trivial⟩
    | inner rc rits rcs =>
      cases rits with
      | nil => simp [rotateRL] at h
      | cons r0 rrest =>
        simp only [rotateRL, Option.some.injEq, Prod.mk.injEq] at h
        obtain ⟨hl2, _, hr2⟩ := h
        rw [← hl2, ← hr2, childrenSizeAll_leaf, childrenSizeAll_inner]
        rw [childrenSizeAll_inner] at hr
        exact ⟨trivial, hr⟩
  | inner lc lits lcs =>
    cases r with
    | leaf rc rits => simp [rotateRL] at h
    | inner rc rits rcs =>
      cases rits with
      | nil => simp [rotateRL] at h
      | cons r0 rrest =>
        cases rcs with
        | nil => simp [rotateRL] at h
        | cons rc0 rcrest =>
          simp only [rotateRL, Option.some.injEq, Prod.mk.injEq] at h
          obtain ⟨hl2, _, hr2⟩ := h
          rw [childrenSizeAll_inner] at hl hr
          rw [sizeAll_iff] at hl hr
          constructor
          · rw [← hl2, childrenSizeAll_inner, sizeAll_iff]
            intro z hz
            rcases List.mem_append.mp hz with hz1 | hz2
            · exact hl z hz1
            · rw [List.mem_singleton] at hz2
              rw [hz2]
              exact hr rc0 (List.mem_cons_self rc0 rcrest)
          · rw [← hr2, childrenSizeAll_inner, sizeAll_iff]
            intro z hz
            exact hr z (List.mem_cons_of_mem rc0 hz)

theorem sumCnt_eraseIdx :
    ∀ (cs : List (BNode α)) (i : Nat) (ci : BNode α), cs[i]? = some ci →
      sumCnt (cs.eraseIdx i) + ci.cnt = sumCnt cs := by
  intro cs
  induction cs with
  | nil =>
    intro i ci hci
    simp at hci
  | cons c cs ih =>
    intro i ci hci
    cases i with
    | zero =>
      simp only [List.getElem?_cons_zero, Option.some.injEq] at hci
      subst hci
      rw [List.eraseIdx_cons_zero, sumCnt_cons]
      omega
    | succ i2 =>
      rw [List.eraseIdx_cons_succ]
      simp only [sumCnt_cons]
      have := ih i2 ci (by simpa using hci)
      omega

/-- Merging the sibling pair `(i, i+1)` does not change the zipped in-order
sequence. -/
theorem zip_merge_inorder :
    ∀ (its : List α) (cs : List (BNode α)) (i : Nat) (l r m : BNode α),
      i < its.length → cs[i]? = some l → cs[i + 1]? = some r →
      (∀ hi2 : i < its.length,
        m.inorder = l.inorder ++ its.get ⟨i, hi2⟩ :: r.inorder) →
      inorderZip (its.eraseIdx i) ((cs.set i m).eraseIdx (i + 1)) =
        inorderZip its cs := by
  intro its
  induction its with
  | nil =>
    intro cs i l r m hi
    simp at hi
  | cons x its2 ih =>
    intro cs i l r m hi hl hr hm
    cases cs with
    | nil => simp at hl
    | cons c cs2 =>
      cases i with
      | zero =>
        simp only [List.getElem?_cons_zero, Option.some.injEq] at hl
        rw [List.getElem?_cons_succ] at hr
        cases cs2 with
        | nil => simp at hr
        | cons c1 cs3 =>
          simp only [List.getElem?_cons_zero, Option.some.injEq] at hr
          subst hl
          subst hr
          have hm0 := hm (by simp)
          simp only [List.get_eq_getElem, List.getElem_cons_zero] at hm0
          rw [List.eraseIdx_cons_zero, List.set_cons_zero,
            List.eraseIdx_cons_succ, List.eraseIdx_cons_zero]
          cases its2 with
          | nil =>
            rw [inorderZip_nil_left, inorderZip_cons_cons, inorderZip_nil_left, hm0]
          | cons y its3 =>
            rw [inorderZip_cons_cons, inorderZip_cons_cons, inorderZip_cons_cons,
              hm0]
            simp
      | succ i2 =>
        rw [List.getElem?_cons_succ] at hl hr
        rw [List.eraseIdx_cons_succ, List.set_cons_succ, List.eraseIdx_cons_succ,
          inorderZip_cons_cons, inorderZip_cons_cons]
        rw [ih cs2 i2 l r m (by simpa using hi) hl hr]
        intro hi2
        have := hm (by simpa using hi)
        simpa using this

/-- Rotating one item through the separator of the sibling pair `(i, i+1)`
does not change the zipped in-order sequence. -/
theorem zip_rotate_inorder :
    ∀ (its : List α) (cs : List (BNode α)) (i : Nat) (l r l2 r2 : BNode α)
      (sep2 : α),
      i < its.length → cs[i]? = some l → cs[i + 1]? = some r →
      (∀ hi2 : i < its.length,
        l2.inorder ++ sep2 :: r2.inorder =
          l.inorder ++ its.get ⟨i, hi2⟩ :: r.inorder) →
      inorderZip (its.set i sep2) ((cs.set i l2).set (i + 1) r2) =
        inorderZip its cs := by
  intro its
  induction its with
  | nil =>
    intro cs i l r l2 r2 sep2 hi
    simp at hi
  | cons x its2 ih =>
    intro cs i l r l2 r2 sep2 hi hl hr hm
    cases cs with
    | nil => simp at hl
    | cons c cs2 =>
      cases i with
      | zero =>
        simp only [List.getElem?_cons_zero, Option.some.injEq] at hl
        rw [List.getElem?_cons_succ] at hr
        cases cs2 with
        | nil => simp at hr
        | cons c1 cs3 =>
          simp only [List.getElem?_cons_zero, Option.some.injEq] at hr
          subst hl
          subst hr
          have hm0 := hm (by simp)
          simp only [List.get_eq_getElem, List.getElem_cons_zero] at hm0
          rw [List.set_cons_zero, List.set_cons_zero, List.set_cons_succ,
            List.set_cons_zero]
          cases its2 with
          | nil =>
            rw [inorderZip_cons_cons, inorderZip_cons_cons, inorderZip_nil_left,
              inorderZip_nil_left]
            rw [← hm0]
          | cons y its3 =>
            rw [inorderZip_cons_cons, inorderZip_cons_cons, inorderZip_cons_cons,
              inorderZip_cons_cons]
            have := congrArg (fun z => z ++ y :: inorderZip its3 cs3) hm0
            simpa using this
      | succ i2 =>
        rw [List.getElem?_cons_succ] at hl hr
        rw [List.set_cons_succ, List.set_cons_succ, List.set_cons_succ,
          inorderZip_cons_cons, inorderZip_cons_cons]
        rw [ih cs2 i2 l r l2 r2 sep2 (by simpa using hi) hl hr]
        intro hi2
        have := hm (by simpa using hi)
        simpa using this

/-- The merge-or-rotate body restores the child-size invariant while
preserving order, cached counts, depth, arity and the in-order sequence.
The working pair is `(i, i+1)`; both members sit at most one item below
`min`, the rest of the children are within bounds, and at least one member
of the pair is actually deficient. -/
theorem nodeRebalanceAt_ok (key : α → K) (mn mx c : Nat) (its : List α)
    (cs : List (BNode α)) (i : Nat) (lo hi : Option K) (e : Nat)
    (l r : BNode α)
    (hz : OrderedZip key lo hi its cs)
    (hca : CountAll cs)
    (hd : DepthAll cs e)
    (hlen : cs.length = its.length + 1)
    (hilt : i < its.length)
    (hl : cs[i]? = some l) (hr : cs[i + 1]? = some r)
    (hszrest : ∀ j (hj : j < cs.length), j ≠ i → j ≠ i + 1 →
      SizeOK mn mx false cs[j])
    (hLge : mn ≤ l.items.length + 1) (hLle : l.items.length ≤ mx)
    (hLcs : ChildrenSizeAll mn mx l)
    (hRge : mn ≤ r.items.length + 1) (hRle : r.items.length ≤ mx)
    (hRcs : ChildrenSizeAll mn mx r)
    (hdef : l.items.length + 1 ≤ mn ∨ r.items.length + 1 ≤ mn)
    (hmn : 1 ≤ mn) (hmx : mx = 2 * mn + 1) :
    ∃ its2 cs2,
      nodeRebalanceAt mx c its cs i = some (BNode.inner c its2 cs2) ∧
      OrderedZip key lo hi its2 cs2 ∧
      (∀ z ∈ cs2, CountOK z) ∧
      its2.length + sumCnt cs2 = its.length + sumCnt cs ∧
      (∀ z ∈ cs2, DepthIs z e) ∧
      cs2.length = its2.length + 1 ∧
      SizeAll mn mx cs2 ∧
      inorderZip its2 cs2 = inorderZip its cs ∧
      its.length - 1 ≤ its2.length ∧ its2.length ≤ its.length := by
  obtain ⟨loL, hiR, hordL, hordR, hlbsep, hubsep, hmergecont, hrotcont⟩ :=
    zip_pair_surgery key its cs i lo hi l r hz hilt hl hr
  have hcoL : CountOK l := (countAll_iff cs).mp hca l (List.getElem?_mem hl)
  have hcoR : CountOK r := (countAll_iff cs).mp hca r (List.getElem?_mem hr)
  have hdL : DepthIs l e := (depthAll_iff cs e).mp hd l (List.getElem?_mem hl)
  have hdR : DepthIs r e := (depthAll_iff cs e).mp hd r (List.getElem?_mem hr)
  have hirl : i + 1 < cs.length := by
    rcases List.getElem?_eq_some_iff.mp hr with ⟨hw, _⟩
    exact hw
  by_cases hmerge : l.items.length + r.items.length < mx
  · obtain ⟨m, hmeq, hordM, hcoM, hdM, hinoM, hcntM, hlenM⟩ :=
      mergeNodes_ok key (its[i]) l r loL hiR e hdL hdR hordL hordR hlbsep hubsep
        hcoL hcoR
    refine ⟨its.eraseIdx i, (cs.set i m).eraseIdx (i + 1), ?_, ?_, ?_, ?_, ?_,
      ?_, ?_, ?_, ?_, ?_⟩
    · simp only [nodeRebalanceAt, List.getElem?_eq_getElem hilt, hl, hr,
        if_pos hmerge, hmeq]
    · exact hmergecont m hordM
    · intro z hz2
      rcases List.mem_or_eq_of_mem_set (List.mem_of_mem_eraseIdx hz2) with hz3 | hz3
      · exact (countAll_iff cs).mp hca z hz3
      · rw [hz3]
        exact hcoM
    · have h1 : (its.eraseIdx i).length = its.length - 1 := by
        rw [List.length_eraseIdx, if_pos hilt]
      have h2 : (cs.set i m)[i + 1]? = some r := by
        rw [List.getElem?_set_ne (by omega)]
        exact hr
      have h3 := sumCnt_eraseIdx (cs.set i m) (i + 1) r h2
      have h4 := sumCnt_set cs i l m hl
      omega
    · intro z hz2
      rcases List.mem_or_eq_of_mem_set (List.mem_of_mem_eraseIdx hz2) with hz3 | hz3
      · exact (depthAll_iff cs e).mp hd z hz3
      · rw [hz3]
        exact hdM
    · rw [List.length_eraseIdx, if_pos (by rw [List.length_set]; omega),
        List.length_set, List.length_eraseIdx, if_pos hilt]
      omega
    · refine sizeAll_of_getElem mn mx _ ?_
      intro j hj
      have hjlen : j < cs.length - 1 := by
        simp only [List.length_eraseIdx, List.length_set] at hj
        rw [if_pos hirl] at hj
        exact hj
      by_cases hji : j < i + 1
      · rw [List.getElem_eraseIdx_of_lt _ _ _ _ hji, List.getElem_set]
        by_cases hjeq : i = j
        · rw [if_pos hjeq]
          refine sizeOK_build mn mx m (by omega) (by omega) ?_
          exact mergeNodes_children mn mx (its[i]) l r m hmeq hLcs hRcs
        · rw [if_neg hjeq]
          exact hszrest j (by omega) (by omega) (by omega)
      · rw [List.getElem_eraseIdx_of_ge _ _ _ _ (by omega), List.getElem_set,
          if_neg (by omega)]
        exact hszrest (j + 1) (by omega) (by omega) (by omega)
    · refine zip_merge_inorder its cs i l r m hilt hl hr ?_
      intro hi2
      simpa using hinoM
    · rw [List.length_eraseIdx, if_pos hilt]
    · rw [List.length_eraseIdx, if_pos hilt]
      omega
  · by_cases hgt : r.items.length < l.items.length
    · obtain ⟨l2, sep2, r2, hreq, hordL2, hordR2, hlb2, hub2, hcoL2, hcoR2,
        hdL2, hdR2, hinoR, hcntR, hlen2L, hlen2R⟩ :=
        rotateLR_ok key (its[i]) l r loL hiR e hdL hdR hordL hordR hlbsep hubsep
          hcoL hcoR (by omega)
      refine ⟨its.set i sep2, (cs.set i l2).set (i + 1) r2, ?_, ?_, ?_, ?_, ?_,
        ?_, ?_, ?_, ?_, ?_⟩
      · simp only [nodeRebalanceAt, List.getElem?_eq_getElem hilt, hl, hr,
          if_neg hmerge, if_pos hgt, hreq]
      · exact hrotcont l2 sep2 r2 hordL2 hordR2 hlb2 hub2
      · intro z hz2
        rcases List.mem_or_eq_of_mem_set hz2 with hz3 | hz3
        · rcases List.mem_or_eq_of_mem_set hz3 with hz4 | hz4
          · exact (countAll_iff cs).mp hca z hz4
          · rw [hz4]
            exact hcoL2
        · rw [hz3]
          exact hcoR2
      · have h2 : (cs.set i l2)[i + 1]? = some r := by
          rw [List.getElem?_set_ne (by omega)]
          exact hr
        have h3 := sumCnt_set (cs.set i l2) (i + 1) r r2 h2
        have h4 := sumCnt_set cs i l l2 hl
        rw [List.length_set]
        omega
      · intro z hz2
        rcases List.mem_or_eq_of_mem_set hz2 with hz3 | hz3
        · rcases List.mem_or_eq_of_mem_set hz3 with hz4 | hz4
          · exact (depthAll_iff cs e).mp hd z hz4
          · rw [hz4]
            exact hdL2
        · rw [hz3]
          exact hdR2
      · rw [List.length_set, List.length_set, List.length_set]
        omega
      · refine sizeAll_of_getElem mn mx _ ?_
        intro j hj
        simp only [List.length_set] at hj
        rw [List.getElem_set, List.getElem_set]
        by_cases hje1 : i + 1 = j
        · rw [if_pos hje1]
          refine sizeOK_build mn mx r2 (by omega) (by omega) ?_
          exact (rotateLR_children mn mx (its[i]) l r l2 r2 sep2 hreq hLcs hRcs).2
        · rw [if_neg hje1]
          by_cases hje2 : i = j
          · rw [if_pos hje2]
            have hllow : mn + 1 ≤ l.items.length := by omega
            refine sizeOK_build mn mx l2 (by omega) (by omega) ?_
            exact (rotateLR_children mn mx (its[i]) l r l2 r2 sep2 hreq
              hLcs hRcs).1
          · rw [if_neg hje2]
            exact hszrest j hj (by omega) (by omega)
      · refine zip_rotate_inorder its cs i l r l2 r2 sep2 hilt hl hr ?_
        intro hi2
        simpa using hinoR
      · rw [List.length_set]
        omega
      · rw [List.length_set]
    · obtain ⟨l2, sep2, r2, hreq, hordL2, hordR2, hlb2, hub2, hcoL2, hcoR2,
        hdL2, hdR2, hinoR, hcntR, hlen2L, hlen2R⟩ :=
        rotateRL_ok key (its[i]) l r loL hiR e hdL hdR hordL hordR hlbsep hubsep
          hcoL hcoR (by omega)
      refine ⟨its.set i sep2, (cs.set i l2).set (i + 1) r2, ?_, ?_, ?_, ?_, ?_,
        ?_, ?_, ?_, ?_, ?_⟩
      · simp only [nodeRebalanceAt, List.getElem?_eq_getElem hilt, hl, hr,
          if_neg hmerge, if_neg hgt, hreq]
      · exact hrotcont l2 sep2 r2 hordL2 hordR2 hlb2 hub2
      · intro z hz2
        rcases List.mem_or_eq_of_mem_set hz2 with hz3 | hz3
        · rcases List.mem_or_eq_of_mem_set hz3 with hz4 | hz4
          · exact (countAll_iff cs).mp hca z hz4
          · rw [hz4]
            exact hcoL2
        · rw [hz3]
          exact hcoR2
      · have h2 : (cs.set i l2)[i + 1]? = some r := by
          rw [List.getElem?_set_ne (by omega)]
          exact hr
        have h3 := sumCnt_set (cs.set i l2) (i + 1) r r2 h2
        have h4 := sumCnt_set cs i l l2 hl
        rw [List.length_set]
        omega
      · intro z hz2
        rcases List.mem_or_eq_of_mem_set hz2 with hz3 | hz3
        · rcases List.mem_or_eq_of_mem_set hz3 with hz4 | hz4
          · exact (depthAll_iff cs e).mp hd z hz4
          · rw [hz4]
            exact hdL2
        · rw [hz3]
          exact hdR2
      · rw [List.length_set, List.length_set, List.length_set]
        omega
      · refine sizeAll_of_getElem mn mx _ ?_
        intro j hj
        simp only [List.length_set] at hj
        rw [List.getElem_set, List.getElem_set]
        by_cases hje1 : i + 1 = j
        · rw [if_pos hje1]
          have hrlow : mn + 1 ≤ r.items.length := by omega
          refine sizeOK_build mn mx r2 (by omega) (by omega) ?_
          exact (rotateRL_children mn mx (its[i]) l r l2 r2 sep2 hreq hLcs hRcs).2
        · rw [if_neg hje1]
          by_cases hje2 : i = j
          · rw [if_pos hje2]
            have hrlow : mn + 1 ≤ r.items.length := by omega
            have hldef : l.items.length + 1 ≤ mn := by omega
            refine sizeOK_build mn mx l2 (by omega) (by omega) ?_
            exact (rotateRL_children mn mx (its[i]) l r l2 r2 sep2 hreq
              hLcs hRcs).1
          · rw [if_neg hje2]
            exact hszrest j hj (by omega) (by omega)
      · refine zip_rotate_inorder its cs i l r l2 r2 sep2 hilt hl hr ?_
        intro hi2
        simpa using hinoR
      · rw [List.length_set]
        omega
      · rw [List.length_set]

/-- `nodeRebalance` at a deficient child index `i0`: shifting the working
index left at the last child and running the body restores the child-size
invariant with everything else preserved. -/
theorem nodeRebalance_ok (key : α → K) (mn mx c : Nat) (its : List α)
    (cs : List (BNode α)) (i0 : Nat) (lo hi : Option K) (e : Nat) (d : BNode α)
    (hz : OrderedZip key lo hi its cs)
    (hca : CountAll cs)
    (hd : DepthAll cs e)
    (hlen : cs.length = its.length + 1)
    (hne : 1 ≤ its.length)
    (hd0 : cs[i0]? = some d)
    (hszother : ∀ j (hj : j < cs.length), j ≠ i0 → SizeOK mn mx false cs[j])
    (hdge : mn ≤ d.items.length + 1)
    (hdle : d.items.length + 1 ≤ mn)
    (hdmx : d.items.length ≤ mx)
    (hdcs : ChildrenSizeAll mn mx d)
    (hmn : 1 ≤ mn) (hmx : mx = 2 * mn + 1) :
    ∃ its2 cs2,
      nodeRebalance mx (BNode.inner c its cs) i0 = some (BNode.inner c its2 cs2) ∧
      OrderedZip key lo hi its2 cs2 ∧
      (∀ z ∈ cs2, CountOK z) ∧
      its2.length + sumCnt cs2 = its.length + sumCnt cs ∧
      (∀ z ∈ cs2, DepthIs z e) ∧
      cs2.length = its2.length + 1 ∧
      SizeAll mn mx cs2 ∧
      inorderZip its2 cs2 = inorderZip its cs ∧
      its.length - 1 ≤ its2.length ∧ its2.length ≤ its.length := by
  have hi0 : i0 < cs.length := by
    rcases List.getElem?_eq_some_iff.mp hd0 with ⟨hw, _⟩
    exact hw
  have hguard : ¬ (i0 = its.length ∧ i0 = 0) := by omega
  by_cases hcase : i0 = its.length
  · have hilt : i0 - 1 < its.length := by omega
    have hidx : i0 - 1 + 1 = i0 := by omega
    have hsib := sizeOK_parts mn mx false (cs[i0 - 1])
      (hszother (i0 - 1) (by omega) (by omega))
    obtain ⟨its2, cs2, heq, hrest⟩ :=
      nodeRebalanceAt_ok key mn mx c its cs (i0 - 1) lo hi e (cs[i0 - 1]) d
        hz hca hd hlen hilt (List.getElem?_eq_getElem (by omega))
        (by rw [hidx]; exact hd0)
        (by
          intro j hj hj1 hj2
          rw [hidx] at hj2
          exact hszother j hj hj2)
        (by
          have := hsib.2.2 rfl
          omega)
        hsib.1 hsib.2.1 hdge hdmx hdcs (Or.inr hdle) hmn hmx
    refine ⟨its2, cs2, ?_, hrest⟩
    rw [nodeRebalance, if_neg hguard, if_pos hcase]
    exact heq
  · have hilt : i0 < its.length := by omega
    have hsib := sizeOK_parts mn mx false (cs[i0 + 1])
      (hszother (i0 + 1) (by omega) (by omega))
    obtain ⟨its2, cs2, heq, hrest⟩ :=
      nodeRebalanceAt_ok key mn mx c its cs i0 lo hi e d (cs[i0 + 1])
        hz hca hd hlen hilt hd0 (List.getElem?_eq_getElem (by omega))
        (by
          intro j hj hj1 hj2
          exact hszother j hj hj1)
        hdge hdmx hdcs
        (by
          have := hsib.2.2 rfl
          omega)
        hsib.1 hsib.2.1 (Or.inl hdle) hmn hmx
    refine ⟨its2, cs2, ?_, hrest⟩
    rw [nodeRebalance, if_neg hguard, if_neg hcase]
    exact heq

/-- The tail of Go `delete` after a successful child deletion: decrement the
cached count, rebalance the child when it fell below `min`, and return the
removed item with the rebuilt node; order, counts, depth, arity, sizes and
the in-order sequence all come out right. -/
theorem deleteFinish_ok (key : α → K) (mn mx c : Nat) (its : List α)
    (cs : List (BNode α)) (i : Nat) (prev : α) (lo hi : Option K) (e : Nat)
    (ci : BNode α)
    (hz : OrderedZip key lo hi its cs)
    (hca : CountAll cs)
    (hd : DepthAll cs e)
    (hlen : cs.length = its.length + 1)
    (hne : 1 ≤ its.length)
    (hc : c - 1 = its.length + sumCnt cs) (hc1 : 1 ≤ c)
    (hci : cs[i]? = some ci)
    (hszother : ∀ j (hj : j < cs.length), j ≠ i → SizeOK mn mx false cs[j])
    (hcige : mn ≤ ci.items.length + 1)
    (hcimx : ci.items.length ≤ mx)
    (hcics : ChildrenSizeAll mn mx ci)
    (hmn : 1 ≤ mn) (hmx : mx = 2 * mn + 1) :
    ∃ its2 cs2,
      deleteFinish mn mx c its cs i prev =
        some (some (prev, BNode.inner (c - 1) its2 cs2)) ∧
      OrderedZip key lo hi its2 cs2 ∧
      (∀ z ∈ cs2, CountOK z) ∧
      c - 1 = its2.length + sumCnt cs2 ∧
      (∀ z ∈ cs2, DepthIs z e) ∧
      cs2.length = its2.length + 1 ∧
      SizeAll mn mx cs2 ∧
      inorderZip its2 cs2 = inorderZip its cs ∧
      its.length - 1 ≤ its2.length ∧ its2.length ≤ its.length := by
  have hilt : i < cs.length := by
    rcases List.getElem?_eq_some_iff.mp hci with ⟨hw, _⟩
    exact hw
  by_cases hlow : ci.items.length < mn
  · obtain ⟨its2, cs2, heq, hzz, hcaz, hcnt, hdz, hlenz, hsz, hino, hb1, hb2⟩ :=
      nodeRebalance_ok key mn mx (c - 1) its cs i lo hi e ci hz hca hd hlen hne
        hci hszother hcige (by omega) hcimx hcics hmn hmx
    refine ⟨its2, cs2, ?_, hzz, hcaz, by omega, hdz, hlenz, hsz, hino, hb1, hb2⟩
    simp only [deleteFinish, hci, if_pos hlow, heq]
  · refine ⟨its, cs, ?_, hz, (countAll_iff cs).mp hca, hc, (depthAll_iff cs e).mp hd,
      hlen, ?_, rfl, by omega, le_rfl⟩
    · simp only [deleteFinish, hci, if_neg hlow]
    · refine sizeAll_of_getElem mn mx cs ?_
      intro j hj
      by_cases hje : j = i
      · have hje2 : i = j := hje.symm
        subst hje2
        rcases List.getElem?_eq_some_iff.mp hci with ⟨hw, hv2⟩
        rw [hv2]
        exact sizeOK_build mn mx ci (by omega) hcimx hcics
      · exact hszother j hj hje

/-- Extract the last child's window from a zip, together with the surgery
that replaces the last child and tightens the upper bound to a new maximum
`p` drawn from that child. -/
theorem orderedZip_last_child (key : α → K) :
    ∀ (its : List α) (cs : List (BNode α)) (lo hi : Option K) (child : BNode α),
      OrderedZip key lo hi its cs →
      cs[its.length]? = some child →
      ∃ lo2, Ordered key lo2 hi child ∧
        (∀ y : α, lb key lo2 y → lb key lo y) ∧
        (∀ (child2 : BNode α) (p : α),
          Ordered key lo2 (some (key p)) child2 → lb key lo2 p →
          OrderedZip key lo (some (key p)) its (cs.set its.length child2)) := by
  intro its
  induction its with
  | nil =>
    intro cs lo hi child hz hch
    match cs with
    | [] => simp at hch
    | [c] =>
      simp only [List.length_nil, List.getElem?_cons_zero, Option.some.injEq] at hch
      subst hch
      rw [orderedZip_nil] at hz
      refine ⟨lo, hz, fun y hy => hy, ?_⟩
      intro child2 p h2 hp
      simp only [List.length_nil, List.set_cons_zero, orderedZip_nil]
      exact h2
    | c :: c2 :: cs2 => exact absurd hz (orderedZip_nil_cons2 key lo hi c c2 cs2)
  | cons x its2 ih =>
    intro cs lo hi child hz hch
    cases cs with
    | nil => exact absurd hz (orderedZip_cons_nil key lo hi x its2)
    | cons c cs2 =>
      rw [orderedZip_cons] at hz
      obtain ⟨hc, hlbx, hubx, htail⟩ := hz
      rw [List.length_cons, List.getElem?_cons_succ] at hch
      obtain ⟨lo2, hord2, htrans, hcont⟩ := ih cs2 (some (key x)) hi child htail hch
      refine ⟨lo2, hord2, ?_, ?_⟩
      · intro y hy
        have hxy := htrans y hy
        rw [lb_some] at hxy
        intro hk hhk
        exact lt_trans (hlbx hk hhk) hxy
      · intro child2 p h2 hp
        rw [List.length_cons, List.set_cons_succ, orderedZip_cons]
        have hxp : key x < key p := by
          have := htrans p hp
          rw [lb_some] at this
          exact this
        refine ⟨hc, hlbx, ?_, hcont child2 p h2 hp⟩
        intro hk hhk
        rw [Option.mem_some_iff] at hhk
        rw [← hhk]
        exact hxp

/-- Extract the window of the child left of separator `i` from a zip,
together with the surgery that replaces that child and the separator by the
child's extracted maximum `p`. -/
theorem orderedZip_sep_child (key : α → K) :
    ∀ (its : List α) (cs : List (BNode α)) (i : Nat) (lo hi : Option K)
      (child : BNode α),
      OrderedZip key lo hi its cs → (hilt : i < its.length) →
      cs[i]? = some child →
      ∃ lo2, Ordered key lo2 (some (key its[i])) child ∧
        (∀ y : α, lb key lo2 y → lb key lo y) ∧
        (∀ (child2 : BNode α) (p : α),
          Ordered key lo2 (some (key p)) child2 → lb key lo2 p →
          ub key (some (key its[i])) p →
          OrderedZip key lo hi (its.set i p) (cs.set i child2)) := by
  intro its
  induction its with
  | nil =>
    intro cs i lo hi child hz hilt
    simp at hilt
  | cons x its2 ih =>
    intro cs i lo hi child hz hilt hch
    cases cs with
    | nil => exact absurd hz (orderedZip_cons_nil key lo hi x its2)
    | cons c cs2 =>
      rw [orderedZip_cons] at hz
      obtain ⟨hc, hlbx, hubx, htail⟩ := hz
      cases i with
      | zero =>
        simp only [List.getElem?_cons_zero, Option.some.injEq] at hch
        subst hch
        refine ⟨lo, ?_, fun y hy => hy, ?_⟩
        · simpa using hc
        · intro child2 p h2 hp hup
          simp only [List.getElem_cons_zero] at hup
          have hpx : key p < key x := by
            have := hup (key x) rfl
            exact this
          rw [List.set_cons_zero, List.set_cons_zero, orderedZip_cons]
          refine ⟨h2, hp, ?_, ?_⟩
          · intro hk hhk
            exact lt_trans hpx (hubx hk hhk)
          · refine orderedZip_weaken key its2 cs2 (some (key x)) hi
              (some (key p)) hi htail ?_ (fun y hy => hy)
            intro y hy
            rw [lb_some] at hy ⊢
            exact lt_trans hpx hy
      | succ i2 =>
        rw [List.getElem?_cons_succ] at hch
        have hilt2 : i2 < its2.length := by simpa using hilt
        obtain ⟨lo2, hord2, htrans, hcont⟩ :=
          ih cs2 i2 (some (key x)) hi child htail hilt2 hch
        refine ⟨lo2, ?_, ?_, ?_⟩
        · simpa using hord2
        · intro y hy
          have hxy := htrans y hy
          rw [lb_some] at hxy
          intro hk hhk
          exact lt_trans (hlbx hk hhk) hxy
        · intro child2 p h2 hp hup
          rw [List.set_cons_succ, List.set_cons_succ, orderedZip_cons]
          refine ⟨hc, hlbx, hubx, ?_⟩
          refine hcont child2 p h2 hp ?_
          simpa using hup

/-- The delete-maximum descent (`delete` with `max = true`): on a node
holding at least one item it always succeeds, removes exactly the last item
of the in-order sequence, and returns a node whose window can be tightened
to that removed maximum; counts, depth, sizes and order are maintained with
the node losing at most one of its own items. -/
theorem deleteGo_max_ok (key : α → K) (mn mx : Nat) (emp : α) :
    ∀ (e fuel : Nat) (n : BNode α) (k : α) (hint : Option PathHint)
      (depth : Nat) (lo hi : Option K),
      Ordered key lo hi n → CountOK n → DepthIs n e →
      n.items.length ≤ mx → ChildrenSizeAll mn mx n →
      1 ≤ n.items.length → 1 ≤ mn → mx = 2 * mn + 1 →
      e + 1 ≤ fuel →
      ∃ prev n2,
        deleteGo key mn mx emp fuel n true k hint depth =
          some (some (prev, n2)) ∧
        n.inorder = n2.inorder ++ [prev] ∧
        Ordered key lo (some (key prev)) n2 ∧ lb key lo prev ∧ ub key hi prev ∧
        CountOK n2 ∧ DepthIs n2 e ∧ n2.cnt + 1 = n.cnt ∧
        n2.items.length ≤ mx ∧ ChildrenSizeAll mn mx n2 ∧
        n.items.length - 1 ≤ n2.items.length ∧
        n2.items.length ≤ n.items.length := by
  intro e
  induction e with
  | zero =>
    intro fuel n k hint depth lo hi hord hco hdep hmx2 hcsz hne hmn hmx hfuel
    obtain ⟨c, its, rfl⟩ := depthIs_zero_leaf hdep
    cases fuel with
    | zero => omega
    | succ f =>
      simp only [BNode.items_leaf] at hmx2 hne
      rcases List.eq_nil_or_concat its with rfl | ⟨A, last, rfl⟩
      · simp at hne
      rw [List.concat_eq_append] at *
      rw [ordered_leaf] at hord
      rw [countOK_leaf] at hco
      obtain ⟨hps, _, hcross⟩ := List.pairwise_append.mp hord.1
      have hlastmem : last ∈ A ++ [last] := List.mem_append.mpr (Or.inr (by simp))
      have htn : (((A ++ [last]).length : Int) - 1).toNat = A.length := by
        rw [List.length_append]
        simp only [List.length_cons, List.length_nil]
        omega
      have hget : (A ++ [last])[A.length]? = some last := by
        rw [List.getElem?_append_right le_rfl]
        simp
      have herase : (A ++ [last]).eraseIdx A.length = A := by
        rw [List.eraseIdx_append_of_length_le le_rfl]
        simp
      refine ⟨last, .leaf (c - 1) A, ?_, ?_, ?_, ?_, ?_, ?_, ?_, ?_, ?_, ?_,
        ?_, ?_⟩
      · simp only [deleteGo, BNode.items_leaf, if_true]
        rw [if_pos (show (0 : Int) ≤ ((A ++ [last]).length : Int) - 1 by
          rw [List.length_append]
          simp only [List.length_cons, List.length_nil]
          omega)]
        rw [htn, hget, herase]
      · simp
      · rw [ordered_leaf]
        refine ⟨hps, ?_⟩
        intro y hy
        refine ⟨(hord.2 y (List.mem_append.mpr (Or.inl hy))).1, ?_⟩
        rw [ub_some]
        exact hcross y hy last (by simp)
      · exact (hord.2 last hlastmem).1
      · exact (hord.2 last hlastmem).2
      · rw [countOK_leaf]
        rw [List.length_append] at hco
        simp only [List.length_cons, List.length_nil] at hco
        omega
      · rw [depthIs_leaf]
      · simp only [BNode.cnt_leaf]
        rw [List.length_append] at hco
        simp only [List.length_cons, List.length_nil] at hco
        omega
      · simp only [BNode.items_leaf]
        rw [List.length_append] at hmx2
        simp only [List.length_cons, List.length_nil] at hmx2
        omega
      · rw [childrenSizeAll_leaf]
        trivial
      · simp only [BNode.items_leaf, List.length_append, List.length_cons,
          List.length_nil]
        omega
      · simp only [BNode.items_leaf, List.length_append, List.length_cons,
          List.length_nil]
        omega
  | succ e ih =>
    intro fuel n k hint depth lo hi hord hco hdep hmx2 hcsz hne hmn hmx hfuel
    obtain ⟨c, its, cs, rfl⟩ := depthIs_pos_inner (by omega) hdep
    cases fuel with
    | zero => omega
    | succ f =>
      simp only [BNode.items_inner] at hmx2 hne
      have harity := arityOK_of_ordered hord
      rw [arityOK_inner] at harity
      rw [ordered_inner] at hord
      rw [countOK_inner] at hco
      rw [depthIs_inner] at hdep
      simp only [Nat.add_sub_cancel] at hdep
      rw [childrenSizeAll_inner] at hcsz
      have htn : ((((its.length : Int)) - 1) + 1).toNat = its.length := by omega
      have hchlt : its.length < cs.length := by omega
      have hget : cs[its.length]? = some cs[its.length] :=
        List.getElem?_eq_getElem hchlt
      have hchsz := sizeOK_parts mn mx false (cs[its.length])
        ((sizeAll_iff mn mx cs).mp hcsz (cs[its.length]) (List.getElem_mem hchlt))
      obtain ⟨lo2, hordch, htrans, hcont⟩ :=
        orderedZip_last_child key its cs lo hi (cs[its.length]) hord hget
      obtain ⟨prev, child2, heqc, hinoc, hordc2, hlbp, hubp, hcoc2, hdc2,
        hcntc2, hlenc2, hcsz2, hb1, hb2⟩ :=
        ih f (cs[its.length]) emp none 0 lo2 hi hordch
          ((countAll_iff cs).mp hco.2 (cs[its.length]) (List.getElem_mem hchlt))
          ((depthAll_iff cs e).mp hdep.2 (cs[its.length]) (List.getElem_mem hchlt))
          hchsz.1 hchsz.2.1 (by have := hchsz.2.2 rfl; omega) hmn hmx (by omega)
      have hzset : OrderedZip key lo (some (key prev)) its
          (cs.set its.length child2) := hcont child2 prev hordc2 hlbp
      obtain ⟨its2, cs2, hfin, hzz, hcaz, hcnt, hdz, hlenz, hsz, hino, hlb1,
        hlb2⟩ :=
        deleteFinish_ok key mn mx c its (cs.set its.length child2) its.length
          prev lo (some (key prev)) e child2 hzset
          (by
            rw [countAll_iff]
            intro z hz
            rcases List.mem_or_eq_of_mem_set hz with hz2 | hz2
            · exact (countAll_iff cs).mp hco.2 z hz2
            · rw [hz2]
              exact hcoc2)
          (by
            rw [depthAll_iff]
            intro z hz
            rcases List.mem_or_eq_of_mem_set hz with hz2 | hz2
            · exact (depthAll_iff cs e).mp hdep.2 z hz2
            · rw [hz2]
              exact hdc2)
          (by rw [List.length_set]; omega)
          hne
          (by
            have hss := sumCnt_set cs its.length (cs[its.length]) child2 hget
            omega)
          (by omega)
          (getElem?_set_self_of_lt cs its.length child2 hchlt)
          (by
            intro j hj hji
            rw [List.length_set] at hj
            rw [List.getElem_set, if_neg (by omega)]
            exact (sizeAll_iff mn mx cs).mp hcsz (cs[j]) (List.getElem_mem hj))
          (by
            have := hchsz.2.2 rfl
            omega)
          (by omega)
          hcsz2 hmn hmx
      have hdecomp := zip_decomp its.length its cs (cs[its.length]) hget le_rfl
      have hdecomp2 := zip_decomp its.length its (cs.set its.length child2)
        child2 (getElem?_set_self_of_lt cs its.length child2 hchlt) le_rfl
      rw [zipTake_set_children,
        drop_set_of_le cs its.length (its.length + 1) child2 (by omega)]
        at hdecomp2
      refine ⟨prev, .inner (c - 1) its2 cs2, ?_, ?_, ?_, ?_, hubp, ?_, ?_, ?_,
        ?_, ?_, ?_, ?_⟩
      · simp only [deleteGo, BNode.items_inner, if_true, htn, hget, heqc, hfin]
      · rw [inorder_inner, inorder_inner, hino, hdecomp2, hdecomp, hinoc]
        simp
      · rw [ordered_inner]
        exact hzz
      · exact htrans prev hlbp
      · rw [countOK_inner]
        refine ⟨hcnt, ?_⟩
        rw [countAll_iff]
        exact hcaz
      · rw [depthIs_inner]
        refine ⟨by omega, ?_⟩
        simp only [Nat.add_sub_cancel]
        rw [depthAll_iff]
        exact hdz
      · simp only [BNode.cnt_inner]
        have : 1 ≤ c := by omega
        omega
      · simp only [BNode.items_inner]
        omega
      · rw [childrenSizeAll_inner]
        exact hsz
      · simp only [BNode.items_inner]
        omega
      · simp only [BNode.items_inner]
        omega

/-- The keyed delete descent (`delete` with `max = false`): it always
completes on an invariant-satisfying subtree; a not-found result touches
nothing and certifies that no stored item compares equal to the key, and a
found result removes exactly the unique equal item from the in-order
sequence while maintaining order, counts, depth and sizes (the node losing
at most one of its own items). -/
theorem deleteGo_key_ok (key : α → K) (mn mx : Nat) (emp : α) :
    ∀ (e fuel : Nat) (n : BNode α) (k : α) (hint : Option PathHint)
      (depth : Nat) (lo hi : Option K),
      Ordered key lo hi n → CountOK n → DepthIs n e →
      n.items.length ≤ mx → ChildrenSizeAll mn mx n →
      1 ≤ n.items.length → 1 ≤ mn → mx = 2 * mn + 1 →
      HintOK hint → e + 1 ≤ fuel →
      ∃ r, deleteGo key mn mx emp fuel n false k hint depth = some r ∧
        ((r = none ∧ ∀ y ∈ n.inorder, key y ≠ key k) ∨
         (∃ prev n2 pre post, r = some (prev, n2) ∧ key prev = key k ∧
            n.inorder = pre ++ prev :: post ∧ n2.inorder = pre ++ post ∧
            Ordered key lo hi n2 ∧
            CountOK n2 ∧ DepthIs n2 e ∧ n2.cnt + 1 = n.cnt ∧
            n2.items.length ≤ mx ∧ ChildrenSizeAll mn mx n2 ∧
            n.items.length - 1 ≤ n2.items.length ∧
            n2.items.length ≤ n.items.length)) := by
  intro e
  induction e with
  | zero =>
    intro fuel n k hint depth lo hi hord hco hdep hmx2 hcsz hne hmn hmx hOK hfuel
    obtain ⟨c, its, rfl⟩ := depthIs_zero_leaf hdep
    cases fuel with
    | zero => omega
    | succ f =>
      simp only [BNode.items_leaf] at hmx2 hne
      have hsort := items_sorted_of_ordered hord
      have hnenil : (BNode.leaf c its : BNode α).items ≠ [] := by
        simp only [BNode.items_leaf]
        intro hcl
        rw [hcl] at hne
        simp at hne
      obtain ⟨hint1, hfeq, hOK1⟩ :=
        find_spec key (BNode.leaf c its) k hint depth hsort hnenil hOK
      have hbsc := bsearch_spec key (BNode.leaf c its) k hsort
      have hidx := @bsearch_index_le _ _ _ key (BNode.leaf c its) k hsort
      rcases hbs : bsearch key (BNode.leaf c its) k with ⟨i, fnd⟩
      rw [hbs] at hfeq hbsc hidx
      simp only [BNode.items_leaf] at hbsc hidx
      have hscrut :
          (match find key (BNode.leaf c its) k hint depth with
           | none => none
           | some (i2, found, hint2) =>
             some (((i2 : Nat) : Int), found, hint2)) =
            some (((i : Nat) : Int), fnd, hint1) := by
        rw [hfeq]
      rw [ordered_leaf] at hord
      rw [countOK_leaf] at hco
      cases fnd with
      | false =>
        refine ⟨none, ?_, Or.inl ⟨rfl, ?_⟩⟩
        · simp only [deleteGo, Bool.false_eq_true, if_false, hscrut]
        · rw [inorder_leaf]
          intro y hy hkeq
          have := (hbsc.2 rfl).2.2 y hy
          exact this ⟨by rw [hkeq]; exact lt_irrefl (key k),
            by rw [hkeq]; exact lt_irrefl (key k)⟩
      | true =>
        have hilt : i < its.length := hidx.2 rfl
        obtain ⟨it, hitq, hnl, hng⟩ := hbsc.1 rfl
        have hit : its[i] = it := by
          rw [List.getElem?_eq_getElem hilt] at hitq
          exact Option.some_injective _ hitq
        have hkeq : key its[i] = key k := by
          rw [hit]
          exact le_antisymm (not_lt.mp hng) (not_lt.mp hnl)
        have hti : (((i : Nat) : Int)).toNat = i := by omega
        have hgeti : its[((i : Nat) : Int).toNat]? = some its[i] := by
          rw [hti]
          exact List.getElem?_eq_getElem hilt
        have hsplit : its = its.take i ++ its[i] :: its.drop (i + 1) := by
          rw [List.getElem_cons_drop, List.take_append_drop]
        refine ⟨some (its[i], .leaf (c - 1) (its.eraseIdx i)), ?_,
          Or.inr ⟨its[i], .leaf (c - 1) (its.eraseIdx i), its.take i,
            its.drop (i + 1), rfl, hkeq, ?_, ?_, ?_, ?_, ?_, ?_, ?_, ?_, ?_,
            ?_⟩⟩
        · simp only [deleteGo, Bool.false_eq_true, if_false, hscrut,
            Int.natCast_nonneg, if_true, eq_self_iff_true, hti,
            List.getElem?_eq_getElem hilt]
        · rw [inorder_leaf]
          exact hsplit
        · rw [inorder_leaf, List.eraseIdx_eq_take_drop_succ]
        · rw [ordered_leaf]
          refine ⟨List.Pairwise.sublist (List.eraseIdx_sublist its i) hord.1, ?_⟩
          intro y hy
          exact hord.2 y (List.mem_of_mem_eraseIdx hy)
        · rw [countOK_leaf, List.length_eraseIdx, if_pos hilt]
          omega
        · rw [depthIs_leaf]
        · simp only [BNode.cnt_leaf]
          omega
        · simp only [BNode.items_leaf]
          rw [List.length_eraseIdx, if_pos hilt]
          omega
        · rw [childrenSizeAll_leaf]
          trivial
        · simp only [BNode.items_leaf]
          rw [List.length_eraseIdx, if_pos hilt]
        · simp only [BNode.items_leaf]
          rw [List.length_eraseIdx, if_pos hilt]
          omega
  | succ e ih =>
    intro fuel n k hint depth lo hi hord hco hdep hmx2 hcsz hne hmn hmx hOK hfuel
    obtain ⟨c, its, cs, rfl⟩ := depthIs_pos_inner (by omega) hdep
    cases fuel with
    | zero => omega
    | succ f =>
      simp only [BNode.items_inner] at hmx2 hne
      have hsort := items_sorted_of_ordered hord
      have hnenil : (BNode.inner c its cs : BNode α).items ≠ [] := by
        simp only [BNode.items_inner]
        intro hcl
        rw [hcl] at hne
        simp at hne
      obtain ⟨hint1, hfeq, hOK1⟩ :=
        find_spec key (BNode.inner c its cs) k hint depth hsort hnenil hOK
      have hbsc := bsearch_spec key (BNode.inner c its cs) k hsort
      have hidx := @bsearch_index_le _ _ _ key (BNode.inner c its cs) k hsort
      rcases hbs : bsearch key (BNode.inner c its cs) k with ⟨i, fnd⟩
      rw [hbs] at hfeq hbsc hidx
      simp only [BNode.items_inner] at hbsc hidx
      have hscrut :
          (match find key (BNode.inner c its cs) k hint depth with
           | none => none
           | some (i2, found, hint2) =>
             some (((i2 : Nat) : Int), found, hint2)) =
            some (((i : Nat) : Int), fnd, hint1) := by
        rw [hfeq]
      have harity := arityOK_of_ordered hord
      rw [arityOK_inner] at harity
      rw [ordered_inner] at hord
      rw [countOK_inner] at hco
      rw [depthIs_inner] at hdep
      simp only [Nat.add_sub_cancel] at hdep
      rw [childrenSizeAll_inner] at hcsz
      have hti : (((i : Nat) : Int)).toNat = i := by omega
      have hclt : i < cs.length := by omega
      have hgetc : cs[i]? = some cs[i] := List.getElem?_eq_getElem hclt
      have hchsz := sizeOK_parts mn mx false (cs[i])
        ((sizeAll_iff mn mx cs).mp hcsz (cs[i]) (List.getElem_mem hclt))
      have hcoch : CountOK (cs[i]) :=
        (countAll_iff cs).mp hco.2 (cs[i]) (List.getElem_mem hclt)
      have hdch : DepthIs (cs[i]) e :=
        (depthAll_iff cs e).mp hdep.2 (cs[i]) (List.getElem_mem hclt)
      have hnech : 1 ≤ (cs[i]).items.length := by
        have := hchsz.2.2 rfl
        omega
      cases fnd with
      | true =>
        have hilt : i < its.length := hidx.2 rfl
        obtain ⟨it, hitq, hnl, hng⟩ := hbsc.1 rfl
        have hit : its[i] = it := by
          rw [List.getElem?_eq_getElem hilt] at hitq
          exact Option.some_injective _ hitq
        have hkeq : key its[i] = key k := by
          rw [hit]
          exact le_antisymm (not_lt.mp hng) (not_lt.mp hnl)
        have hgeti : its[((i : Nat) : Int).toNat]? = some its[i] := by
          rw [hti]
          exact List.getElem?_eq_getElem hilt
        have hgetc2 : cs[((i : Nat) : Int).toNat]? = some cs[i] := by
          rw [hti]
          exact hgetc
        obtain ⟨lo2, hordch, htrans, hcont⟩ :=
          orderedZip_sep_child key its cs i lo hi (cs[i]) hord hilt hgetc
        obtain ⟨m, child2, heqc, hinoc, hordc2, hlbp, hubm, hcoc2, hdc2,
          hcntc2, hlenc2, hcsz2, hbc1, hbc2⟩ :=
          deleteGo_max_ok key mn mx emp e f (cs[i]) emp none 0 lo2
            (some (key its[i])) hordch hcoch hdch hchsz.1 hchsz.2.1 hnech
            hmn hmx (by omega)
        have hzsurg : OrderedZip key lo hi (its.set i m) (cs.set i child2) :=
          hcont child2 m hordc2 hlbp hubm
        obtain ⟨its2, cs2, hfin, hzz, hcaz, hcnt, hdz, hlenz, hsz, hino, hlb1,
          hlb2⟩ :=
          deleteFinish_ok key mn mx c (its.set i m) (cs.set i child2) i
            (its[i]) lo hi e child2 hzsurg
            (by
              rw [countAll_iff]
              intro z hz
              rcases List.mem_or_eq_of_mem_set hz with hz2 | hz2
              · exact (countAll_iff cs).mp hco.2 z hz2
              · rw [hz2]
                exact hcoc2)
            (by
              rw [depthAll_iff]
              intro z hz
              rcases List.mem_or_eq_of_mem_set hz with hz2 | hz2
              · exact (depthAll_iff cs e).mp hdep.2 z hz2
              · rw [hz2]
                exact hdc2)
            (by rw [List.length_set, List.length_set]; omega)
            (by rw [List.length_set]; omega)
            (by
              rw [List.length_set]
              have hss := sumCnt_set cs i (cs[i]) child2 hgetc
              omega)
            (by omega)
            (getElem?_set_self_of_lt cs i child2 hclt)
            (by
              intro j hj hji
              rw [List.length_set] at hj
              rw [List.getElem_set, if_neg (by omega)]
              exact (sizeAll_iff mn mx cs).mp hcsz (cs[j]) (List.getElem_mem hj))
            (by
              have := hchsz.2.2 rfl
              omega)
            (by omega)
            hcsz2 hmn hmx
        have hdecomp := zip_decomp i its cs (cs[i]) hgetc (by omega)
        have hdropits : its.drop i = its[i] :: its.drop (i + 1) :=
          (List.getElem_cons_drop its i hilt).symm
        rw [hdropits, ascendSeq_cons] at hdecomp
        have hdecomp2 := zip_decomp i (its.set i m) (cs.set i child2) child2
          (getElem?_set_self_of_lt cs i child2 hclt)
          (by rw [List.length_set]; omega)
        rw [zipTake_set_items, zipTake_set_children,
          drop_set_self its i m hilt, ascendSeq_cons,
          drop_set_of_le cs i (i + 1) child2 (by omega)] at hdecomp2
        refine ⟨some (its[i], .inner (c - 1) its2 cs2), ?_,
          Or.inr ⟨its[i], .inner (c - 1) its2 cs2,
            zipTake its cs i ++ (child2.inorder ++ [m]),
            inorderZip (its.drop (i + 1)) (cs.drop (i + 1)), rfl, hkeq,
            ?_, ?_, ?_, ?_, ?_, ?_, ?_, ?_, ?_, ?_⟩⟩
        · simp only [deleteGo, Bool.false_eq_true, if_false, hscrut,
            eq_self_iff_true, if_true, hti, List.getElem?_eq_getElem hilt,
            hgetc, heqc, hfin]
        · rw [inorder_inner, hdecomp, hinoc]
        · rw [inorder_inner, hino, hdecomp2]
          simp [List.append_assoc]
        · rw [ordered_inner]
          exact hzz
        · rw [countOK_inner]
          refine ⟨hcnt, ?_⟩
          rw [countAll_iff]
          exact hcaz
        · rw [depthIs_inner]
          refine ⟨by omega, ?_⟩
          simp only [Nat.add_sub_cancel]
          rw [depthAll_iff]
          exact hdz
        · simp only [BNode.cnt_inner]
          have hcpos : 1 ≤ c := by omega
          omega
        · simp only [BNode.items_inner]
          rw [List.length_set] at hlb2
          omega
        · rw [childrenSizeAll_inner]
          exact hsz
        · simp only [BNode.items_inner]
          rw [List.length_set] at hlb1
          omega
        · simp only [BNode.items_inner]
          rw [List.length_set] at hlb2
          omega
      | false =>
        have hile : i ≤ its.length := hidx.1
        have hbelow := (hbsc.2 rfl).1
        have habove := (hbsc.2 rfl).2.1
        have hgetc2 : cs[((i : Nat) : Int).toNat]? = some cs[i] := by
          rw [hti]
          exact hgetc
        obtain ⟨lo2, hi2, hordci, hlbT, hubT, hsetcont, hsplitcont⟩ :=
          zip_child_surgery key its cs i lo hi (cs[i]) hord hgetc
        obtain ⟨rc, heqc, hdisj⟩ :=
          ih f (cs[i]) k hint1 (depth + 1) lo2 hi2 hordci hcoch hdch
            hchsz.1 hchsz.2.1 hnech hmn hmx hOK1 (by omega)
        have hdecomp := zip_decomp i its cs (cs[i]) hgetc hile
        rcases hdisj with ⟨hrc, hnomem⟩ | ⟨prev, child2, preC, postC, hrc, hkeq,
          hinoc, hinoc2, hordc2, hcoc2, hdc2, hcntc2, hclen1, hccs2, hcb1, hcb2⟩
        · subst hrc
          refine ⟨none, ?_, Or.inl ⟨rfl, ?_⟩⟩
          · simp only [deleteGo, Bool.false_eq_true, if_false, hscrut, hti,
              hgetc, heqc]
          · rw [inorder_inner, hdecomp]
            intro y hy hkeq
            rcases List.mem_append.mp hy with hy1 | hy2
            · rcases List.mem_append.mp hy1 with hy3 | hy4
              · have := zipTake_below key k its cs i lo hi hord hbelow y hy3
                exact absurd hkeq (ne_of_lt this)
              · exact hnomem y hy4 hkeq
            · have := ascendSeq_above key k its cs i lo hi hord habove y hy2
              exact absurd hkeq (ne_of_gt this)
        · subst hrc
          obtain ⟨its2, cs2, hfin, hzz, hcaz, hcnt, hdz, hlenz, hsz, hino,
            hlb1, hlb2⟩ :=
            deleteFinish_ok key mn mx c its (cs.set i child2) i prev lo hi e
              child2 (hsetcont child2 hordc2)
              (by
                rw [countAll_iff]
                intro z hz
                rcases List.mem_or_eq_of_mem_set hz with hz2 | hz2
                · exact (countAll_iff cs).mp hco.2 z hz2
                · rw [hz2]
                  exact hcoc2)
              (by
                rw [depthAll_iff]
                intro z hz
                rcases List.mem_or_eq_of_mem_set hz with hz2 | hz2
                · exact (depthAll_iff cs e).mp hdep.2 z hz2
                · rw [hz2]
                  exact hdc2)
              (by rw [List.length_set]; omega)
              hne
              (by
                have hss := sumCnt_set cs i (cs[i]) child2 hgetc
                omega)
              (by omega)
              (getElem?_set_self_of_lt cs i child2 hclt)
              (by
                intro j hj hji
                rw [List.length_set] at hj
                rw [List.getElem_set, if_neg (by omega)]
                exact (sizeAll_iff mn mx cs).mp hcsz (cs[j])
                  (List.getElem_mem hj))
              (by
                have := hchsz.2.2 rfl
                omega)
              (by omega)
              hccs2 hmn hmx
          have hdecomp2 := zip_decomp i its (cs.set i child2) child2
            (getElem?_set_self_of_lt cs i child2 hclt) hile
          rw [zipTake_set_children,
            drop_set_of_le cs i (i + 1) child2 (by omega)] at hdecomp2
          refine ⟨some (prev, .inner (c - 1) its2 cs2), ?_,
            Or.inr ⟨prev, .inner (c - 1) its2 cs2,
              zipTake its cs i ++ preC,
              postC ++ ascendSeq (its.drop i) (cs.drop (i + 1)), rfl, hkeq,
              ?_, ?_, ?_, ?_, ?_, ?_, ?_, ?_, ?_, ?_⟩⟩
          · simp only [deleteGo, Bool.false_eq_true, if_false, hscrut, hti,
              hgetc, heqc, hfin]
          · rw [inorder_inner, hdecomp, hinoc]
            simp [List.append_assoc]
          · rw [inorder_inner, hino, hdecomp2, hinoc2]
            simp [List.append_assoc]
          · rw [ordered_inner]
            exact hzz
          · rw [countOK_inner]
            refine ⟨by omega, ?_⟩
            rw [countAll_iff]
            exact hcaz
          · rw [depthIs_inner]
            refine ⟨by omega, ?_⟩
            simp only [Nat.add_sub_cancel]
            rw [depthAll_iff]
            exact hdz
          · simp only [BNode.cnt_inner]
            have hcpos : 1 ≤ c := by omega
            omega
          · simp only [BNode.items_inner]
            omega
          · rw [childrenSizeAll_inner]
            exact hsz
          · simp only [BNode.items_inner]
            omega
          · simp only [BNode.items_inner]
            omega

/-- In a strictly sorted list, a decomposition around an item of a given key
is unique. -/
theorem sorted_decomp_unique (key : α → K) {l p1 s1 p2 s2 : List α} {y1 y2 : α}
    (hsort : l.Pairwise (fun a b => key a < key b))
    (h1 : l = p1 ++ y1 :: s1) (h2 : l = p2 ++ y2 :: s2)
    (hkeq : key y1 = key y2) :
    p1 = p2 ∧ y1 = y2 ∧ s1 = s2 := by
  have hb1 : p1.length < l.length := by
    rw [h1, List.length_append, List.length_cons]
    omega
  have hb2 : p2.length < l.length := by
    rw [h2, List.length_append, List.length_cons]
    omega
  have hg1 : l[p1.length] = y1 := by
    have : l[p1.length]? = some y1 := by
      rw [h1, List.getElem?_append_right le_rfl]
      simp
    rw [List.getElem?_eq_getElem hb1] at this
    exact Option.some_injective _ this
  have hg2 : l[p2.length] = y2 := by
    have : l[p2.length]? = some y2 := by
      rw [h2, List.getElem?_append_right le_rfl]
      simp
    rw [List.getElem?_eq_getElem hb2] at this
    exact Option.some_injective _ this
  have hlen : p1.length = p2.length := by
    by_contra hneq
    rcases Nat.lt_or_ge p1.length p2.length with hlt | hge
    · have := List.pairwise_iff_getElem.mp hsort p1.length p2.length hb1 hb2 hlt
      rw [hg1, hg2] at this
      exact absurd hkeq (ne_of_lt this)
    · have hlt2 : p2.length < p1.length := by omega
      have := List.pairwise_iff_getElem.mp hsort p2.length p1.length hb2 hb1 hlt2
      rw [hg1, hg2] at this
      exact absurd hkeq.symm (ne_of_lt this)
  obtain ⟨hp, ht⟩ := List.append_inj (h1 ▸ h2) hlen
  injection ht with hy hs
  exact ⟨hp, hy, hs⟩

theorem treeInorder_update {α : Type} (t : BTree α) (r : Option (BNode α))
    (c2 : Nat) :
    treeInorder { t with root := r, count := c2 } =
      (match r with
       | none => []
       | some n2 => n2.inorder) := rfl

/-- Master contract of `deleteHint`: on a tree satisfying the representation
invariant it never fails, leaves the tree literally untouched exactly when no
stored item compares equal to the key, and otherwise removes the unique equal
item, decrementing `Len` by one, deleting exactly that item from the in-order
sequence, and preserving the representation invariant. -/
theorem deleteHint_ok (key : α → K) (t : BTree α) (k : α) (hint : Option PathHint)
    (h fuel : Nat) (hinv : TreeInv key t)
    (hdep : ∀ rt, t.root = some rt → DepthIs rt h)
    (hOK : HintOK hint) (hfuel : h + 1 ≤ fuel) :
    ∃ res t2, deleteHint key fuel t k hint = some (res, t2) ∧
      TreeInv key t2 ∧
      t2.min = t.min ∧ t2.max = t.max ∧ t2.empty = t.empty ∧
      (res = none ↔ ∀ y ∈ treeInorder t, key y ≠ key k) ∧
      (res = none → t2 = t) ∧
      (∀ p, res = some p → p ∈ treeInorder t ∧ key p = key k ∧
        Len t2 + 1 = Len t ∧
        ∃ pre post, treeInorder t = pre ++ p :: post ∧
          treeInorder t2 = pre ++ post) := by
  obtain ⟨⟨hcount, hzero, hnodes⟩, hrne, hmn, hmx⟩ := hinv
  cases hroot : t.root with
  | none =>
    refine ⟨none, t, ?_, ⟨⟨hcount, hzero, hnodes⟩, hrne, hmn, hmx⟩, rfl, rfl,
      rfl, ?_, fun _ => rfl, ?_⟩
    · rw [deleteHint, hroot]
    · refine ⟨fun _ y hy _ => ?_, fun _ => rfl⟩
      rw [treeInorder, hroot] at hy
      simp at hy
    · intro p hp
      simp at hp
  | some root =>
    obtain ⟨hord, har, hco, hsz, _, hne2, hcnt2⟩ :=
      treeInv_root ⟨⟨hcount, hzero, hnodes⟩, hrne, hmn, hmx⟩ root hroot
    have hdeproot := hdep root hroot
    have hparts := sizeOK_parts t.min t.max true root hsz
    have hnelen : 1 ≤ root.items.length := by
      cases hlen : root.items with
      | nil => exact absurd hlen hne2
      | cons a l => simp [hlen]
    obtain ⟨r, heq, hdisj⟩ :=
      deleteGo_key_ok key t.min t.max t.empty h fuel root k hint 0 none none
        hord hco hdeproot hparts.1 hparts.2.1 hnelen hmn hmx hOK hfuel
    have htio : treeInorder t = root.inorder := by
      rw [treeInorder, hroot]
    rcases hdisj with ⟨hrnone, hnomem⟩ | ⟨prev, root1, pre, post, hrsome, hkeq,
      hino1, hino2, hord1, hco1, hdep1, hcnt1, hmx1, hcsz1, hb1, hb2⟩
    · subst hrnone
      refine ⟨none, t, ?_, ⟨⟨hcount, hzero, hnodes⟩, hrne, hmn, hmx⟩, rfl, rfl,
        rfl, ?_, fun _ => rfl, ?_⟩
      · simp only [deleteHint, hroot, heq]
      · refine ⟨fun _ => ?_, fun _ => rfl⟩
        rw [htio]
        exact hnomem
      · intro p hp
        simp at hp
    · subst hrsome
      have hprevmem : prev ∈ treeInorder t := by
        rw [htio, hino1]
        exact List.mem_append.mpr (Or.inr (List.mem_cons_self prev post))
      have hcountpos : 1 ≤ t.count := by
        have : treeInorder t ≠ [] := by
          intro hc
          rw [hc] at hprevmem
          simp at hprevmem
        rw [hcount]
        cases hc2 : treeInorder t with
        | nil => exact absurd hc2 this
        | cons a l => simp [hc2]
      have hlen1 : root1.inorder.length = t.count - 1 := by
        have hl1 : (treeInorder t).length = t.count := hcount.symm
        rw [htio, hino1] at hl1
        rw [hino2, List.length_append]
        rw [List.length_append, List.length_cons] at hl1
        omega
      obtain ⟨root2, hcollapse, hordr2, hcor2, hmxr2, hcszr2, hinor2, hdepr2,
        hner2⟩ :
          ∃ root2,
            (match root1 with
             | .inner c2 [] cs2 => cs2[0]?
             | _ => some root1) = some root2 ∧
            Ordered key none none root2 ∧ CountOK root2 ∧
            root2.items.length ≤ t.max ∧ ChildrenSizeAll t.min t.max root2 ∧
            root2.inorder = root1.inorder ∧ (∃ d2, DepthIs root2 d2) ∧
            (root2.items = [] → root2.inorder = []) := by
        cases hr1 : root1 with
        | leaf c2 its2 =>
          refine ⟨root1, by rw [hr1], hord1, hco1, hmx1, hcsz1, by rw [hr1],
            ⟨h, hdep1⟩, ?_⟩
          rw [hr1]
          intro hitsnil
          simp only [BNode.items_leaf] at hitsnil
          rw [inorder_leaf]
          exact hitsnil
        | inner c2 its2 cs2 =>
          cases hits2 : its2 with
          | cons a l =>
            refine ⟨root1, ?_, hord1, hco1, hmx1, hcsz1, by rw [hr1, hits2],
              ⟨h, hdep1⟩, ?_⟩
            · rw [hr1, hits2]
            · rw [hr1, hits2]
              intro hitsnil
              simp at hitsnil
          | nil =>
            subst hr1
            subst hits2
            have har1 := arityOK_of_ordered hord1
            rw [arityOK_inner] at har1
            have hcs2 : cs2.length = 1 := by
              have := har1.1
              simpa using this
            cases cs2 with
            | nil => simp at hcs2
            | cons m cs3 =>
            cases cs3 with
            | cons m2 cs4 => simp at hcs2
            | nil =>
            rw [ordered_inner] at hord1
            rw [orderedZip_nil] at hord1
            rw [countOK_inner] at hco1
            rw [depthIs_inner] at hdep1
            rw [childrenSizeAll_inner] at hcsz1
            have hmsz : SizeOK t.min t.max false m :=
              (sizeAll_iff t.min t.max [m]).mp hcsz1 m (by simp)
            have hmparts := sizeOK_parts t.min t.max false m hmsz
            refine ⟨m, by simp, hord1, ?_, hmparts.1, hmparts.2.1, ?_,
              ⟨h - 1, ?_⟩, ?_⟩
            · rw [countAll_iff] at hco1
              exact hco1.2 m (by simp)
            · rw [inorder_inner, inorderZip_nil_left]
            · exact (depthAll_iff [m] (h - 1)).mp hdep1.2 m (by simp)
            · intro hitsnil
              have := hmparts.2.2 rfl
              rw [hitsnil] at this
              simp at this
              omega
      refine ⟨some prev,
        { t with
            root := if t.count - 1 = 0 then none else some root2,
            count := t.count - 1 },
        ?_, ?_, rfl, rfl, rfl, ?_, ?_, ?_⟩
      · simp only [deleteHint, hroot, heq, hcollapse]
      · by_cases hzero2 : t.count - 1 = 0
        · refine ⟨⟨?_, ?_, ?_⟩, ?_, hmn, hmx⟩
          · show t.count - 1 = (treeInorder _).length
            rw [treeInorder_update, if_pos hzero2]
            exact hzero2
          · show t.count - 1 = 0 ↔
              (if t.count - 1 = 0 then none else some root2) = none
            rw [if_pos hzero2]
            simp [hzero2]
          · intro n hn
            have hn2 : (if t.count - 1 = 0 then none else some root2) =
                some n := hn
            rw [if_pos hzero2] at hn2
            simp at hn2
          · intro n hn
            have hn2 : (if t.count - 1 = 0 then none else some root2) =
                some n := hn
            rw [if_pos hzero2] at hn2
            simp at hn2
        · refine ⟨⟨?_, ?_, ?_⟩, ?_, hmn, hmx⟩
          · show t.count - 1 = (treeInorder _).length
            rw [treeInorder_update, if_neg hzero2]
            show t.count - 1 = root2.inorder.length
            rw [hinor2, hlen1]
          · show t.count - 1 = 0 ↔
              (if t.count - 1 = 0 then none else some root2) = none
            rw [if_neg hzero2]
            constructor
            · intro hc
              exact absurd hc hzero2
            · intro hc
              simp at hc
          · intro n hn
            have hn2 : (if t.count - 1 = 0 then none else some root2) =
                some n := hn
            rw [if_neg hzero2] at hn2
            have hn3 : root2 = n := by
              injection hn2
            subst hn3
            exact ⟨specOrder_of_ordered hordr2,
              sizeOK_true_build t.min t.max root2 hmxr2 hcszr2,
              arityOK_of_ordered hordr2, hcor2, hdepr2⟩
          · intro n hn
            have hn2 : (if t.count - 1 = 0 then none else some root2) =
                some n := hn
            rw [if_neg hzero2] at hn2
            have hn3 : root2 = n := by
              injection hn2
            subst hn3
            intro hitsnil
            have h9 := hner2 hitsnil
            rw [hinor2] at h9
            have h0 : t.count - 1 = 0 := by
              rw [← hlen1, h9]
              rfl
            exact absurd h0 hzero2
      · constructor
        · intro hc
          simp at hc
        · intro hall
          exact absurd hkeq (hall prev hprevmem)
      · intro hc
        simp at hc
      · intro p hp
        have hpe : p = prev := by
          injection hp with h9
          exact h9.symm
        subst hpe
        refine ⟨hprevmem, hkeq, ?_, pre, post, by rw [htio]; exact hino1, ?_⟩
        · show t.count - 1 + 1 = t.count
          omega
        · rw [treeInorder_update]
          by_cases hzero2 : t.count - 1 = 0
          · rw [if_pos hzero2]
            have hpp : (pre ++ post).length = 0 := by
              have h8 := hlen1
              rw [hino2] at h8
              omega
            rw [List.length_eq_zero] at hpp
            rw [hpp]
          · rw [if_neg hzero2]
            show root2.inorder = pre ++ post
            rw [hinor2, hino2]

/-- C3.  On a tree satisfying the representation invariant, `DeleteHint(k,
hint)` (for any hint) and `Delete(k)` complete and agree: when an item
comparing equal to `k` is stored, both return exactly that stored item with
`found = true`, `Len` drops by exactly one, and the in-order sequence is the
old sequence with exactly that one item removed (an internal-node hit is
refilled with the predecessor extracted by the recursive delete-max descent
mirrored by `deleteGo` with `max = true`); when no equal item is stored both
return `found = false` and leave the tree untouched.  The representation
invariant is preserved. -/
theorem delete_correct (key : α → K) (t : BTree α) (k : α)
    (hint : Option PathHint) (h fuel : Nat) (hinv : TreeInv key t)
    (hdep : ∀ rt, t.root = some rt → DepthIs rt h)
    (hOK : HintOK hint) (hfuel : h + 1 ≤ fuel) :
    ∃ res t2 res2 t3,
      deleteHint key fuel t k hint = some (res, t2) ∧
      Delete key fuel t k = some (res2, t3) ∧
      res2 = res ∧ Len t3 = Len t2 ∧ treeInorder t3 = treeInorder t2 ∧
      TreeInv key t2 ∧ TreeInv key t3 ∧
      ((∃ y ∈ treeInorder t, key y = key k) →
        ∃ y pre post, res = some y ∧ key y = key k ∧ y ∈ treeInorder t ∧
          treeInorder t = pre ++ y :: post ∧ treeInorder t2 = pre ++ post ∧
          Len t2 + 1 = Len t) ∧
      ((∀ y ∈ treeInorder t, key y ≠ key k) → res = none ∧ t2 = t) := by
  have hsorted : (treeInorder t).Pairwise (fun a b => key a < key b) := by
    cases hroot : t.root with
    | none =>
      rw [treeInorder, hroot]
      exact List.Pairwise.nil
    | some rt =>
      rw [treeInorder, hroot]
      exact ordered_inorder_sorted (treeInv_root hinv rt hroot).1
  obtain ⟨res, t2, heq1, hinv2, _, _, _, hiff1, hnone1, hsome1⟩ :=
    deleteHint_ok key t k hint h fuel hinv hdep hOK hfuel
  obtain ⟨res2, t3, heq2, hinv3, _, _, _, hiff2, hnone2, hsome2⟩ :=
    deleteHint_ok key t k none h fuel hinv hdep trivial hfuel
  have hres : res2 = res := by
    cases hres1 : res with
    | none =>
      rw [hiff2]
      exact hiff1.mp hres1
    | some y1 =>
      cases hres2 : res2 with
      | none =>
        obtain ⟨hm1, hk1, _, _⟩ := hsome1 y1 hres1
        exact absurd hk1 (hiff2.mp hres2 y1 hm1)
      | some y2 =>
        obtain ⟨hm1, hk1, _, _⟩ := hsome1 y1 hres1
        obtain ⟨hm2, hk2, _, _⟩ := hsome2 y2 hres2
        rw [sorted_mem_unique key hsorted hm2 hm1 (by rw [hk1, hk2])]
  refine ⟨res, t2, res2, t3, heq1, heq2, hres, ?_, ?_, hinv2, hinv3, ?_, ?_⟩
  · cases hres1 : res with
    | none =>
      rw [hnone1 hres1, hnone2 (by rw [hres, hres1])]
    | some y1 =>
      obtain ⟨_, _, hl1, _⟩ := hsome1 y1 hres1
      obtain ⟨_, _, hl2, _⟩ := hsome2 y1 (by rw [hres, hres1])
      omega
  · cases hres1 : res with
    | none =>
      rw [hnone1 hres1, hnone2 (by rw [hres, hres1])]
    | some y1 =>
      obtain ⟨_, _, _, pre1, post1, hd1, hd1b⟩ := hsome1 y1 hres1
      obtain ⟨_, _, _, pre2, post2, hd2, hd2b⟩ :=
        hsome2 y1 (by rw [hres, hres1])
      obtain ⟨hpe, _, hse⟩ := sorted_decomp_unique key hsorted hd2 hd1 rfl
      rw [hd1b, hd2b, hpe, hse]
  · intro ⟨y, hy, hkey⟩
    cases hres1 : res with
    | none => exact absurd hkey (hiff1.mp hres1 y hy)
    | some y1 =>
      obtain ⟨hm1, hk1, hl1, pre1, post1, hd1, hd1b⟩ := hsome1 y1 hres1
      exact ⟨y1, pre1, post1, rfl, hk1, hm1, hd1, hd1b, hl1⟩
  · intro hall
    have hres1 : res = none := hiff1.mpr hall
    exact ⟨hres1, hnone1 hres1⟩

/-- Witness for C3 at a concrete input: deleting key `2` (present at the
root of `sampleTree`) with the hypotheses discharged by computation. -/
theorem delete_correct_witness :
    ∃ res t2 res2 t3,
      deleteHint (fun x : Int => x) 2 sampleTree 2 none = some (res, t2) ∧
      Delete (fun x : Int => x) 2 sampleTree 2 = some (res2, t3) ∧
      res2 = res ∧ Len t3 = Len t2 ∧ treeInorder t3 = treeInorder t2 ∧
      TreeInv (fun x : Int => x) t2 ∧ TreeInv (fun x : Int => x) t3 ∧
      ((∃ y ∈ treeInorder sampleTree, y = (2 : Int)) →
        ∃ y pre post, res = some y ∧ y = (2 : Int) ∧
          y ∈ treeInorder sampleTree ∧
          treeInorder sampleTree = pre ++ y :: post ∧
          treeInorder t2 = pre ++ post ∧ Len t2 + 1 = Len sampleTree) ∧
      ((∀ y ∈ treeInorder sampleTree, y ≠ (2 : Int)) →
        res = none ∧ t2 = sampleTree) :=
  delete_correct (fun x : Int => x) sampleTree 2 none 1 2 sampleTree_inv
    (by
      intro rt hrt
      simp only [sampleTree, Option.some.injEq] at hrt
      subst hrt
      rw [depthIs_inner]
      refine ⟨by decide, ?_⟩
      rw [depthAll_iff]
      intro c hc
      simp at hc
      rcases hc with rfl | rfl <;> rw [depthIs_leaf])
    trivial (by decide)

/-- C10.  Failed deletions are atomic: on a tree satisfying the
representation invariant, `DeleteHint(k, hint)` always completes, reports
`found = false` exactly when no stored item compares equal to `k`, and in
that case returns the tree value literally unchanged — same `Len`, same
`Scan` behaviour for every visitor. -/
theorem delete_notfound_atomic (key : α → K) (t : BTree α) (k : α)
    (hint : Option PathHint) (h fuel : Nat) (hinv : TreeInv key t)
    (hdep : ∀ rt, t.root = some rt → DepthIs rt h)
    (hOK : HintOK hint) (hfuel : h + 1 ≤ fuel) :
    ∃ res t2, deleteHint key fuel t k hint = some (res, t2) ∧
      (res = none ↔ ∀ y ∈ treeInorder t, key y ≠ key k) ∧
      (res = none →
        t2 = t ∧ Len t2 = Len t ∧ treeInorder t2 = treeInorder t ∧
          ∀ f : α → Bool, Scan f t2 = Scan f t) := by
  obtain ⟨res, t2, heq1, _, _, _, _, hiff1, hnone1, _⟩ :=
    deleteHint_ok key t k hint h fuel hinv hdep hOK hfuel
  refine ⟨res, t2, heq1, hiff1, ?_⟩
  intro hres
  have ht2 := hnone1 hres
  subst ht2
  exact ⟨rfl, rfl, rfl, fun f => rfl⟩

/-- Witness for C10 at a concrete input: deleting the absent key `10` from
`sampleTree`, hypotheses discharged by computation. -/
theorem delete_notfound_atomic_witness :
    ∃ res t2, deleteHint (fun x : Int => x) 2 sampleTree 10 none =
        some (res, t2) ∧
      (res = none ↔ ∀ y ∈ treeInorder sampleTree, y ≠ (10 : Int)) ∧
      (res = none →
        t2 = sampleTree ∧ Len t2 = Len sampleTree ∧
          treeInorder t2 = treeInorder sampleTree ∧
          ∀ f : Int → Bool, Scan f t2 = Scan f sampleTree) :=
  delete_notfound_atomic (fun x : Int => x) sampleTree 10 none 1 2
    sampleTree_inv
    (by
      intro rt hrt
      simp only [sampleTree, Option.some.injEq] at hrt
      subst hrt
      rw [depthIs_inner]
      refine ⟨by decide, ?_⟩
      rw [depthAll_iff]
      intro c hc
      simp at hc
      rcases hc with rfl | rfl <;> rw [depthIs_leaf])
    trivial (by decide)

end Delete

end GoBTree
